import Mathlib

/-! TSDuck: FmxBufferSizeDescriptor and the CTS3 chaining mode.

A shallow embedding of

* `src/libtsduck/dtv/descriptors/tsFmxBufferSizeDescriptor.cpp`
  (binary and XML serialization of the FlexMux buffer size descriptor), and
* `src/libtsduck/crypto/tsCTS3.h` (ECB ciphertext stealing),

followed by the properties proved about them.

Bytes are natural numbers. Machine integers are natural numbers, reduced
modulo `2^w` at the places where the C++ code narrows them.
-/

namespace ts

/-! ## The cursor buffer -/

/-- Modelled from the spec: the Cursor Buffer (`ts::PSIBuffer`, whose source file is
not among those under `src/`). `data` is the byte region written so far, which is also the
region open for reading; `capacity` bounds the region for writing; `rpos` is the
read cursor; `readError` is the sticky truncation flag of the read side and
`writeError` the write-truncation flag. -/
structure PSIBuffer where
  data : List Nat
  capacity : Nat
  rpos : Nat
  readError : Bool
  writeError : Bool
deriving DecidableEq, Repr

namespace PSIBuffer

/-- A buffer positioned at the start of a payload to decode. -/
def forRead (payload : List Nat) : PSIBuffer :=
  { data := payload, capacity := payload.length, rpos := 0, readError := false, writeError := false }

/-- An empty buffer with room for `capacity` bytes, ready for encoding. -/
def forWrite (capacity : Nat) : PSIBuffer :=
  { data := [], capacity := capacity, rpos := 0, readError := false, writeError := false }

/-- Number of bytes between the read cursor and the end of the region. -/
def remainingReadBytes (buf : PSIBuffer) : Nat :=
  buf.data.length - buf.rpos

/-- Modelled from the spec: `can_read(n)`, the non-destructive capacity check. -/
def canReadBytes (buf : PSIBuffer) (n : Nat) : Bool :=
  decide (buf.rpos + n ≤ buf.data.length)

/-- Modelled from the spec: `read_uint(8)`. When no byte remains the truncation flag
is set, zero is returned and the cursor does not move. -/
def getUInt8 (buf : PSIBuffer) : Nat × PSIBuffer :=
  if buf.rpos + 1 ≤ buf.data.length then
    (buf.data.getD buf.rpos 0, { buf with rpos := buf.rpos + 1 })
  else
    (0, { buf with readError := true })

/-- Modelled from the spec: `read_uint(24)`, most significant byte first (the byte
order of MPEG sections). When fewer than three bytes remain the truncation flag is
set, zero is returned and the cursor does not move. -/
def getUInt24 (buf : PSIBuffer) : Nat × PSIBuffer :=
  if buf.rpos + 3 ≤ buf.data.length then
    (buf.data.getD buf.rpos 0 * 65536 + buf.data.getD (buf.rpos + 1) 0 * 256
        + buf.data.getD (buf.rpos + 2) 0,
      { buf with rpos := buf.rpos + 3 })
  else
    (0, { buf with readError := true })

/-- Modelled from the spec: `write_uint(value, 8)`. The argument is a `uint8_t`.
When the capacity is insufficient nothing is written and the write-truncation flag
is set. -/
def putUInt8 (buf : PSIBuffer) (v : Nat) : PSIBuffer :=
  if buf.data.length + 1 ≤ buf.capacity then
    { buf with data := buf.data ++ [v % 256] }
  else
    { buf with writeError := true }

/-- Modelled from the spec: `write_uint(value, 24)`, most significant byte first.
Only the 24 low-order bits of the argument are stored. When the capacity is
insufficient nothing is written and the write-truncation flag is set. -/
def putUInt24 (buf : PSIBuffer) (v : Nat) : PSIBuffer :=
  if buf.data.length + 3 ≤ buf.capacity then
    { buf with data := buf.data ++ [(v / 65536) % 256, (v / 256) % 256, v % 256] }
  else
    { buf with writeError := true }

end PSIBuffer

/-! ## FmxBufferSizeDescriptor: data model -/

/-- One FlexMux buffer description: `flexMuxChnnel` (spelled as in the source) is a
`uint8_t`, `FB_BufferSize` is a wider unsigned integer of which 24 bits are coded. -/
structure FlexMuxBufferDescriptor_type where
  flexMuxChnnel : Nat
  FB_BufferSize : Nat
deriving DecidableEq, Repr

/-- The descriptor: a default entry and an ordered list of entries. -/
structure FmxBufferSizeDescriptor where
  DefaultFlexMuxBufferDescriptor : FlexMuxBufferDescriptor_type
  FlexMuxBufferDescriptor : List FlexMuxBufferDescriptor_type
deriving DecidableEq, Repr

namespace FlexMuxBufferDescriptor_type

/-- The default constructor of an entry: both fields zero (source lines 29-33). -/
def new : FlexMuxBufferDescriptor_type :=
  { flexMuxChnnel := 0, FB_BufferSize := 0 }

/-- The channel fits its `uint8_t` field. -/
def ChannelInRange (e : FlexMuxBufferDescriptor_type) : Prop :=
  e.flexMuxChnnel ≤ 0xFF

/-- A valid entry: the channel is an 8-bit value and the buffer size fits in 24 bits. -/
def Valid (e : FlexMuxBufferDescriptor_type) : Prop :=
  e.flexMuxChnnel ≤ 0xFF ∧ e.FB_BufferSize ≤ 0xFFFFFF

instance (e : FlexMuxBufferDescriptor_type) : Decidable e.ChannelInRange :=
  inferInstanceAs (Decidable (e.flexMuxChnnel ≤ 0xFF))

instance (e : FlexMuxBufferDescriptor_type) : Decidable e.Valid :=
  inferInstanceAs (Decidable (e.flexMuxChnnel ≤ 0xFF ∧ e.FB_BufferSize ≤ 0xFFFFFF))

/-- The value that a 24-bit field keeps of an entry: the size modulo `2^24`. -/
def truncate24 (e : FlexMuxBufferDescriptor_type) : FlexMuxBufferDescriptor_type :=
  { flexMuxChnnel := e.flexMuxChnnel, FB_BufferSize := e.FB_BufferSize % 16777216 }

end FlexMuxBufferDescriptor_type

namespace FmxBufferSizeDescriptor

/-- The state built by the default constructor (source lines 35-40). -/
def new : FmxBufferSizeDescriptor :=
  { DefaultFlexMuxBufferDescriptor := FlexMuxBufferDescriptor_type.new,
    FlexMuxBufferDescriptor := [] }

/-- Source lines 42-47: `clearContent`. -/
def clearContent (_d : FmxBufferSizeDescriptor) : FmxBufferSizeDescriptor :=
  { DefaultFlexMuxBufferDescriptor := { flexMuxChnnel := 0, FB_BufferSize := 0 },
    FlexMuxBufferDescriptor := [] }

/-- Every channel of the descriptor fits its `uint8_t` field. -/
def ChannelsInRange (d : FmxBufferSizeDescriptor) : Prop :=
  d.DefaultFlexMuxBufferDescriptor.ChannelInRange ∧
    ∀ e ∈ d.FlexMuxBufferDescriptor, e.ChannelInRange

/-- A valid instance: every entry, the default one included, is valid. -/
def Valid (d : FmxBufferSizeDescriptor) : Prop :=
  d.DefaultFlexMuxBufferDescriptor.Valid ∧ ∀ e ∈ d.FlexMuxBufferDescriptor, e.Valid

instance (d : FmxBufferSizeDescriptor) : Decidable d.ChannelsInRange :=
  inferInstanceAs (Decidable (_ ∧ _))

instance (d : FmxBufferSizeDescriptor) : Decidable d.Valid :=
  inferInstanceAs (Decidable (_ ∧ _))

/-- The descriptor with every buffer size reduced modulo `2^24`. -/
def truncate24 (d : FmxBufferSizeDescriptor) : FmxBufferSizeDescriptor :=
  { DefaultFlexMuxBufferDescriptor := d.DefaultFlexMuxBufferDescriptor.truncate24,
    FlexMuxBufferDescriptor := d.FlexMuxBufferDescriptor.map
      FlexMuxBufferDescriptor_type.truncate24 }

/-- Number of payload bytes of the descriptor: four per entry, default included. -/
def encodedSize (d : FmxBufferSizeDescriptor) : Nat :=
  4 + 4 * d.FlexMuxBufferDescriptor.length

/-! ## Binary serialization (source lines 60-87) -/

/-- Source lines 60-68: `serializePayload`. The range-based `for` is a left fold
over the entry list. -/
def serializePayload (d : FmxBufferSizeDescriptor) (buf : PSIBuffer) : PSIBuffer :=
  let buf := buf.putUInt8 d.DefaultFlexMuxBufferDescriptor.flexMuxChnnel
  let buf := buf.putUInt24 d.DefaultFlexMuxBufferDescriptor.FB_BufferSize
  d.FlexMuxBufferDescriptor.foldl
    (fun buf it => (buf.putUInt8 it.flexMuxChnnel).putUInt24 it.FB_BufferSize) buf

/-- Source lines 81-86: the `while (buf.canReadBytes(4))` loop. The first argument
bounds the number of iterations; `none` means that the bound was reached before the
loop condition became false. -/
def deserializeLoop : Nat → PSIBuffer → FmxBufferSizeDescriptor →
    Option (PSIBuffer × FmxBufferSizeDescriptor)
  | 0, _, _ => none
  | fuel + 1, buf, d =>
    if buf.canReadBytes 4 then
      let r8 := buf.getUInt8
      let r24 := r8.2.getUInt24
      let newFlexMuxBufferDescriptor : FlexMuxBufferDescriptor_type :=
        { flexMuxChnnel := r8.1, FB_BufferSize := r24.1 }
      deserializeLoop fuel r24.2
        { d with FlexMuxBufferDescriptor :=
            d.FlexMuxBufferDescriptor ++ [newFlexMuxBufferDescriptor] }
    else
      some (buf, d)

/-- Source lines 75-87: `deserializePayload`. Each iteration of the loop consumes
four bytes, so one more iteration than there are bytes left is a sufficient bound. -/
def deserializePayload (buf : PSIBuffer) (d : FmxBufferSizeDescriptor) :
    Option (PSIBuffer × FmxBufferSizeDescriptor) :=
  if buf.canReadBytes 4 then
    let r8 := buf.getUInt8
    let r24 := r8.2.getUInt24
    deserializeLoop (r24.2.remainingReadBytes + 1) r24.2
      { d with DefaultFlexMuxBufferDescriptor :=
          { flexMuxChnnel := r8.1, FB_BufferSize := r24.1 } }
  else
    deserializeLoop (buf.remainingReadBytes + 1) buf d

/-! ### Reference values for the binary format -/

/-- The four payload bytes of one entry: the channel, then the 24 low-order bits of
the buffer size, most significant byte first. -/
def entryBytes (e : FlexMuxBufferDescriptor_type) : List Nat :=
  [e.flexMuxChnnel % 256, (e.FB_BufferSize / 65536) % 256, (e.FB_BufferSize / 256) % 256,
    e.FB_BufferSize % 256]

/-- The entry as its four payload bytes carry it: the channel modulo `2^8` and the
buffer size modulo `2^24`. -/
def wire (e : FlexMuxBufferDescriptor_type) : FlexMuxBufferDescriptor_type :=
  { flexMuxChnnel := e.flexMuxChnnel % 256, FB_BufferSize := e.FB_BufferSize % 16777216 }

/-- The payload bytes of a descriptor in a buffer that is large enough. -/
def payloadBytes (d : FmxBufferSizeDescriptor) : List Nat :=
  ((d.DefaultFlexMuxBufferDescriptor :: d.FlexMuxBufferDescriptor).map entryBytes).flatten

/-- The entry coded by the four bytes at offset `off` of a payload: the first byte
is the channel, the next three are the big-endian buffer size. -/
def entryAtOffset (payload : List Nat) (off : Nat) : FlexMuxBufferDescriptor_type :=
  { flexMuxChnnel := payload.getD off 0,
    FB_BufferSize := payload.getD (off + 1) 0 * 65536 + payload.getD (off + 2) 0 * 256
      + payload.getD (off + 3) 0 }

/-- The entry coded by the `k`-th group of four bytes of a payload, counting the
groups from zero. -/
def entryAt (payload : List Nat) (k : Nat) : FlexMuxBufferDescriptor_type :=
  entryAtOffset payload (4 * k)

/-- Reference value of the decoding of a payload, in the words of the specification:
the cleared descriptor from fewer than four bytes; otherwise the default entry from
group 0 and one entry from each further complete group, in order. -/
def expectedDecode (payload : List Nat) : FmxBufferSizeDescriptor :=
  if payload.length < 4 then new
  else
    { DefaultFlexMuxBufferDescriptor := entryAt payload 0,
      FlexMuxBufferDescriptor :=
        (List.range (payload.length / 4 - 1)).map (fun k => entryAt payload (k + 1)) }

end FmxBufferSizeDescriptor

/-! ## XML serialization (source lines 111-145) -/

/-- A process-level fault: an access outside of a container or buffer, a failed
`assert`, or a loop that does not terminate. -/
inductive Fault where
  | outOfBounds
  | assertFailed
  | diverged
deriving DecidableEq, Repr

namespace xml

/-- Modelled from the spec: an XML element (`ts::xml::Element`, whose source file is
not among those under `src/`): a name, scalar fields as integer attributes, and
ordered child elements. An attribute is represented by the integer that its text
denotes. -/
inductive Element where
  | mk (name : String) (attributes : List (String × Int)) (children : List Element)

namespace Element

/-- Name of the element. -/
def name : Element → String
  | mk n _ _ => n

/-- Attributes of the element, as name and value pairs. -/
def attributes : Element → List (String × Int)
  | mk _ a _ => a

/-- Child elements, in document order. -/
def children : Element → List Element
  | mk _ _ c => c

/-- A new element without attribute and without child. -/
def new (name : String) : Element :=
  mk name [] []

/-- Modelled from the spec: `setIntAttribute(name, value)` stores a scalar field as an
attribute, replacing a previous attribute of the same name. -/
def setIntAttribute (e : Element) (name : String) (value : Int) : Element :=
  mk e.name (e.attributes.filter (fun a => a.1 != name) ++ [(name, value)]) e.children

/-- Modelled from the spec: `addElement` appends one child element after the existing
children. The C++ method returns a pointer to the new child, through which its
attributes are set before the next child is appended; here the child is passed
with its attributes already set. -/
def addElement (e : Element) (child : Element) : Element :=
  mk e.name e.attributes (e.children ++ [child])

/-- Modelled from the spec: `getIntAttribute(value, name, required, defValue,
minValue, maxValue)`; the result is the returned status and the content of `value`
after the call. A missing attribute stores the default and fails exactly when the
attribute is required; a value outside of `minValue..maxValue` fails and leaves
`value` as it was. -/
def getIntAttribute (e : Element) (value : Nat) (name : String) (required : Bool)
    (defValue minValue maxValue : Int) : Bool × Nat :=
  match e.attributes.lookup name with
  | none => (!required, defValue.toNat)
  | some v => if minValue ≤ v ∧ v ≤ maxValue then (true, v.toNat) else (false, value)

/-- Modelled from the spec: `getChildren(children, name, minCount, maxCount)` collects
the children with the given name, in order, and succeeds when their count lies in
`minCount..maxCount`; `none` as `maxCount` is the default `UNLIMITED`. -/
def getChildren (e : Element) (name : String) (minCount : Nat) (maxCount : Option Nat) :
    Bool × List Element :=
  let found := e.children.filter (fun c => c.name == name)
  (decide (minCount ≤ found.length) &&
      (match maxCount with
        | none => true
        | some m => decide (found.length ≤ m)),
    found)

end Element

end xml

namespace FmxBufferSizeDescriptor

/-- The child element that `buildXML` emits for one entry (source lines 113-115 and
118-120): the channel and the buffer size as attributes. -/
def entryElement (name : String) (e : FlexMuxBufferDescriptor_type) : xml.Element :=
  ((xml.Element.new name).setIntAttribute "flexMuxChannel" e.flexMuxChnnel).setIntAttribute
    "FB_BufferSize" e.FB_BufferSize

/-- Source lines 111-122: `buildXML`. -/
def buildXML (d : FmxBufferSizeDescriptor) (root : xml.Element) : xml.Element :=
  let root := root.addElement
    (entryElement "DefaultFlexMuxBufferDescriptor" d.DefaultFlexMuxBufferDescriptor)
  d.FlexMuxBufferDescriptor.foldl
    (fun root it => root.addElement (entryElement "FlexMuxBufferDescriptor" it)) root

/-- Source lines 133-134 and 140-141: the pair of `getIntAttribute` calls joined by
`&&`. The second call is evaluated only when the first one succeeded. -/
def getEntryAttributes (e : xml.Element) (cur : FlexMuxBufferDescriptor_type) :
    Bool × FlexMuxBufferDescriptor_type :=
  let r1 := e.getIntAttribute cur.flexMuxChnnel "flexMuxChannel" true 0 0 0xFF
  if r1.1 then
    let r2 := e.getIntAttribute cur.FB_BufferSize "FB_BufferSize" true 0 0 0xFFFFFF
    (r2.1, { flexMuxChnnel := r1.2, FB_BufferSize := r2.2 })
  else
    (false, { cur with flexMuxChnnel := r1.2 })

/-- Source lines 138-143: the loop `for (i = 0; ok && i < FlexMuxBuffers.size(); i++)`,
applied to the elements from index `i` on. -/
def analyzeLoop : List xml.Element → Bool → FmxBufferSizeDescriptor →
    Bool × FmxBufferSizeDescriptor
  | [], ok, d => (ok, d)
  | e :: rest, ok, d =>
    if ok then
      let r := getEntryAttributes e FlexMuxBufferDescriptor_type.new
      analyzeLoop rest (ok && r.1)
        { d with FlexMuxBufferDescriptor := d.FlexMuxBufferDescriptor ++ [r.2] }
    else
      (ok, d)

/-- Source lines 129-145: `analyzeXML`. The statement of line 133 evaluates
`DefaultFlexMuxBuffer[0]` whatever the value of `ok`; indexing an empty vector is
the fault `outOfBounds`. -/
def analyzeXML (d : FmxBufferSizeDescriptor) (element : xml.Element) :
    Except Fault (Bool × FmxBufferSizeDescriptor) :=
  let r := element.getChildren "DefaultFlexMuxBufferDescriptor" 1 (some 1)
  let DefaultFlexMuxBuffer := r.2
  let ok := r.1
  match DefaultFlexMuxBuffer[0]? with
  | none => Except.error Fault.outOfBounds
  | some first =>
    let a := getEntryAttributes first d.DefaultFlexMuxBufferDescriptor
    let ok := ok && a.1
    let d := { d with DefaultFlexMuxBufferDescriptor := a.2 }
    let r2 := element.getChildren "FlexMuxBufferDescriptor" 0 none
    let FlexMuxBuffers := r2.2
    let ok := ok && r2.1
    Except.ok (analyzeLoop FlexMuxBuffers ok d)

/-- The element carries an attribute `name` whose value lies in `lo..hi`. -/
def hasIntAttributeIn (e : xml.Element) (name : String) (lo hi : Int) : Prop :=
  ∃ v, e.attributes.lookup name = some v ∧ lo ≤ v ∧ v ≤ hi

/-- The element carries both attributes of an entry within their ranges: a
`flexMuxChannel` in `0..0xFF` and an `FB_BufferSize` in `0..0xFFFFFF`. -/
def EntryAttributesInRange (e : xml.Element) : Prop :=
  hasIntAttributeIn e "flexMuxChannel" 0 0xFF ∧ hasIntAttributeIn e "FB_BufferSize" 0 0xFFFFFF

end FmxBufferSizeDescriptor

/-! ## CTS3: ECB ciphertext stealing (tsCTS3.h) -/

/-- The underlying block cipher (`ts::BlockCipher`, the template parameter `CIPHER`):
its single-block operations. `none` is the C++ return value `false`; `some c` is
the content written to the output block. -/
structure BlockCipher where
  encrypt : List Nat → Option (List Nat)
  decrypt : List Nat → Option (List Nat)

/-- A block cipher for blocks of `bs` bytes that never fails: both operations map
every block of `bs` bytes to a block of `bs` bytes. -/
def BlockCipher.NeverFails (c : BlockCipher) (bs : Nat) : Prop :=
  ∀ b : List Nat, b.length = bs →
    (∃ o, c.encrypt b = some o ∧ o.length = bs) ∧ (∃ o, c.decrypt b = some o ∧ o.length = bs)

/-- A block cipher for blocks of `bs` bytes, which may fail: when an operation on a
block of `bs` bytes succeeds, it has written a block of `bs` bytes. -/
def BlockCipher.KeepsBlockSize (c : BlockCipher) (bs : Nat) : Prop :=
  ∀ b o : List Nat, b.length = bs →
    (c.encrypt b = some o → o.length = bs) ∧ (c.decrypt b = some o → o.length = bs)

/-- The state of a `CTS3<CIPHER>` object that the two methods use: the underlying
cipher (`none` is `nullptr`), its block size and the work buffer. -/
structure CTS3 where
  algo : Option BlockCipher
  block_size : Nat
  work : List Nat

/-- What a call of `encryptImpl` or `decryptImpl` leaves behind: the returned status,
the output buffer, the variable that the length pointer designates (`none` when the
pointer is null) and the work buffer. -/
structure CTS3.Result where
  ret : Bool
  out : List Nat
  out_length : Option Nat
  work : List Nat
deriving DecidableEq, Repr

/-- Reading `n` bytes at offset `off` of a buffer; a fault outside of the buffer. -/
def readBytes (buf : List Nat) (off n : Nat) : Except Fault (List Nat) :=
  if off + n ≤ buf.length then Except.ok ((buf.drop off).take n)
  else Except.error Fault.outOfBounds

/-- Writing the bytes `src` at offset `off` of a buffer; a fault outside of the
buffer. -/
def writeBytes (buf : List Nat) (off : Nat) (src : List Nat) : Except Fault (List Nat) :=
  if off + src.length ≤ buf.length then
    Except.ok (buf.take off ++ src ++ buf.drop (off + src.length))
  else Except.error Fault.outOfBounds

namespace CTS3

/-- Source lines 60-64. -/
def minMessageSize (cts : CTS3) : Nat :=
  cts.block_size + 1

/-- Source lines 66-70. -/
def residueAllowed (_cts : CTS3) : Bool :=
  true

/-- Source lines 110-123 (with `op` the encryption) and 158-171 (with `op` the
decryption): the final two blocks. `src` is the input buffer, `s` and `t` are the
offsets of the input and output pointers, `len` is the remaining length. -/
def finalBlocks (op : List Nat → Option (List Nat)) (bs : Nat) (src : List Nat)
    (s t len : Nat) (out : List Nat) (out_length : Option Nat) (work : List Nat) :
    Except Fault Result :=
  if len > bs then do
    let residue_size := len - bs
    let b ← readBytes src s bs
    match op b with
    | none => pure { ret := false, out := out, out_length := out_length, work := work }
    | some x =>
      let work ← writeBytes work 0 x
      let m ← readBytes work 0 residue_size
      let out ← writeBytes out (t + bs) m
      let m ← readBytes src (s + bs) residue_size
      let work ← writeBytes work 0 m
      let b ← readBytes work 0 bs
      match op b with
      | none => pure { ret := false, out := out, out_length := out_length, work := work }
      | some y =>
        let out ← writeBytes out t y
        pure { ret := true, out := out, out_length := out_length, work := work }
  else
    Except.error Fault.assertFailed

/-- Source lines 100-123 and 148-171: the ECB loop over all blocks but the last two,
followed by the final two blocks. The first argument bounds the number of
iterations; reaching the bound is the fault `diverged`. -/
def process (op : List Nat → Option (List Nat)) (bs : Nat) (src : List Nat) :
    Nat → Nat → Nat → Nat → List Nat → Option Nat → List Nat → Except Fault Result
  | 0, _, _, _, _, _, _ => Except.error Fault.diverged
  | fuel + 1, s, t, len, out, out_length, work =>
    if len > 2 * bs then do
      let b ← readBytes src s bs
      match op b with
      | none => pure { ret := false, out := out, out_length := out_length, work := work }
      | some c =>
        let out ← writeBytes out t c
        process op bs src fuel (s + bs) (t + bs) (len - bs) out out_length work
    else
      finalBlocks op bs src s t len out out_length work

/-- Source lines 83-124: `encryptImpl`. `plain` is the input of `plain_length =
plain.length` bytes, `cipher` the output buffer of `cipher_maxsize = cipher.length`
bytes (a buffer distinct from the input), `cipher_length` the variable behind the
length pointer. With a block size of at least one the loop runs less than
`plain_length` times. -/
def encryptImpl (cts : CTS3) (plain : List Nat) (cipher : List Nat)
    (cipher_length : Option Nat) : Except Fault Result :=
  match cts.algo with
  | none => pure { ret := false, out := cipher, out_length := cipher_length, work := cts.work }
  | some algo =>
    if cts.work.length < cts.block_size ∨ plain.length ≤ cts.block_size ∨
        cipher.length < plain.length then
      pure { ret := false, out := cipher, out_length := cipher_length, work := cts.work }
    else
      process algo.encrypt cts.block_size plain plain.length 0 0 plain.length cipher
        (cipher_length.map (fun _ => plain.length)) cts.work

/-- Source lines 131-172: `decryptImpl`, with the roles of `encryptImpl` exchanged. -/
def decryptImpl (cts : CTS3) (cipher : List Nat) (plain : List Nat)
    (plain_length : Option Nat) : Except Fault Result :=
  match cts.algo with
  | none => pure { ret := false, out := plain, out_length := plain_length, work := cts.work }
  | some algo =>
    if cts.work.length < cts.block_size ∨ cipher.length ≤ cts.block_size ∨
        plain.length < cipher.length then
      pure { ret := false, out := plain, out_length := plain_length, work := cts.work }
    else
      process algo.decrypt cts.block_size cipher cipher.length 0 0 cipher.length plain
        (plain_length.map (fun _ => cipher.length)) cts.work

/-! ### Reference values for ciphertext stealing -/

/-- Reference value of the final two blocks. `q` holds one full block followed by a
residue of `q.length - bs` bytes and `f` is the block operation: with `x` the image
of the full block, the output is the image of (residue, then the last bytes of `x`),
followed by the first bytes of `x`, as many as the residue has. -/
def stealBlocks (f : List Nat → List Nat) (bs : Nat) (q : List Nat) : List Nat :=
  f (q.drop bs ++ (f (q.take bs)).drop (q.length - bs)) ++ (f (q.take bs)).take (q.length - bs)

/-- Reference value of the whole message: `k` blocks in ECB mode, then the final two
blocks. -/
def reference (f : List Nat → List Nat) (bs : Nat) : Nat → List Nat → List Nat
  | 0, q => stealBlocks f bs q
  | k + 1, q => f (q.take bs) ++ reference f bs k (q.drop bs)

/-- Number of iterations of the ECB loop on a message of `len > bs` bytes. -/
def ecbBlocks (bs len : Nat) : Nat :=
  (len - bs - 1) / bs

/-- The total function behind a block operation that never fails. -/
def blockFun (op : List Nat → Option (List Nat)) (b : List Nat) : List Nat :=
  (op b).getD []

/-- A sample block cipher, used to instantiate the statements below: encryption adds
one to every byte and reverses the block, decryption subtracts one and reverses. -/
def sampleCipher : BlockCipher :=
  { encrypt := fun b => some ((b.map (fun x => x + 1)).reverse),
    decrypt := fun b => some ((b.map (fun x => x - 1)).reverse) }

end CTS3

/-! ## FMCDescriptor (tsFMCDescriptor.h) -/

namespace FMCDescriptor

/-- Source lines 29-41: an SL_packetized stream entry, a `uint16_t` elementary stream
id and a `uint8_t` FlexMux channel number. -/
structure Entry where
  ES_ID : Nat
  FlexMuxChannel : Nat
deriving DecidableEq, Repr

/-- Source line 51: the maximum number of entries. -/
def MAX_ENTRIES : Nat := 85

/-- The largest payload of a descriptor, whose length field is one byte (the 255 bytes
of the comment of source line 49). -/
def MAX_DESCRIPTOR_PAYLOAD : Nat := 255

/-- The bytes of one entry, each field as wide as it is declared: two bytes for the
16-bit `ES_ID`, most significant first, and one byte for the 8-bit
`FlexMuxChannel`. -/
def Entry.bytes (e : Entry) : List Nat :=
  [(e.ES_ID / 256) % 256, e.ES_ID % 256, e.FlexMuxChannel % 256]

/-- The bytes of a list of entries, in list order. -/
def entriesBytes (entries : List Entry) : List Nat :=
  (entries.map Entry.bytes).flatten

end FMCDescriptor

/-! ## Repository of descriptors -/

/-- Modelled from the spec: the Identity Key (`ts::EDID`, whose source file is not among
those under `src/`): a tag, an optional extended tag and an optional
private-data-specifier. The standard context is not a component of the keys that
`EDID::Standard` and `EDID::Private` build in the registrations of `src/`. -/
structure EDID where
  tag : Nat
  extended_tag : Option Nat
  private_data_specifier : Option Nat
deriving DecidableEq, Repr

namespace EDID

/-- Modelled from the spec: `EDID::Standard(did)`, the standard, global key of a tag:
a key without private-data-specifier. -/
def Standard (did : Nat) : EDID :=
  { tag := did, extended_tag := none, private_data_specifier := none }

/-- Modelled from the spec: `EDID::Private(did, pds)`, the key of a tag in the scope of
a private-data-specifier. -/
def Private (did pds : Nat) : EDID :=
  { tag := did, extended_tag := none, private_data_specifier := some pds }

end EDID

/-- Modelled from the spec: a Registered Entry, the tuple (EDID, factory, display
function, XML element name). The factory and the display function are represented
by their C++ names. -/
structure RegisteredEntry where
  edid : EDID
  factory : String
  display : String
  xml_name : String
deriving DecidableEq, Repr

/-- Modelled from the spec: what the binary resolution produces, either a registered
implementation (factory, display function, XML name) or the Generic Fallback, which
keeps the exact bytes and records the unresolved key. -/
inductive Resolved where
  | implementation (factory display xml_name : String)
  | fallback (edid : EDID) (bytes : List Nat)
deriving DecidableEq, Repr

/-- The implementation of a registered entry. -/
def RegisteredEntry.resolved (e : RegisteredEntry) : Resolved :=
  Resolved.implementation e.factory e.display e.xml_name

/-- Modelled from the spec: the macro `TS_REGISTER_DESCRIPTOR(class, edid, xml_name,
display)` adds one binding to the repository. -/
def TS_REGISTER_DESCRIPTOR (repo : List RegisteredEntry) (cls : String) (edid : EDID)
    (xml_name : String) (display : String) : List RegisteredEntry :=
  repo ++ [{ edid := edid, factory := cls, display := display, xml_name := xml_name }]

/-- Modelled from the spec: steps 3 and 4 of the binary resolution: the key without
private-data-specifier, else the Generic Fallback that records `raw`. -/
def resolveStandard (repo : List RegisteredEntry) (tag : Nat) (raw : EDID)
    (bytes : List Nat) : Resolved :=
  match repo.find? (fun e => decide (e.edid = EDID.Standard tag)) with
  | some e => e.resolved
  | none => Resolved.fallback raw bytes

/-- Modelled from the spec: the binary resolution of a raw tag, given the standard
context of the enclosing table and the active private-data-specifier, if any. The
most specific key (tag and private-data-specifier) wins; without such an entry the
key without private-data-specifier is looked up; failing that the Generic Fallback
is instantiated. No tag registered in `src/` belongs to an extension family, so that
step 1 (extension dispatch) does not apply. -/
def resolve (repo : List RegisteredEntry) (tag : Nat) (_standard : Nat) (pds : Option Nat)
    (bytes : List Nat) : Resolved :=
  match pds with
  | some p =>
    match repo.find? (fun e => decide (e.edid = EDID.Private tag p)) with
    | some e => e.resolved
    | none => resolveStandard repo tag (EDID.Private tag p) bytes
  | none => resolveStandard repo tag (EDID.Standard tag) bytes

/-- The constants that the registrations of `src/` name and whose values are defined
in headers outside of `src/`. -/
structure Constants where
  DID_PREF_NAME_ID : Nat
  PDS_EACEM : Nat
  PDS_TPS : Nat
  DID_FMX_BUFFER_SIZE : Nat
deriving DecidableEq, Repr

/-- The repository after the registrations of `src/`:
tsEacemPreferredNameIdentifierDescriptor.cpp lines 18 and 21 and
tsFmxBufferSizeDescriptor.cpp line 22. -/
def registry (k : Constants) : List RegisteredEntry :=
  let repo := TS_REGISTER_DESCRIPTOR [] "ts::EacemPreferredNameIdentifierDescriptor"
    (EDID.Private k.DID_PREF_NAME_ID k.PDS_EACEM) "eacem_preferred_name_identifier_descriptor"
    "ts::EacemPreferredNameIdentifierDescriptor::DisplayDescriptor"
  let repo := TS_REGISTER_DESCRIPTOR repo "ts::EacemPreferredNameIdentifierDescriptor"
    (EDID.Private k.DID_PREF_NAME_ID k.PDS_TPS) "eacem_preferred_name_identifier_descriptor"
    "ts::EacemPreferredNameIdentifierDescriptor::DisplayDescriptor"
  TS_REGISTER_DESCRIPTOR repo "ts::FmxBufferSizeDescriptor"
    (EDID.Standard k.DID_FMX_BUFFER_SIZE) "FmxBufferSize_descriptor"
    "ts::FmxBufferSizeDescriptor::DisplayDescriptor"

/-! ## Further operations of the cursor buffer -/

namespace PSIBuffer

/-- Modelled from the spec: `read_uint(16)`, most significant byte first. When fewer
than two bytes remain the truncation flag is set, zero is returned and the cursor
does not move. -/
def getUInt16 (buf : PSIBuffer) : Nat × PSIBuffer :=
  if buf.rpos + 2 ≤ buf.data.length then
    (buf.data.getD buf.rpos 0 * 256 + buf.data.getD (buf.rpos + 1) 0,
      { buf with rpos := buf.rpos + 2 })
  else
    (0, { buf with readError := true })

/-- Modelled from the spec: `read_uint(32)`, most significant byte first. When fewer
than four bytes remain the truncation flag is set, zero is returned and the cursor
does not move. -/
def getUInt32 (buf : PSIBuffer) : Nat × PSIBuffer :=
  if buf.rpos + 4 ≤ buf.data.length then
    (buf.data.getD buf.rpos 0 * 16777216 + buf.data.getD (buf.rpos + 1) 0 * 65536
        + buf.data.getD (buf.rpos + 2) 0 * 256 + buf.data.getD (buf.rpos + 3) 0,
      { buf with rpos := buf.rpos + 4 })
  else
    (0, { buf with readError := true })

/-- Modelled from the spec: `write_uint(value, 16)`, most significant byte first; the
16 low-order bits of the argument are stored. When the capacity is insufficient
nothing is written and the write-truncation flag is set. -/
def putUInt16 (buf : PSIBuffer) (v : Nat) : PSIBuffer :=
  if buf.data.length + 2 ≤ buf.capacity then
    { buf with data := buf.data ++ [(v / 256) % 256, v % 256] }
  else
    { buf with writeError := true }

/-- Modelled from the spec: `write_uint(value, 32)`, most significant byte first; the
32 low-order bits of the argument are stored. When the capacity is insufficient
nothing is written and the write-truncation flag is set. -/
def putUInt32 (buf : PSIBuffer) (v : Nat) : PSIBuffer :=
  if buf.data.length + 4 ≤ buf.capacity then
    { buf with data := buf.data ++
        [(v / 16777216) % 256, (v / 65536) % 256, (v / 256) % 256, v % 256] }
  else
    { buf with writeError := true }

/-- Modelled from the spec: `write_uint(value, width_bits)` for bit fields that fill one
byte together. The fields are given as (value, width) pairs in writing order, most
significant first; of each value the `width` low-order bits are kept. The result
is the value of the byte. -/
def packBits (fields : List (Nat × Nat)) : Nat :=
  fields.foldl (fun acc f => acc * 2 ^ f.2 + f.1 % 2 ^ f.2) 0

/-- Modelled from the spec: `read_uint(width_bits)` inside a byte: the field of `width`
bits that lies `low` bits above the least significant bit. -/
def bitField (byte low width : Nat) : Nat :=
  (byte / 2 ^ low) % 2 ^ width

end PSIBuffer

/-! ## TerrestrialDeliverySystemDescriptor (tsTerrestrialDeliverySystemDescriptor.h) -/

/-- Source lines 26-38 of the header: the public members. The 8-bit fields hold values
of the documented number of bits. -/
structure TerrestrialDeliverySystemDescriptor where
  centre_frequency : Nat
  bandwidth : Nat
  high_priority : Bool
  no_time_slicing : Bool
  no_mpe_fec : Bool
  constellation : Nat
  hierarchy : Nat
  code_rate_hp : Nat
  code_rate_lp : Nat
  guard_interval : Nat
  transmission_mode : Nat
  other_frequency : Bool
deriving DecidableEq, Repr

namespace TerrestrialDeliverySystemDescriptor

/-- The legal values: every bit field within the range that the header documents, and
a frequency that the descriptor can code, that is, a multiple of 10 Hz whose number
of 10 Hz units fits in 32 bits. -/
def Legal (d : TerrestrialDeliverySystemDescriptor) : Prop :=
  d.centre_frequency % 10 = 0 ∧ d.centre_frequency / 10 ≤ 0xFFFFFFFF ∧
    d.bandwidth ≤ 7 ∧ d.constellation ≤ 3 ∧ d.hierarchy ≤ 7 ∧ d.code_rate_hp ≤ 7 ∧
    d.code_rate_lp ≤ 7 ∧ d.guard_interval ≤ 3 ∧ d.transmission_mode ≤ 3

instance (d : TerrestrialDeliverySystemDescriptor) : Decidable d.Legal :=
  inferInstanceAs (Decidable (_ ∧ _))

/-- The descriptor with every field at its maximum legal value. -/
def maximal : TerrestrialDeliverySystemDescriptor :=
  { centre_frequency := 42949672950, bandwidth := 7, high_priority := true,
    no_time_slicing := true, no_mpe_fec := true, constellation := 3, hierarchy := 7,
    code_rate_hp := 7, code_rate_lp := 7, guard_interval := 3, transmission_mode := 3,
    other_frequency := true }

/-- Modelled from the spec: `serializePayload`, whose source file is not among those
under `src/`. An 11-byte fixed layout with tightly packed bit fields: the members in
the order of their declaration, each with the width that the header documents
(the frequency as a 32-bit count of 10 Hz units), two reserved bits that complete
the first byte of bit fields and four reserved bytes at the end, as in ETSI EN 300
468, 6.2.13.4, which the header cites. Reserved bits are written as zero. -/
def serializePayload (d : TerrestrialDeliverySystemDescriptor) (buf : PSIBuffer) : PSIBuffer :=
  let buf := buf.putUInt32 (d.centre_frequency / 10)
  let buf := buf.putUInt8 (PSIBuffer.packBits
    [(d.bandwidth, 3), (d.high_priority.toNat, 1), (d.no_time_slicing.toNat, 1),
      (d.no_mpe_fec.toNat, 1), (0, 2)])
  let buf := buf.putUInt8 (PSIBuffer.packBits
    [(d.constellation, 2), (d.hierarchy, 3), (d.code_rate_hp, 3)])
  let buf := buf.putUInt8 (PSIBuffer.packBits
    [(d.code_rate_lp, 3), (d.guard_interval, 2), (d.transmission_mode, 2),
      (d.other_frequency.toNat, 1)])
  buf.putUInt32 0

/-- Modelled from the spec: `deserializePayload`, whose source file is not among those
under `src/`: the inverse reading of the layout of `serializePayload`; the reserved
bits are skipped. -/
def deserializePayload (buf : PSIBuffer) : PSIBuffer × TerrestrialDeliverySystemDescriptor :=
  let f := buf.getUInt32
  let b1 := f.2.getUInt8
  let b2 := b1.2.getUInt8
  let b3 := b2.2.getUInt8
  let r := b3.2.getUInt32
  (r.2,
    { centre_frequency := f.1 * 10,
      bandwidth := PSIBuffer.bitField b1.1 5 3,
      high_priority := PSIBuffer.bitField b1.1 4 1 != 0,
      no_time_slicing := PSIBuffer.bitField b1.1 3 1 != 0,
      no_mpe_fec := PSIBuffer.bitField b1.1 2 1 != 0,
      constellation := PSIBuffer.bitField b2.1 6 2,
      hierarchy := PSIBuffer.bitField b2.1 3 3,
      code_rate_hp := PSIBuffer.bitField b2.1 0 3,
      code_rate_lp := PSIBuffer.bitField b3.1 5 3,
      guard_interval := PSIBuffer.bitField b3.1 3 2,
      transmission_mode := PSIBuffer.bitField b3.1 1 2,
      other_frequency := PSIBuffer.bitField b3.1 0 1 != 0 })

end TerrestrialDeliverySystemDescriptor

/-! ## CellFrequencyLinkDescriptor (tsCellFrequencyLinkDescriptor.h) -/

namespace CellFrequencyLinkDescriptor

/-- Source lines 29-34 of the header: a subcell entry, a `uint8_t` cell id extension and
a `uint64_t` frequency in Hz. -/
structure Subcell where
  cell_id_extension : Nat
  transposer_frequency : Nat
deriving DecidableEq, Repr

/-- Source lines 44-50 of the header: a cell entry, a `uint16_t` cell id, a `uint64_t`
frequency in Hz and the list of subcells. -/
structure Cell where
  cell_id : Nat
  frequency : Nat
  subcells : List Subcell
deriving DecidableEq, Repr

end CellFrequencyLinkDescriptor

/-- Source line 58 of the header: the descriptor is the list of its cells. -/
structure CellFrequencyLinkDescriptor where
  cells : List CellFrequencyLinkDescriptor.Cell
deriving DecidableEq, Repr

namespace PSIBuffer

/-- Modelled from the spec: a length-prefixed sub-region with a length field of one byte.
A placeholder is reserved for the length, the content is encoded, and the
placeholder is patched with the actual length of the content. A content of more
than 255 bytes is a write error. -/
def putLengthPrefixed8 (buf : PSIBuffer) (content : PSIBuffer → PSIBuffer) : PSIBuffer :=
  let done := content (buf.putUInt8 0)
  let n := done.data.length - (buf.data.length + 1)
  { data := done.data.set buf.data.length (n % 256), capacity := done.capacity,
    rpos := done.rpos, readError := done.readError,
    writeError := done.writeError || decide (0xFF < n) }

end PSIBuffer

namespace CellFrequencyLinkDescriptor

/-- A subcell that the descriptor can code, with frequencies coded in units of `hz` Hz:
an 8-bit extension and a frequency that is a multiple of the unit and whose number
of units fits in 32 bits. -/
def Subcell.Valid (hz : Nat) (s : Subcell) : Prop :=
  s.cell_id_extension ≤ 0xFF ∧ s.transposer_frequency % hz = 0 ∧
    s.transposer_frequency / hz ≤ 0xFFFFFFFF

/-- A cell that the descriptor can code: a 16-bit cell id, a frequency that can be coded,
subcells that can be coded and whose 5 bytes each fit the one-byte length. -/
def Cell.Valid (hz : Nat) (c : Cell) : Prop :=
  c.cell_id ≤ 0xFFFF ∧ c.frequency % hz = 0 ∧ c.frequency / hz ≤ 0xFFFFFFFF ∧
    5 * c.subcells.length ≤ 0xFF ∧ ∀ s ∈ c.subcells, s.Valid hz

instance (hz : Nat) (s : Subcell) : Decidable (s.Valid hz) :=
  inferInstanceAs (Decidable (_ ∧ _))

instance (hz : Nat) (c : Cell) : Decidable (c.Valid hz) :=
  inferInstanceAs (Decidable (_ ∧ _))

/-- Number of bytes of a cell: 2 (cell id) + 4 (frequency) + 1 (length of the subcells),
then 5 bytes per subcell. -/
def Cell.encodedSize (c : Cell) : Nat :=
  2 + 4 + 1 + 5 * c.subcells.length

/-- Number of bytes of the payload. -/
def encodedSize (d : CellFrequencyLinkDescriptor) : Nat :=
  (d.cells.map Cell.encodedSize).sum

/-- Modelled from the spec: the encoding of the subcells of a cell, 1 byte of cell id
extension and 4 bytes of frequency each. -/
def serializeSubcells (hz : Nat) (subcells : List Subcell) (buf : PSIBuffer) : PSIBuffer :=
  subcells.foldl
    (fun buf it => (buf.putUInt8 it.cell_id_extension).putUInt32 (it.transposer_frequency / hz))
    buf

/-- Modelled from the spec: `serializePayload`, whose source file is not among those
under `src/`. Each cell is 2 bytes of cell id, 4 bytes of frequency and a
length-prefixed sub-region that holds its subcells. The header gives the
frequencies in Hz and neither the header nor the spec gives the unit of the 4-byte
fields, so that the unit `hz` is a parameter. -/
def serializePayload (hz : Nat) (d : CellFrequencyLinkDescriptor) (buf : PSIBuffer) :
    PSIBuffer :=
  d.cells.foldl
    (fun buf it =>
      ((buf.putUInt16 it.cell_id).putUInt32 (it.frequency / hz)).putLengthPrefixed8
        (serializeSubcells hz it.subcells))
    buf

/-- Modelled from the spec: the decoding loop of the subcells inside their sub-region,
guarded by the capacity check of one subcell. The first argument bounds the number
of iterations. -/
def subcellLoop (hz : Nat) : Nat → PSIBuffer → List Subcell → Option (PSIBuffer × List Subcell)
  | 0, _, _ => none
  | fuel + 1, buf, acc =>
    if buf.canReadBytes 5 then
      let r1 := buf.getUInt8
      let r2 := r1.2.getUInt32
      subcellLoop hz fuel r2.2
        (acc ++ [{ cell_id_extension := r1.1, transposer_frequency := r2.1 * hz }])
    else
      some (buf, acc)

/-- Modelled from the spec: the decoding loop of the cells, guarded by the capacity
check of the fixed part of a cell. The sub-region of the subcells is the run of
bytes that its length byte announces; a length that exceeds the remaining bytes is
a truncation. The first argument bounds the number of iterations. -/
def cellLoop (hz : Nat) : Nat → PSIBuffer → List Cell → Option (PSIBuffer × List Cell)
  | 0, _, _ => none
  | fuel + 1, buf, acc =>
    if buf.canReadBytes 7 then
      let r1 := buf.getUInt16
      let r2 := r1.2.getUInt32
      let r3 := r2.2.getUInt8
      if r3.2.canReadBytes r3.1 then
        match subcellLoop hz (r3.1 + 1)
            (PSIBuffer.forRead ((r3.2.data.drop r3.2.rpos).take r3.1)) [] with
        | none => none
        | some sub =>
          cellLoop hz fuel
            { data := r3.2.data, capacity := r3.2.capacity, rpos := r3.2.rpos + r3.1,
              readError := r3.2.readError || sub.1.readError, writeError := r3.2.writeError }
            (acc ++ [{ cell_id := r1.1, frequency := r2.1 * hz, subcells := sub.2 }])
      else
        some ({ data := r3.2.data, capacity := r3.2.capacity, rpos := r3.2.rpos,
                readError := true, writeError := r3.2.writeError }, acc)
    else
      some (buf, acc)

/-- Modelled from the spec: `deserializePayload`, whose source file is not among those
under `src/`. Every iteration consumes at least seven bytes, so that one more
iteration than there are bytes left is a sufficient bound. -/
def deserializePayload (hz : Nat) (buf : PSIBuffer) :
    Option (PSIBuffer × CellFrequencyLinkDescriptor) :=
  (cellLoop hz (buf.remainingReadBytes + 1) buf []).map (fun r => (r.1, { cells := r.2 }))

/-- The four bytes of a 32-bit field, most significant first. -/
def uint32Bytes (v : Nat) : List Nat :=
  [(v / 16777216) % 256, (v / 65536) % 256, (v / 256) % 256, v % 256]

/-- The five bytes of a subcell. -/
def Subcell.bytes (hz : Nat) (s : Subcell) : List Nat :=
  (s.cell_id_extension % 256) :: uint32Bytes (s.transposer_frequency / hz)

/-- The bytes of the subcells of a cell. -/
def subcellsBytes (hz : Nat) (subcells : List Subcell) : List Nat :=
  (subcells.map (Subcell.bytes hz)).flatten

/-- The bytes of a cell: cell id, frequency, length of the subcells, subcells. -/
def Cell.bytes (hz : Nat) (c : Cell) : List Nat :=
  [(c.cell_id / 256) % 256, c.cell_id % 256] ++ uint32Bytes (c.frequency / hz) ++
    [(5 * c.subcells.length) % 256] ++ subcellsBytes hz c.subcells

/-- The bytes of the payload of a descriptor. -/
def payloadBytes (hz : Nat) (d : CellFrequencyLinkDescriptor) : List Nat :=
  (d.cells.map (Cell.bytes hz)).flatten

/-- A sample descriptor: two cells, the first with one subcell and the second with
none. -/
def sample : CellFrequencyLinkDescriptor :=
  { cells := [{ cell_id := 0x1234, frequency := 474000000,
                subcells := [{ cell_id_extension := 7, transposer_frequency := 482000000 }] },
              { cell_id := 0xFFFF, frequency := 858000000, subcells := [] }] }

end CellFrequencyLinkDescriptor

/-! ## Display of FmxBufferSizeDescriptor (tsFmxBufferSizeDescriptor.cpp, lines 93-104) -/

namespace FmxBufferSizeDescriptor

/-- Source lines 96-97 and 101-102: the text of one line, made of the margin, the
label between parentheses, the channel printed as a decimal integer and the size
printed as a decimal integer. -/
def displayLine (margin label : String) (channel size : Nat) : String :=
  margin ++ " FlexMuxBuffer(" ++ label ++ ") channel: " ++ toString channel ++ ", size: "
    ++ toString size

/-- Source lines 99-103: the loop `while (buf.canReadBytes(4))` with its counter `i`, a
`uint32_t`. Modelled from the spec: the output of the display layer
(`ts::TablesDisplay`, whose source file is not among those under `src/`) is the list
of the lines written so far, and `std::endl` ends a line. The first argument bounds
the number of iterations; `none` means that the bound was reached. -/
def displayLoop (margin : String) : Nat → PSIBuffer → Nat → List String →
    Option (PSIBuffer × List String)
  | 0, _, _, _ => none
  | fuel + 1, buf, i, disp =>
    if buf.canReadBytes 4 then
      let r8 := buf.getUInt8
      let r24 := r8.2.getUInt24
      displayLoop margin fuel r24.2 ((i + 1) % 4294967296)
        (disp ++ [displayLine margin (toString i) r8.1 r24.1])
    else
      some (buf, disp)

/-- Source lines 93-104: `DisplayDescriptor`. The parameters `did`, `tid` and `pds` are
not used by the function. Each iteration of the loop consumes four bytes, so one
more iteration than there are bytes left is a sufficient bound. -/
def DisplayDescriptor (disp : List String) (buf : PSIBuffer) (margin : String) :
    Option (PSIBuffer × List String) :=
  if buf.canReadBytes 4 then
    let r8 := buf.getUInt8
    let r24 := r8.2.getUInt24
    displayLoop margin (r24.2.remainingReadBytes + 1) r24.2 0
      (disp ++ [displayLine margin "default" r8.1 r24.1])
  else
    displayLoop margin (buf.remainingReadBytes + 1) buf 0 disp

end FmxBufferSizeDescriptor

namespace CTS3

/-- A second sample block cipher, each of whose operations inverts the other on every
block: encryption moves every byte one step along the cycle `3k → 3k+1 → 3k+2 → 3k`
and reverses the block, decryption moves every byte one step back and reverses. -/
def cycleCipher : BlockCipher :=
  { encrypt := fun b => some ((b.map (fun x => if x % 3 = 2 then x - 2 else x + 1)).reverse),
    decrypt := fun b => some ((b.map (fun x => if x % 3 = 0 then x + 2 else x - 1)).reverse) }

end CTS3

end ts

/-! # Properties -/

namespace ts

open PSIBuffer FmxBufferSizeDescriptor

/-! ## Binary serialization of FmxBufferSizeDescriptor -/

theorem PSIBuffer.put_entry (buf : PSIBuffer) (e : FlexMuxBufferDescriptor_type)
    (h : buf.data.length + 4 ≤ buf.capacity) :
    (buf.putUInt8 e.flexMuxChnnel).putUInt24 e.FB_BufferSize =
      { buf with data := buf.data ++ entryBytes e } := by
  have h1 : buf.data.length + 1 ≤ buf.capacity := by omega
  simp [putUInt8, putUInt24, h1, entryBytes]
  omega

theorem serialize_fold (es : List FlexMuxBufferDescriptor_type) (buf : PSIBuffer)
    (h : buf.data.length + 4 * es.length ≤ buf.capacity) :
    es.foldl (fun buf it => (buf.putUInt8 it.flexMuxChnnel).putUInt24 it.FB_BufferSize) buf =
      { buf with data := buf.data ++ (es.map entryBytes).flatten } := by
  induction es generalizing buf with
  | nil => simp
  | cons e es ih =>
    simp only [List.length_cons] at h
    simp only [List.foldl_cons]
    rw [PSIBuffer.put_entry buf e (by omega)]
    rw [ih]
    · simp
    · simp [entryBytes]; omega

theorem serializePayload_eq (d : FmxBufferSizeDescriptor) (capacity : Nat)
    (h : d.encodedSize ≤ capacity) :
    d.serializePayload (PSIBuffer.forWrite capacity) =
      { PSIBuffer.forWrite capacity with
        data := ((d.DefaultFlexMuxBufferDescriptor :: d.FlexMuxBufferDescriptor).map
          entryBytes).flatten } := by
  unfold encodedSize at h
  unfold serializePayload
  simp only []
  rw [PSIBuffer.put_entry _ _ (by simp [forWrite]; omega)]
  rw [serialize_fold _ _ (by simp [forWrite, entryBytes]; omega)]
  simp [forWrite]

theorem entryAtOffset_congr (payload : List Nat) (a b : Nat) (h : a = b) :
    entryAtOffset payload a = entryAtOffset payload b := by
  rw [h]

theorem deserializeLoop_eq (fuel : Nat) (buf : PSIBuffer) (d : FmxBufferSizeDescriptor)
    (hfuel : buf.remainingReadBytes / 4 < fuel) :
    deserializeLoop fuel buf d =
      some ({ buf with rpos := buf.rpos + 4 * (buf.remainingReadBytes / 4) },
        { DefaultFlexMuxBufferDescriptor := d.DefaultFlexMuxBufferDescriptor,
          FlexMuxBufferDescriptor := d.FlexMuxBufferDescriptor ++
            (List.range (buf.remainingReadBytes / 4)).map
              (fun i => entryAtOffset buf.data (buf.rpos + 4 * i)) }) := by
  induction fuel generalizing buf d with
  | zero => omega
  | succ fuel ih =>
    unfold deserializeLoop
    by_cases hc : buf.rpos + 4 ≤ buf.data.length
    · have h1 : buf.rpos + 1 ≤ buf.data.length := by omega
      have h3 : buf.rpos + 1 + 3 ≤ buf.data.length := by omega
      have hrem : (buf.data.length - buf.rpos) / 4
          = (buf.data.length - (buf.rpos + 1 + 3)) / 4 + 1 := by
        omega
      simp only [canReadBytes, hc, decide_True, if_true, getUInt8, h1, getUInt24, h3]
      rw [ih _ _ (by simp only [remainingReadBytes] at hfuel ⊢; omega)]
      simp only [remainingReadBytes]
      rw [hrem]
      simp only [List.range_succ_eq_map, List.map_cons, List.map_map,
        List.append_assoc, List.singleton_append, Option.some.injEq, Prod.mk.injEq,
        PSIBuffer.mk.injEq, FmxBufferSizeDescriptor.mk.injEq, true_and, and_true,
        List.append_cancel_left_eq, List.cons.injEq]
      refine ⟨by omega, ?_, ?_⟩
      · simp [entryAtOffset, Nat.add_assoc]
      · apply List.map_congr_left
        intro i _
        simp only [Function.comp]
        apply entryAtOffset_congr
        omega
    · have hrem : buf.remainingReadBytes / 4 = 0 := by
        unfold remainingReadBytes; omega
      simp [canReadBytes, hc, hrem]

theorem deserializePayload_eq (payload : List Nat) (d : FmxBufferSizeDescriptor) :
    deserializePayload (PSIBuffer.forRead payload) d =
      some ({ PSIBuffer.forRead payload with rpos := 4 * (payload.length / 4) },
        if payload.length < 4 then d
        else
          { DefaultFlexMuxBufferDescriptor := entryAt payload 0,
            FlexMuxBufferDescriptor := d.FlexMuxBufferDescriptor ++
              (List.range (payload.length / 4 - 1)).map (fun k => entryAt payload (k + 1)) }) := by
  unfold deserializePayload
  by_cases hc : 4 ≤ payload.length
  · have h1 : 1 ≤ payload.length := by omega
    have hlt : ¬ payload.length < 4 := by omega
    have e : (payload.length - 4) / 4 = payload.length / 4 - 1 := by omega
    simp only [canReadBytes, forRead, Nat.zero_add, hc, decide_True, if_true, getUInt8, h1,
      getUInt24, Nat.reduceAdd, hlt, if_false]
    rw [deserializeLoop_eq _ _ _ (by simp only [remainingReadBytes]; omega)]
    simp only [remainingReadBytes, e, Option.some.injEq, Prod.mk.injEq,
      PSIBuffer.mk.injEq, FmxBufferSizeDescriptor.mk.injEq, true_and, and_true,
      List.append_cancel_left_eq]
    refine ⟨by omega, ?_, ?_⟩
    · simp [entryAt, entryAtOffset]
    · apply List.map_congr_left
      intro i _
      simp only [entryAt]
      apply entryAtOffset_congr
      omega
  · have hlt : payload.length < 4 := by omega
    have h0 : payload.length / 4 = 0 := by omega
    simp only [canReadBytes, forRead, Nat.zero_add, hc, decide_False, hlt, if_true,
      Bool.false_eq_true, if_false]
    rw [deserializeLoop_eq _ _ _ (by simp only [remainingReadBytes]; omega)]
    simp [remainingReadBytes, h0]

theorem entryAt_cons (e : FlexMuxBufferDescriptor_type) (rest : List Nat) (k : Nat) :
    entryAt (entryBytes e ++ rest) (k + 1) = entryAt rest k := by
  have h : 4 * (k + 1) = 4 * k + 1 + 1 + 1 + 1 := by omega
  simp only [entryAt, entryAtOffset, entryBytes, h, List.cons_append, List.nil_append,
    List.getD_cons_succ]

theorem entryAt_zero (e : FlexMuxBufferDescriptor_type) (rest : List Nat) :
    entryAt (entryBytes e ++ rest) 0 = wire e := by
  simp only [entryAt, entryAtOffset, entryBytes, wire, List.cons_append, List.nil_append,
    Nat.mul_zero, Nat.zero_add, List.getD_cons_zero, List.getD_cons_succ,
    FlexMuxBufferDescriptor_type.mk.injEq, true_and]
  omega

theorem entryAt_encoded (all : List FlexMuxBufferDescriptor_type) (k : Nat)
    (hk : k < all.length) :
    entryAt ((all.map entryBytes).flatten) k = wire (all.getD k FlexMuxBufferDescriptor_type.new) := by
  induction all generalizing k with
  | nil => simp at hk
  | cons e es ih =>
    simp only [List.map_cons, List.flatten_cons]
    cases k with
    | zero => rw [entryAt_zero]; rfl
    | succ k =>
      rw [entryAt_cons, ih k (by simpa using hk)]
      rfl

theorem entryAt_take (l : List Nat) (n k : Nat) (h : 4 * k + 4 ≤ n) :
    entryAt (l.take n) k = entryAt l k := by
  simp only [entryAt, entryAtOffset, List.getD_eq_getElem?_getD]
  rw [List.getElem?_take_of_lt (by omega), List.getElem?_take_of_lt (by omega),
    List.getElem?_take_of_lt (by omega), List.getElem?_take_of_lt (by omega)]

theorem payloadBytes_length (d : FmxBufferSizeDescriptor) :
    d.payloadBytes.length = d.encodedSize := by
  have h : ∀ es : List FlexMuxBufferDescriptor_type,
      ((es.map entryBytes).flatten).length = 4 * es.length := by
    intro es
    induction es with
    | nil => rfl
    | cons e es ih =>
      simp only [List.map_cons, List.flatten_cons, List.length_append, ih, List.length_cons]
      simp only [entryBytes, List.length_cons, List.length_nil]
      omega
  simp only [payloadBytes, h, List.length_cons, encodedSize]
  omega

/-- Decoding the first `n` bytes of the payload of a descriptor: nothing when `n < 4`,
otherwise the default entry and the `n / 4 - 1` first entries, as the wire carries
them. -/
theorem decode_truncated (d prior : FmxBufferSizeDescriptor) (n : Nat)
    (hn : n ≤ d.encodedSize) :
    deserializePayload (PSIBuffer.forRead (d.payloadBytes.take n)) prior.clearContent =
      some ({ PSIBuffer.forRead (d.payloadBytes.take n) with rpos := 4 * (n / 4) },
        if n < 4 then new
        else
          { DefaultFlexMuxBufferDescriptor := wire d.DefaultFlexMuxBufferDescriptor,
            FlexMuxBufferDescriptor := (d.FlexMuxBufferDescriptor.take (n / 4 - 1)).map wire }) := by
  have hlen : (d.payloadBytes.take n).length = n := by
    rw [List.length_take, payloadBytes_length]; omega
  have hsz : d.encodedSize = 4 + 4 * d.FlexMuxBufferDescriptor.length := rfl
  rw [deserializePayload_eq, hlen]
  by_cases h4 : n < 4
  · simp only [h4, if_true]; rfl
  · simp only [h4, if_false, clearContent, List.nil_append, Option.some.injEq, Prod.mk.injEq,
      true_and, FmxBufferSizeDescriptor.mk.injEq]
    constructor
    · rw [entryAt_take _ _ _ (by omega)]
      unfold payloadBytes
      rw [entryAt_encoded _ _ (by simp)]
      rfl
    · apply List.ext_getElem
      · simp only [List.length_map, List.length_range, List.length_take]
        omega
      · intro i h1 h2
        have h1b : i < n / 4 - 1 := by simpa using h1
        have h2b : i < d.FlexMuxBufferDescriptor.length := by
          have := h2
          simp only [List.length_map, List.length_take] at this
          omega
        simp only [List.getElem_map, List.getElem_range, List.getElem_take]
        rw [entryAt_take _ _ _ (by omega)]
        unfold payloadBytes
        rw [entryAt_encoded _ _ (by simp; omega)]
        rw [List.getD_cons_succ, List.getD_eq_getElem?_getD, List.getElem?_eq_getElem h2b]
        rfl

theorem serializePayload_data (d : FmxBufferSizeDescriptor) (capacity : Nat)
    (h : d.encodedSize ≤ capacity) :
    (d.serializePayload (PSIBuffer.forWrite capacity)).data = d.payloadBytes ∧
      (d.serializePayload (PSIBuffer.forWrite capacity)).writeError = false := by
  rw [serializePayload_eq d capacity h]
  exact ⟨rfl, rfl⟩

theorem wire_of_valid (e : FlexMuxBufferDescriptor_type) (h : e.Valid) : wire e = e := by
  obtain ⟨h1, h2⟩ := h
  cases e with
  | mk c s =>
    simp only [wire, FlexMuxBufferDescriptor_type.mk.injEq]
    simp only at h1 h2
    omega

theorem wire_of_channelInRange (e : FlexMuxBufferDescriptor_type) (h : e.ChannelInRange) :
    wire e = e.truncate24 := by
  cases e with
  | mk c s =>
    simp only [FlexMuxBufferDescriptor_type.ChannelInRange] at h
    simp only [wire, FlexMuxBufferDescriptor_type.truncate24,
      FlexMuxBufferDescriptor_type.mk.injEq, and_true]
    omega

theorem map_wire_of_valid (es : List FlexMuxBufferDescriptor_type) (h : ∀ e ∈ es, e.Valid) :
    es.map wire = es := by
  induction es with
  | nil => rfl
  | cons e es ih =>
    simp only [List.map_cons, List.cons.injEq]
    exact ⟨wire_of_valid e (h e (List.mem_cons_self _ _)),
      ih (fun x hx => h x (List.mem_cons_of_mem _ hx))⟩

theorem map_wire_of_channelsInRange (es : List FlexMuxBufferDescriptor_type)
    (h : ∀ e ∈ es, e.ChannelInRange) :
    es.map wire = es.map FlexMuxBufferDescriptor_type.truncate24 := by
  apply List.map_congr_left
  intro e he
  exact wire_of_channelInRange e (h e he)

theorem truncate24_ne_of_oversize (d : FmxBufferSizeDescriptor)
    (hbig : 0xFFFFFF < d.DefaultFlexMuxBufferDescriptor.FB_BufferSize ∨
      ∃ e ∈ d.FlexMuxBufferDescriptor, 0xFFFFFF < e.FB_BufferSize) :
    d.truncate24 ≠ d := by
  have key : ∀ e : FlexMuxBufferDescriptor_type, 0xFFFFFF < e.FB_BufferSize →
      e.truncate24 ≠ e := by
    intro e he heq
    have h2 : e.truncate24.FB_BufferSize = e.FB_BufferSize := by rw [heq]
    simp only [FlexMuxBufferDescriptor_type.truncate24] at h2
    omega
  intro heq
  have hd : d.truncate24.DefaultFlexMuxBufferDescriptor = d.DefaultFlexMuxBufferDescriptor := by
    rw [heq]
  have hl : d.truncate24.FlexMuxBufferDescriptor = d.FlexMuxBufferDescriptor := by
    rw [heq]
  simp only [truncate24] at hd hl
  rcases hbig with h | ⟨e, he, h⟩
  · exact key _ h hd
  · have hall : ∀ (l : List FlexMuxBufferDescriptor_type),
        l.map FlexMuxBufferDescriptor_type.truncate24 = l → ∀ x ∈ l, x.truncate24 = x := by
      intro l
      induction l with
      | nil => intro _ x hx; simp at hx
      | cons a l ih =>
        intro hmap x hx
        simp only [List.map_cons, List.cons.injEq] at hmap
        rcases List.mem_cons.mp hx with rfl | hx
        · exact hmap.1
        · exact ih hmap.2 x hx
    exact key e h (hall _ hl e he)

/-! ### Claims on the binary serialization -/

/-- C1. Binary round trip: for every valid descriptor `d` (channels of 8 bits, buffer
sizes of at most `0xFFFFFF`) whose `4 + 4 n` bytes fit the buffer, `serializePayload`
writes these bytes without error, and `deserializePayload`, run on a cleared
descriptor over exactly the bytes written, yields `d` itself: the same default entry
and the same entries in the same order. -/
theorem binary_roundtrip (d prior : FmxBufferSizeDescriptor) (capacity : Nat)
    (hvalid : d.Valid) (hfit : d.encodedSize ≤ capacity) :
    (d.serializePayload (PSIBuffer.forWrite capacity)).writeError = false ∧
      (d.serializePayload (PSIBuffer.forWrite capacity)).data.length = d.encodedSize ∧
      ∃ buf, deserializePayload
          (PSIBuffer.forRead (d.serializePayload (PSIBuffer.forWrite capacity)).data)
          prior.clearContent = some (buf, d) ∧ buf.readError = false := by
  obtain ⟨hdata, herr⟩ := serializePayload_data d capacity hfit
  refine ⟨herr, by rw [hdata, payloadBytes_length], ?_⟩
  have h := decode_truncated d prior d.encodedSize (Nat.le_refl _)
  rw [List.take_of_length_le (by rw [payloadBytes_length])] at h
  have h4 : ¬ d.encodedSize < 4 := by unfold encodedSize; omega
  have hq : d.encodedSize / 4 - 1 = d.FlexMuxBufferDescriptor.length := by
    unfold encodedSize; omega
  rw [if_neg h4, hq, List.take_length, wire_of_valid _ hvalid.1,
    map_wire_of_valid _ hvalid.2] at h
  rw [hdata, h]
  exact ⟨_, rfl, rfl⟩

/-- C1, witness: a default entry and two entries, one of them with the largest
buffer size. -/
theorem binary_roundtrip_witness :
    (⟨⟨1, 0x123456⟩, [⟨2, 0xFFFFFF⟩, ⟨255, 0⟩]⟩ : FmxBufferSizeDescriptor).Valid ∧
      (⟨⟨1, 0x123456⟩, [⟨2, 0xFFFFFF⟩, ⟨255, 0⟩]⟩ : FmxBufferSizeDescriptor).encodedSize ≤ 255 ∧
      ∃ buf, deserializePayload
          (PSIBuffer.forRead ((⟨⟨1, 0x123456⟩, [⟨2, 0xFFFFFF⟩, ⟨255, 0⟩]⟩ :
            FmxBufferSizeDescriptor).serializePayload (PSIBuffer.forWrite 255)).data)
          (clearContent new) = some (buf, ⟨⟨1, 0x123456⟩, [⟨2, 0xFFFFFF⟩, ⟨255, 0⟩]⟩) ∧
        buf.readError = false :=
  ⟨by decide, by decide,
    (binary_roundtrip ⟨⟨1, 0x123456⟩, [⟨2, 0xFFFFFF⟩, ⟨255, 0⟩]⟩ new 255
      (by decide) (by decide)).2.2⟩

/-- C5, counterexample. The descriptor with default entry `(1, 2)` and entries `(3, 4)`
and `(5, 6)` is valid and encodes to 12 bytes. Decoding the first 8 bytes, and
decoding the first 11 bytes, both end with the truncation flag of the cursor clear
and give the default entry and the first entry: the cursor reports no truncation,
so nothing marks the decoded structure invalid. -/
theorem truncation_not_reported :
    (⟨⟨1, 2⟩, [⟨3, 4⟩, ⟨5, 6⟩]⟩ : FmxBufferSizeDescriptor).Valid ∧
      ((⟨⟨1, 2⟩, [⟨3, 4⟩, ⟨5, 6⟩]⟩ : FmxBufferSizeDescriptor).serializePayload
        (PSIBuffer.forWrite 255)).data = [1, 0, 0, 2, 3, 0, 0, 4, 5, 0, 0, 6] ∧
      deserializePayload (PSIBuffer.forRead
          (((⟨⟨1, 2⟩, [⟨3, 4⟩, ⟨5, 6⟩]⟩ : FmxBufferSizeDescriptor).serializePayload
            (PSIBuffer.forWrite 255)).data.take 8)) (clearContent new) =
        some ({ data := [1, 0, 0, 2, 3, 0, 0, 4], capacity := 8, rpos := 8,
                readError := false, writeError := false },
              ⟨⟨1, 2⟩, [⟨3, 4⟩]⟩) ∧
      deserializePayload (PSIBuffer.forRead
          (((⟨⟨1, 2⟩, [⟨3, 4⟩, ⟨5, 6⟩]⟩ : FmxBufferSizeDescriptor).serializePayload
            (PSIBuffer.forWrite 255)).data.take 11)) (clearContent new) =
        some ({ data := [1, 0, 0, 2, 3, 0, 0, 4, 5, 0, 0], capacity := 11, rpos := 8,
                readError := false, writeError := false },
              ⟨⟨1, 2⟩, [⟨3, 4⟩]⟩) := by
  decide

/-- C5, as amended. For every valid descriptor `d` whose encoding of `N = 4 + 4 n`
bytes fits the buffer, decoding the first `m < N` bytes of the encoding returns with
the truncation flag of the cursor clear (the decode reports no truncation, hence does
not mark the structure invalid), and the decode never reads past the last byte
supplied: the read cursor ends at `4 * (m / 4) ≤ m`. The decoded descriptor is the
cleared one when `m < 4`, and otherwise the default entry of `d` followed by its
`m / 4 - 1` first entries. -/
theorem truncated_decode_unflagged (d prior : FmxBufferSizeDescriptor) (capacity m : Nat)
    (hvalid : d.Valid) (hfit : d.encodedSize ≤ capacity) (hm : m < d.encodedSize) :
    ∃ buf res, deserializePayload
        (PSIBuffer.forRead ((d.serializePayload (PSIBuffer.forWrite capacity)).data.take m))
        prior.clearContent = some (buf, res) ∧
      buf.readError = false ∧ buf.rpos = 4 * (m / 4) ∧ buf.rpos ≤ m ∧
      buf.data = (d.serializePayload (PSIBuffer.forWrite capacity)).data.take m ∧
      res = (if m < 4 then new
        else { DefaultFlexMuxBufferDescriptor := d.DefaultFlexMuxBufferDescriptor,
               FlexMuxBufferDescriptor := d.FlexMuxBufferDescriptor.take (m / 4 - 1) }) := by
  obtain ⟨hdata, _⟩ := serializePayload_data d capacity hfit
  have h := decode_truncated d prior m (Nat.le_of_lt hm)
  rw [hdata, h]
  refine ⟨_, _, rfl, rfl, rfl, Nat.mul_div_le m 4, rfl, ?_⟩
  by_cases h4 : m < 4
  · simp only [h4, if_true]
  · simp only [h4, if_false]
    rw [wire_of_valid _ hvalid.1,
      map_wire_of_valid _ (fun e he => hvalid.2 e (List.mem_of_mem_take he))]

/-- C5, witness of the amended statement: the first 11 of the 12 bytes that encode a
default entry and two entries. -/
theorem truncated_decode_unflagged_witness :
    (⟨⟨1, 2⟩, [⟨3, 4⟩, ⟨5, 6⟩]⟩ : FmxBufferSizeDescriptor).Valid ∧
      (⟨⟨1, 2⟩, [⟨3, 4⟩, ⟨5, 6⟩]⟩ : FmxBufferSizeDescriptor).encodedSize ≤ 255 ∧
      11 < (⟨⟨1, 2⟩, [⟨3, 4⟩, ⟨5, 6⟩]⟩ : FmxBufferSizeDescriptor).encodedSize ∧
      ∃ buf res, deserializePayload
          (PSIBuffer.forRead (((⟨⟨1, 2⟩, [⟨3, 4⟩, ⟨5, 6⟩]⟩ :
            FmxBufferSizeDescriptor).serializePayload (PSIBuffer.forWrite 255)).data.take 11))
          (clearContent new) = some (buf, res) ∧
        buf.readError = false ∧ buf.rpos = 4 * (11 / 4) ∧ buf.rpos ≤ 11 ∧
        buf.data = ((⟨⟨1, 2⟩, [⟨3, 4⟩, ⟨5, 6⟩]⟩ :
          FmxBufferSizeDescriptor).serializePayload (PSIBuffer.forWrite 255)).data.take 11 ∧
        res = (if 11 < 4 then new
          else { DefaultFlexMuxBufferDescriptor := ⟨1, 2⟩,
                 FlexMuxBufferDescriptor := [⟨3, 4⟩, ⟨5, 6⟩].take (11 / 4 - 1) }) :=
  ⟨by decide, by decide, by decide,
    truncated_decode_unflagged ⟨⟨1, 2⟩, [⟨3, 4⟩, ⟨5, 6⟩]⟩ new 255 11
      (by decide) (by decide) (by decide)⟩

/-- C6. Deterministic decode of a payload of `L` bytes into a cleared descriptor. The
decode returns; when `L < 4` the descriptor stays cleared; when `L ≥ 4` the default
entry is (byte 0, big-endian value of bytes 1 to 3) and the list has exactly
`L / 4 - 1` entries, the `k`-th decoded from the `(k+1)`-th group of four bytes, in
order, so that the `L mod 4` trailing bytes give no entry. In particular the first
11 bytes of the 12-byte encoding of a valid `(dflt, e1, e2)` decode to
`(dflt, [e1])`. -/
theorem deterministic_decode (payload : List Nat) (prior : FmxBufferSizeDescriptor)
    (dflt e1 e2 : FlexMuxBufferDescriptor_type) :
    (∃ buf, deserializePayload (PSIBuffer.forRead payload) prior.clearContent =
        some (buf, expectedDecode payload)) ∧
      (payload.length < 4 → expectedDecode payload =
        { DefaultFlexMuxBufferDescriptor := { flexMuxChnnel := 0, FB_BufferSize := 0 },
          FlexMuxBufferDescriptor := [] }) ∧
      (4 ≤ payload.length →
        (expectedDecode payload).DefaultFlexMuxBufferDescriptor =
          { flexMuxChnnel := payload.getD 0 0,
            FB_BufferSize := payload.getD 1 0 * 65536 + payload.getD 2 0 * 256
              + payload.getD 3 0 } ∧
        (expectedDecode payload).FlexMuxBufferDescriptor.length = payload.length / 4 - 1 ∧
        ∀ k, k < payload.length / 4 - 1 →
          (expectedDecode payload).FlexMuxBufferDescriptor.get? k =
            some { flexMuxChnnel := payload.getD (4 * (k + 1)) 0,
                   FB_BufferSize := payload.getD (4 * (k + 1) + 1) 0 * 65536
                     + payload.getD (4 * (k + 1) + 2) 0 * 256
                     + payload.getD (4 * (k + 1) + 3) 0 }) ∧
      ((⟨dflt, [e1, e2]⟩ : FmxBufferSizeDescriptor).Valid →
        ((⟨dflt, [e1, e2]⟩ : FmxBufferSizeDescriptor).serializePayload
            (PSIBuffer.forWrite 255)).data.length = 12 ∧
        ∃ buf, deserializePayload (PSIBuffer.forRead
            (((⟨dflt, [e1, e2]⟩ : FmxBufferSizeDescriptor).serializePayload
              (PSIBuffer.forWrite 255)).data.take 11)) prior.clearContent =
          some (buf, ⟨dflt, [e1]⟩)) := by
  refine ⟨?_, ?_, ?_, ?_⟩
  · rw [deserializePayload_eq]
    refine ⟨{ PSIBuffer.forRead payload with rpos := 4 * (payload.length / 4) }, ?_⟩
    simp only [expectedDecode, clearContent, List.nil_append, Option.some.injEq,
      Prod.mk.injEq, true_and]
    by_cases h4 : payload.length < 4
    · simp only [h4, if_true]; rfl
    · simp only [h4, if_false]
  · intro h4
    simp only [expectedDecode, h4, if_true]
    rfl
  · intro h4
    have hlt : ¬ payload.length < 4 := by omega
    simp only [expectedDecode, hlt, if_false]
    refine ⟨?_, by simp, ?_⟩
    · simp [entryAt, entryAtOffset]
    · intro k hk
      rw [List.get?_eq_getElem?, List.getElem?_map, List.getElem?_range hk]
      simp [entryAt, entryAtOffset]
  · intro hvalid
    have hsz : (⟨dflt, [e1, e2]⟩ : FmxBufferSizeDescriptor).encodedSize = 12 := rfl
    obtain ⟨hdata, _⟩ := serializePayload_data ⟨dflt, [e1, e2]⟩ 255 (by rw [hsz]; omega)
    have h := decode_truncated ⟨dflt, [e1, e2]⟩ prior 11 (by rw [hsz]; omega)
    have hw0 : wire dflt = dflt := wire_of_valid _ hvalid.1
    have hw1 : wire e1 = e1 := wire_of_valid e1 (hvalid.2 e1 (by simp))
    have hres : (if 11 < 4 then new
        else ({ DefaultFlexMuxBufferDescriptor := wire dflt,
                FlexMuxBufferDescriptor := List.map wire (List.take (11 / 4 - 1) [e1, e2]) } :
          FmxBufferSizeDescriptor)) = ⟨dflt, [e1]⟩ := by
      simp [hw0, hw1]
    rw [hres] at h
    rw [hdata, h, payloadBytes_length, hsz]
    exact ⟨rfl, _, rfl⟩

/-- C6, witness: a payload of 11 bytes (one default entry, one entry, three trailing
bytes), and the particular case at a valid default entry and two valid entries. -/
theorem deterministic_decode_witness :
    (4 ≤ ([1, 0, 0, 2, 3, 0, 0, 4, 5, 0, 0] : List Nat).length ∧
      (expectedDecode [1, 0, 0, 2, 3, 0, 0, 4, 5, 0, 0]).FlexMuxBufferDescriptor.length =
        ([1, 0, 0, 2, 3, 0, 0, 4, 5, 0, 0] : List Nat).length / 4 - 1) ∧
      (⟨⟨9, 70000⟩, [⟨8, 300⟩, ⟨7, 5⟩]⟩ : FmxBufferSizeDescriptor).Valid ∧
      ∃ buf, deserializePayload (PSIBuffer.forRead
          (((⟨⟨9, 70000⟩, [⟨8, 300⟩, ⟨7, 5⟩]⟩ : FmxBufferSizeDescriptor).serializePayload
            (PSIBuffer.forWrite 255)).data.take 11)) (clearContent new) =
        some (buf, ⟨⟨9, 70000⟩, [⟨8, 300⟩]⟩) :=
  ⟨⟨by decide,
      ((deterministic_decode [1, 0, 0, 2, 3, 0, 0, 4, 5, 0, 0] new ⟨9, 70000⟩ ⟨8, 300⟩
        ⟨7, 5⟩).2.2.1 (by decide)).2.1⟩,
    by decide,
    ((deterministic_decode [1, 0, 0, 2, 3, 0, 0, 4, 5, 0, 0] new ⟨9, 70000⟩ ⟨8, 300⟩
      ⟨7, 5⟩).2.2.2 (by decide)).2⟩

/-- C7, counterexample. The buffer size `0x1000001` of the default entry does not fit
in 24 bits; `serializePayload` reports no failure (the write-error flag stays clear)
and emits the bytes `7, 0, 0, 1`, which decode to the buffer size `1`. -/
theorem serialize_oversize_unreported :
    ((⟨⟨7, 0x1000001⟩, []⟩ : FmxBufferSizeDescriptor).serializePayload
        (PSIBuffer.forWrite 255)).writeError = false ∧
      ((⟨⟨7, 0x1000001⟩, []⟩ : FmxBufferSizeDescriptor).serializePayload
        (PSIBuffer.forWrite 255)).data = [7, 0, 0, 1] ∧
      deserializePayload (PSIBuffer.forRead
          ((⟨⟨7, 0x1000001⟩, []⟩ : FmxBufferSizeDescriptor).serializePayload
            (PSIBuffer.forWrite 255)).data) (clearContent new) =
        some ({ data := [7, 0, 0, 1], capacity := 4, rpos := 4, readError := false,
                writeError := false },
              ⟨⟨7, 1⟩, []⟩) := by
  decide

/-- C7, as amended. `serializePayload` does not check the range of the buffer sizes:
for every descriptor with 8-bit channels in which the default entry or some list
entry has an `FB_BufferSize` above `0xFFFFFF`, and whose `4 + 4 n` bytes fit the
buffer, it reports no encode failure and emits the 24 low-order bits of each buffer
size; decoding the payload gives every buffer size modulo `2^24`, a descriptor
that differs from the encoded one. -/
theorem serialize_oversize_truncates (d prior : FmxBufferSizeDescriptor) (capacity : Nat)
    (hch : d.ChannelsInRange) (hfit : d.encodedSize ≤ capacity)
    (hbig : 0xFFFFFF < d.DefaultFlexMuxBufferDescriptor.FB_BufferSize ∨
      ∃ e ∈ d.FlexMuxBufferDescriptor, 0xFFFFFF < e.FB_BufferSize) :
    (d.serializePayload (PSIBuffer.forWrite capacity)).writeError = false ∧
      (d.serializePayload (PSIBuffer.forWrite capacity)).data.length = d.encodedSize ∧
      (∃ buf, deserializePayload
          (PSIBuffer.forRead (d.serializePayload (PSIBuffer.forWrite capacity)).data)
          prior.clearContent = some (buf, d.truncate24)) ∧
      d.truncate24 ≠ d := by
  obtain ⟨hdata, herr⟩ := serializePayload_data d capacity hfit
  refine ⟨herr, by rw [hdata, payloadBytes_length], ?_, truncate24_ne_of_oversize d hbig⟩
  have h := decode_truncated d prior d.encodedSize (Nat.le_refl _)
  have h4 : ¬ d.encodedSize < 4 := by unfold encodedSize; omega
  have hq : d.encodedSize / 4 - 1 = d.FlexMuxBufferDescriptor.length := by
    unfold encodedSize; omega
  rw [List.take_of_length_le (by rw [payloadBytes_length]), if_neg h4, hq, List.take_length,
    wire_of_channelInRange _ hch.1, map_wire_of_channelsInRange _ hch.2] at h
  rw [hdata, h]
  exact ⟨_, rfl⟩

/-- C7, witness of the amended statement: an oversize buffer size in a list entry. -/
theorem serialize_oversize_truncates_witness :
    (⟨⟨1, 2⟩, [⟨3, 0x2000004⟩]⟩ : FmxBufferSizeDescriptor).ChannelsInRange ∧
      ((⟨⟨1, 2⟩, [⟨3, 0x2000004⟩]⟩ : FmxBufferSizeDescriptor).serializePayload
        (PSIBuffer.forWrite 255)).writeError = false ∧
      (∃ buf, deserializePayload
          (PSIBuffer.forRead ((⟨⟨1, 2⟩, [⟨3, 0x2000004⟩]⟩ :
            FmxBufferSizeDescriptor).serializePayload (PSIBuffer.forWrite 255)).data)
          (clearContent new) =
            some (buf, (⟨⟨1, 2⟩, [⟨3, 0x2000004⟩]⟩ : FmxBufferSizeDescriptor).truncate24)) ∧
      (⟨⟨1, 2⟩, [⟨3, 0x2000004⟩]⟩ : FmxBufferSizeDescriptor).truncate24 ≠
        ⟨⟨1, 2⟩, [⟨3, 0x2000004⟩]⟩ :=
  have h := serialize_oversize_truncates ⟨⟨1, 2⟩, [⟨3, 0x2000004⟩]⟩ new 255
    (by decide) (by decide) (Or.inr ⟨⟨3, 0x2000004⟩, by simp, by decide⟩)
  ⟨by decide, h.1, h.2.2.1, h.2.2.2⟩

/-! ## XML serialization of FmxBufferSizeDescriptor -/

theorem entryElement_name (nm : String) (e : FlexMuxBufferDescriptor_type) :
    (entryElement nm e).name = nm := rfl

theorem entryElement_attributes (nm : String) (e : FlexMuxBufferDescriptor_type) :
    (entryElement nm e).attributes =
      [("flexMuxChannel", (e.flexMuxChnnel : Int)), ("FB_BufferSize", (e.FB_BufferSize : Int))] := by
  simp [entryElement, xml.Element.setIntAttribute, xml.Element.new, xml.Element.attributes]

theorem getEntryAttributes_entryElement (nm : String) (e cur : FlexMuxBufferDescriptor_type)
    (h : e.Valid) : getEntryAttributes (entryElement nm e) cur = (true, e) := by
  obtain ⟨h1, h2⟩ := h
  have a1 : (e.flexMuxChnnel : Int) ≤ 255 := by exact_mod_cast h1
  have a2 : (e.FB_BufferSize : Int) ≤ 16777215 := by exact_mod_cast h2
  simp [getEntryAttributes, xml.Element.getIntAttribute, entryElement_attributes,
    List.lookup, a1, a2]

theorem addElement_mk (nm : String) (attrs : List (String × Int)) (cs : List xml.Element)
    (c : xml.Element) :
    (xml.Element.mk nm attrs cs).addElement c = xml.Element.mk nm attrs (cs ++ [c]) := rfl

theorem addElement_fold (f : FlexMuxBufferDescriptor_type → xml.Element)
    (es : List FlexMuxBufferDescriptor_type) (nm : String) (attrs : List (String × Int))
    (cs : List xml.Element) :
    es.foldl (fun root it => root.addElement (f it)) (xml.Element.mk nm attrs cs) =
      xml.Element.mk nm attrs (cs ++ es.map f) := by
  induction es generalizing cs with
  | nil => simp
  | cons e es ih =>
    rw [List.foldl_cons, addElement_mk, ih]
    simp

theorem buildXML_eq (d : FmxBufferSizeDescriptor) (nm : String) (attrs : List (String × Int)) :
    d.buildXML (xml.Element.mk nm attrs []) =
      xml.Element.mk nm attrs
        (entryElement "DefaultFlexMuxBufferDescriptor" d.DefaultFlexMuxBufferDescriptor ::
          d.FlexMuxBufferDescriptor.map (entryElement "FlexMuxBufferDescriptor")) := by
  unfold buildXML
  simp only []
  rw [addElement_mk, addElement_fold]
  simp

theorem analyzeLoop_entryElements (es : List FlexMuxBufferDescriptor_type)
    (d : FmxBufferSizeDescriptor) (h : ∀ e ∈ es, e.Valid) :
    analyzeLoop (es.map (entryElement "FlexMuxBufferDescriptor")) true d =
      (true, { d with FlexMuxBufferDescriptor := d.FlexMuxBufferDescriptor ++ es }) := by
  induction es generalizing d with
  | nil => simp [analyzeLoop]
  | cons e es ih =>
    simp only [List.map_cons, analyzeLoop, if_true,
      getEntryAttributes_entryElement _ e _ (h e (List.mem_cons_self _ _)), Bool.and_self]
    rw [ih _ (fun x hx => h x (List.mem_cons_of_mem _ hx))]
    simp

theorem filter_default_entryElements (es : List FlexMuxBufferDescriptor_type) :
    (es.map (entryElement "FlexMuxBufferDescriptor")).filter
      (fun c => c.name == "DefaultFlexMuxBufferDescriptor") = [] := by
  induction es with
  | nil => rfl
  | cons e es ih =>
    rw [List.map_cons, List.filter_cons_of_neg, ih]
    rw [entryElement_name]
    decide

theorem filter_entryElements (es : List FlexMuxBufferDescriptor_type) :
    (es.map (entryElement "FlexMuxBufferDescriptor")).filter
      (fun c => c.name == "FlexMuxBufferDescriptor") =
        es.map (entryElement "FlexMuxBufferDescriptor") := by
  induction es with
  | nil => rfl
  | cons e es ih =>
    rw [List.map_cons, List.filter_cons_of_pos, ih]
    rw [entryElement_name]
    decide

theorem analyzeLoop_false (l : List xml.Element) (d : FmxBufferSizeDescriptor) :
    analyzeLoop l false d = (false, d) := by
  cases l <;> simp [analyzeLoop]

/-- The fault of `analyzeXML` characterised: line 133 indexes outside of the vector
exactly when the element has no child named `DefaultFlexMuxBufferDescriptor`; with
two or more such children the call returns `false`. -/
theorem analyzeXML_wrong_count (d : FmxBufferSizeDescriptor) (element : xml.Element) :
    ((element.getChildren "DefaultFlexMuxBufferDescriptor" 1 (some 1)).2.length = 0 →
        d.analyzeXML element = Except.error Fault.outOfBounds) ∧
      (2 ≤ (element.getChildren "DefaultFlexMuxBufferDescriptor" 1 (some 1)).2.length →
        ∃ res, d.analyzeXML element = Except.ok (false, res)) := by
  constructor
  · intro h
    have hnil : (element.getChildren "DefaultFlexMuxBufferDescriptor" 1 (some 1)).2 = [] :=
      List.length_eq_zero.mp h
    simp only [analyzeXML, hnil, List.getElem?_nil]
  · intro h
    generalize hr : element.getChildren "DefaultFlexMuxBufferDescriptor" 1 (some 1) = r at h
    have hok : r.1 = false := by
      rw [← hr]
      rw [← hr] at h
      simp only [xml.Element.getChildren] at h ⊢
      simp only [Bool.and_eq_false_imp, decide_eq_true_eq, decide_eq_false_iff_not]
      intro _
      omega
    obtain ⟨ok, found⟩ := r
    simp only at hok h
    subst hok
    cases found with
    | nil => simp at h
    | cons first rest =>
      simp only [analyzeXML, hr, List.getElem?_cons_zero, Bool.false_and, analyzeLoop_false]
      exact ⟨_, rfl⟩

/-! ### Claims on the XML serialization -/

/-- C3. XML round trip: for every valid descriptor `d` (8-bit channels, buffer sizes
of at most `0xFFFFFF`), `analyzeXML`, run on a cleared descriptor over the element
that `buildXML` populated from `d`, returns `true` without fault and yields `d`
itself, the entries in the same order. -/
theorem xml_roundtrip (d prior : FmxBufferSizeDescriptor) (nm : String)
    (attrs : List (String × Int)) (hvalid : d.Valid) :
    prior.clearContent.analyzeXML (d.buildXML (xml.Element.mk nm attrs [])) =
      Except.ok (true, d) := by
  rw [buildXML_eq]
  have hd : (entryElement "DefaultFlexMuxBufferDescriptor"
      d.DefaultFlexMuxBufferDescriptor).name == "DefaultFlexMuxBufferDescriptor" := by
    rw [entryElement_name]; decide
  have hf : ¬ ((entryElement "DefaultFlexMuxBufferDescriptor"
      d.DefaultFlexMuxBufferDescriptor).name == "FlexMuxBufferDescriptor") = true := by
    rw [entryElement_name]; decide
  have f1 : List.filter (fun c => c.name == "DefaultFlexMuxBufferDescriptor")
      (entryElement "DefaultFlexMuxBufferDescriptor" d.DefaultFlexMuxBufferDescriptor ::
        List.map (entryElement "FlexMuxBufferDescriptor") d.FlexMuxBufferDescriptor) =
      [entryElement "DefaultFlexMuxBufferDescriptor" d.DefaultFlexMuxBufferDescriptor] := by
    simp only [List.filter_cons, hd, if_true, filter_default_entryElements]
  have f2 : List.filter (fun c => c.name == "FlexMuxBufferDescriptor")
      (entryElement "DefaultFlexMuxBufferDescriptor" d.DefaultFlexMuxBufferDescriptor ::
        List.map (entryElement "FlexMuxBufferDescriptor") d.FlexMuxBufferDescriptor) =
      List.map (entryElement "FlexMuxBufferDescriptor") d.FlexMuxBufferDescriptor := by
    simp only [List.filter_cons, hf, if_false, filter_entryElements, Bool.false_eq_true]
  simp only [analyzeXML, xml.Element.getChildren, xml.Element.children, f1, f2,
    List.getElem?_cons_zero, getEntryAttributes_entryElement _ _ _ hvalid.1,
    List.length_singleton, Nat.le_refl, decide_True, Nat.zero_le, Bool.and_self]
  rw [analyzeLoop_entryElements _ _ hvalid.2]
  simp [clearContent]

/-- C3, witness: a default entry and two entries. -/
theorem xml_roundtrip_witness :
    (⟨⟨1, 0x123456⟩, [⟨2, 0xFFFFFF⟩, ⟨255, 0⟩]⟩ : FmxBufferSizeDescriptor).Valid ∧
      (clearContent new).analyzeXML
          ((⟨⟨1, 0x123456⟩, [⟨2, 0xFFFFFF⟩, ⟨255, 0⟩]⟩ : FmxBufferSizeDescriptor).buildXML
            (xml.Element.mk "FmxBufferSize_descriptor" [] [])) =
        Except.ok (true, ⟨⟨1, 0x123456⟩, [⟨2, 0xFFFFFF⟩, ⟨255, 0⟩]⟩) :=
  ⟨by decide,
    xml_roundtrip ⟨⟨1, 0x123456⟩, [⟨2, 0xFFFFFF⟩, ⟨255, 0⟩]⟩ new "FmxBufferSize_descriptor" []
      (by decide)⟩

/-- C4, the code at the failing input. On an element without any child named
`DefaultFlexMuxBufferDescriptor`, `getChildren` leaves the vector empty and line 133
evaluates `DefaultFlexMuxBuffer[0]` all the same: the call ends in an access
outside of the vector instead of returning `false`. -/
theorem analyzeXML_no_default_child :
    (clearContent new).analyzeXML (xml.Element.mk "FmxBufferSize_descriptor" [] []) =
      Except.error Fault.outOfBounds := by
  rfl

/-! ## CTS3 -/

theorem readBytes_eq (buf pre x post : List Nat) (off n : Nat) (hb : buf = pre ++ x ++ post)
    (ho : off = pre.length) (hn : n = x.length) : readBytes buf off n = Except.ok x := by
  subst hb ho hn
  have h : pre.length + x.length ≤ (pre ++ x ++ post).length := by
    simp only [List.length_append]; omega
  unfold readBytes
  rw [if_pos h, List.append_assoc, List.drop_left, List.take_left]

theorem writeBytes_eq (buf pre mid post src : List Nat) (off : Nat)
    (hb : buf = pre ++ mid ++ post) (ho : off = pre.length) (hs : src.length = mid.length) :
    writeBytes buf off src = Except.ok (pre ++ src ++ post) := by
  subst hb ho
  have h : pre.length + src.length ≤ (pre ++ mid ++ post).length := by
    simp only [List.length_append]; omega
  have hd : List.drop (pre.length + src.length) (pre ++ mid ++ post) = post := by
    rw [hs, ← List.length_append, List.drop_left]
  have ht : List.take pre.length (pre ++ mid ++ post) = pre := by
    rw [List.append_assoc, List.take_left]
  unfold writeBytes
  rw [if_pos h, hd, ht]

namespace CTS3

theorem finalBlocks_eq (op : List Nat → Option (List Nat)) (f : List Nat → List Nat)
    (bs : Nat) (hop : ∀ b : List Nat, b.length = bs → op b = some (f b) ∧ (f b).length = bs)
    (sp q tp mid tpost work : List Nat) (ol : Option Nat)
    (hq : bs < q.length) (hq2 : q.length ≤ 2 * bs) (hmid : mid.length = q.length)
    (hwork : bs ≤ work.length) :
    finalBlocks op bs (sp ++ q) sp.length tp.length q.length (tp ++ mid ++ tpost) ol work =
      Except.ok { ret := true, out := tp ++ stealBlocks f bs q ++ tpost, out_length := ol,
                  work := q.drop bs ++ (f (q.take bs)).drop (q.length - bs) ++ work.drop bs } := by
  have hb1 : (q.take bs).length = bs := by rw [List.length_take]; omega
  obtain ⟨hx, hxl⟩ := hop (q.take bs) hb1
  have hr : (q.drop bs).length = q.length - bs := List.length_drop _ _
  have hb2 : (q.drop bs ++ (f (q.take bs)).drop (q.length - bs)).length = bs := by
    simp only [List.length_append, List.length_drop, hxl]; omega
  obtain ⟨hy, hyl⟩ := hop _ hb2
  unfold finalBlocks
  rw [if_pos hq]
  simp only [bind, Except.bind, pure, Except.pure]
  rw [readBytes_eq (sp ++ q) sp (q.take bs) (q.drop bs) _ _
    (by rw [List.append_assoc, List.take_append_drop]) rfl hb1.symm]
  simp only [hx]
  rw [writeBytes_eq work [] (work.take bs) (work.drop bs) (f (q.take bs)) 0
    (by rw [List.nil_append, List.take_append_drop]) rfl
    (by rw [hxl, List.length_take]; omega)]
  simp only [List.nil_append]
  rw [readBytes_eq (f (q.take bs) ++ work.drop bs) [] ((f (q.take bs)).take (q.length - bs))
    ((f (q.take bs)).drop (q.length - bs) ++ work.drop bs) 0 _
    (by rw [List.nil_append, ← List.append_assoc, List.take_append_drop]) rfl
    (by rw [List.length_take, hxl]; omega)]
  simp only []
  rw [writeBytes_eq (tp ++ mid ++ tpost) (tp ++ mid.take bs) (mid.drop bs) tpost
    ((f (q.take bs)).take (q.length - bs)) _
    (by rw [List.append_assoc tp (mid.take bs), List.take_append_drop])
    (by rw [List.length_append, List.length_take]; omega)
    (by rw [List.length_take, List.length_drop, hxl]; omega)]
  simp only []
  rw [readBytes_eq (sp ++ q) (sp ++ q.take bs) (q.drop bs) [] _ _
    (by rw [List.append_nil, List.append_assoc, List.take_append_drop])
    (by rw [List.length_append, hb1]) hr.symm]
  simp only []
  rw [writeBytes_eq (f (q.take bs) ++ work.drop bs) []
    ((f (q.take bs)).take (q.length - bs))
    ((f (q.take bs)).drop (q.length - bs) ++ work.drop bs) (q.drop bs) 0
    (by rw [List.nil_append, ← List.append_assoc, List.take_append_drop]) rfl
    (by rw [List.length_take, hr, hxl]; omega)]
  simp only [List.nil_append]
  rw [readBytes_eq (q.drop bs ++ ((f (q.take bs)).drop (q.length - bs) ++ work.drop bs)) []
    (q.drop bs ++ (f (q.take bs)).drop (q.length - bs)) (work.drop bs) 0 bs
    (by rw [List.nil_append, List.append_assoc]) rfl hb2.symm]
  simp only [hy]
  rw [writeBytes_eq (tp ++ mid.take bs ++ (f (q.take bs)).take (q.length - bs) ++ tpost) tp
    (mid.take bs) ((f (q.take bs)).take (q.length - bs) ++ tpost) _ _
    (by simp only [List.append_assoc]) rfl (by rw [hyl, List.length_take]; omega)]
  simp [stealBlocks]

theorem ecbBlocks_step (bs len : Nat) (hbs : 1 ≤ bs) (h : 2 * bs < len) :
    ecbBlocks bs len = ecbBlocks bs (len - bs) + 1 := by
  unfold ecbBlocks
  rw [Nat.div_eq (len - bs - 1) bs, if_pos ⟨by omega, by omega⟩]
  congr 2
  omega

theorem ecbBlocks_last (bs len : Nat) (h : len ≤ 2 * bs) (h1 : bs < len) :
    ecbBlocks bs len = 0 := by
  unfold ecbBlocks
  exact Nat.div_eq_of_lt (by omega)

theorem process_eq (op : List Nat → Option (List Nat)) (f : List Nat → List Nat)
    (bs : Nat) (hop : ∀ b : List Nat, b.length = bs → op b = some (f b) ∧ (f b).length = bs)
    (hbs : 1 ≤ bs) (fuel : Nat) :
    ∀ (sp q tp mid tpost work : List Nat) (ol : Option Nat),
      bs < q.length → mid.length = q.length → bs ≤ work.length →
      ecbBlocks bs q.length < fuel →
      ∃ w, process op bs (sp ++ q) fuel sp.length tp.length q.length (tp ++ mid ++ tpost)
          ol work =
        Except.ok { ret := true,
                    out := tp ++ reference f bs (ecbBlocks bs q.length) q ++ tpost,
                    out_length := ol, work := w } ∧ w.length = work.length := by
  induction fuel with
  | zero => intro _ _ _ _ _ _ _ _ _ _ h; omega
  | succ fuel ih =>
    intro sp q tp mid tpost work ol hq hmid hwork hfuel
    unfold process
    by_cases hlen : q.length > 2 * bs
    · have hb1 : (q.take bs).length = bs := by rw [List.length_take]; omega
      obtain ⟨hx, hxl⟩ := hop (q.take bs) hb1
      have hstep := ecbBlocks_step bs q.length hbs hlen
      rw [if_pos hlen]
      simp only [bind, Except.bind]
      rw [readBytes_eq (sp ++ q) sp (q.take bs) (q.drop bs) _ _
        (by rw [List.append_assoc, List.take_append_drop]) rfl hb1.symm]
      simp only [hx]
      rw [writeBytes_eq (tp ++ mid ++ tpost) tp (mid.take bs) (mid.drop bs ++ tpost)
        (f (q.take bs)) _
        (by
          conv_lhs => rw [← List.take_append_drop bs mid]
          simp only [List.append_assoc])
        rfl (by rw [hxl, List.length_take]; omega)]
      simp only []
      have hq' : (q.drop bs).length = q.length - bs := List.length_drop _ _
      obtain ⟨w, hw, hwl⟩ := ih (sp ++ q.take bs) (q.drop bs) (tp ++ f (q.take bs)) (mid.drop bs)
        tpost work ol (by rw [hq']; omega) (by rw [List.length_drop, hq', hmid])
        hwork (by rw [hq']; omega)
      rw [List.append_assoc sp, List.take_append_drop, List.length_append, hb1,
        List.length_append, hxl, hq'] at hw
      refine ⟨w, ?_, hwl⟩
      rw [← List.append_assoc (tp ++ f (q.take bs)), hw, hstep]
      simp only [reference, List.append_assoc]
    · have h0 := ecbBlocks_last bs q.length (by omega) hq
      rw [if_neg hlen, finalBlocks_eq op f bs hop sp q tp mid tpost work ol hq (by omega) hmid
        hwork, h0]
      refine ⟨_, rfl, ?_⟩
      have hxl := (hop (q.take bs) (by rw [List.length_take]; omega)).2
      simp only [List.length_append, List.length_drop, hxl]
      omega

/-- The two methods on accepted arguments: with a block operation that never fails,
the call returns `true`, the first `src.length` bytes of the output buffer are the
reference value and the rest of the buffer is as it was. -/
theorem process_accepted (op : List Nat → Option (List Nat)) (f : List Nat → List Nat)
    (bs : Nat) (hop : ∀ b : List Nat, b.length = bs → op b = some (f b) ∧ (f b).length = bs)
    (hbs : 1 ≤ bs) (src dst work : List Nat) (ol : Option Nat)
    (hsrc : bs < src.length) (hdst : src.length ≤ dst.length) (hwork : bs ≤ work.length) :
    ∃ w, process op bs src src.length 0 0 src.length dst ol work =
        Except.ok { ret := true,
                    out := reference f bs (ecbBlocks bs src.length) src ++ dst.drop src.length,
                    out_length := ol, work := w } ∧ w.length = work.length := by
  have hfuel : ecbBlocks bs src.length < src.length := by
    unfold ecbBlocks
    exact Nat.lt_of_le_of_lt (Nat.div_le_self _ _) (by omega)
  have h := process_eq op f bs hop hbs src.length [] src [] (dst.take src.length)
    (dst.drop src.length) work ol hsrc (by rw [List.length_take]; omega) hwork hfuel
  simpa only [List.nil_append, List.length_nil, List.take_append_drop] using h

theorem stealBlocks_length (f : List Nat → List Nat) (bs : Nat)
    (hf : ∀ b : List Nat, b.length = bs → (f b).length = bs) (q : List Nat)
    (hq : bs < q.length) (hq2 : q.length ≤ 2 * bs) :
    (stealBlocks f bs q).length = q.length := by
  have hb1 : (q.take bs).length = bs := by rw [List.length_take]; omega
  have hxl := hf _ hb1
  have hb2 : (q.drop bs ++ (f (q.take bs)).drop (q.length - bs)).length = bs := by
    simp only [List.length_append, List.length_drop, hxl]; omega
  simp only [stealBlocks, List.length_append, hf _ hb2, List.length_take, hxl]
  omega

theorem reference_length (f : List Nat → List Nat) (bs : Nat)
    (hf : ∀ b : List Nat, b.length = bs → (f b).length = bs) (k : Nat) :
    ∀ q : List Nat, k * bs + bs < q.length → q.length ≤ k * bs + 2 * bs →
      (reference f bs k q).length = q.length := by
  induction k with
  | zero =>
    intro q h1 h2
    exact stealBlocks_length f bs hf q (by omega) (by omega)
  | succ k ih =>
    intro q h1 h2
    have e : (k + 1) * bs = k * bs + bs := Nat.succ_mul k bs
    have hb1 : (q.take bs).length = bs := by rw [List.length_take]; omega
    have hd : (q.drop bs).length = q.length - bs := List.length_drop _ _
    simp only [reference, List.length_append, hf _ hb1]
    rw [ih (q.drop bs) (by omega) (by omega), hd]
    omega

theorem stealBlocks_inverse (f g : List Nat → List Nat) (bs : Nat)
    (hf : ∀ b : List Nat, b.length = bs → (f b).length = bs)
    (hgf : ∀ b : List Nat, b.length = bs → g (f b) = b) (q : List Nat)
    (hq : bs < q.length) (hq2 : q.length ≤ 2 * bs) :
    stealBlocks g bs (stealBlocks f bs q) = q := by
  have hb1 : (q.take bs).length = bs := by rw [List.length_take]; omega
  have hxl := hf _ hb1
  have hr : (q.drop bs).length = q.length - bs := List.length_drop _ _
  have hb2 : (q.drop bs ++ (f (q.take bs)).drop (q.length - bs)).length = bs := by
    simp only [List.length_append, List.length_drop, hxl]; omega
  have hyl := hf _ hb2
  have hlen := stealBlocks_length f bs hf q hq hq2
  have htake : (stealBlocks f bs q).take bs =
      f (q.drop bs ++ (f (q.take bs)).drop (q.length - bs)) := by
    unfold stealBlocks
    exact List.take_left' hyl
  have hdrop : (stealBlocks f bs q).drop bs = (f (q.take bs)).take (q.length - bs) := by
    unfold stealBlocks
    exact List.drop_left' hyl
  have e : stealBlocks g bs (stealBlocks f bs q) =
      g ((stealBlocks f bs q).drop bs ++
          (g ((stealBlocks f bs q).take bs)).drop ((stealBlocks f bs q).length - bs)) ++
        (g ((stealBlocks f bs q).take bs)).take ((stealBlocks f bs q).length - bs) := rfl
  rw [e, htake, hdrop, hlen, hgf _ hb2, List.drop_left' hr, List.take_left' hr,
    List.take_append_drop, hgf _ hb1, List.take_append_drop]

theorem reference_inverse (f g : List Nat → List Nat) (bs : Nat)
    (hf : ∀ b : List Nat, b.length = bs → (f b).length = bs)
    (hgf : ∀ b : List Nat, b.length = bs → g (f b) = b) (k : Nat) :
    ∀ q : List Nat, k * bs + bs < q.length → q.length ≤ k * bs + 2 * bs →
      reference g bs k (reference f bs k q) = q := by
  induction k with
  | zero =>
    intro q h1 h2
    exact stealBlocks_inverse f g bs hf hgf q (by omega) (by omega)
  | succ k ih =>
    intro q h1 h2
    have e : (k + 1) * bs = k * bs + bs := Nat.succ_mul k bs
    have hb1 : (q.take bs).length = bs := by rw [List.length_take]; omega
    have hd : (q.drop bs).length = q.length - bs := List.length_drop _ _
    have hxl := hf _ hb1
    simp only [reference]
    rw [List.take_left' hxl, List.drop_left' hxl, hgf _ hb1,
      ih (q.drop bs) (by omega) (by omega), List.take_append_drop]

theorem ecbBlocks_bounds (bs len : Nat) (hbs : 1 ≤ bs) (h : bs < len) :
    ecbBlocks bs len * bs + bs < len ∧ len ≤ ecbBlocks bs len * bs + 2 * bs := by
  unfold ecbBlocks
  have h1 := Nat.div_add_mod (len - bs - 1) bs
  have h2 := Nat.mod_lt (len - bs - 1) (show bs > 0 by omega)
  rw [Nat.mul_comm] at h1
  constructor <;> omega

theorem blockFun_encrypt (c : BlockCipher) (bs : Nat) (h : c.NeverFails bs) :
    ∀ b : List Nat, b.length = bs →
      c.encrypt b = some (blockFun c.encrypt b) ∧ (blockFun c.encrypt b).length = bs := by
  intro b hb
  obtain ⟨⟨o, ho, hl⟩, _⟩ := h b hb
  simp [blockFun, ho, hl]

theorem blockFun_decrypt (c : BlockCipher) (bs : Nat) (h : c.NeverFails bs) :
    ∀ b : List Nat, b.length = bs →
      c.decrypt b = some (blockFun c.decrypt b) ∧ (blockFun c.decrypt b).length = bs := by
  intro b hb
  obtain ⟨_, ⟨o, ho, hl⟩⟩ := h b hb
  simp [blockFun, ho, hl]

theorem sampleCipher_neverFails (bs : Nat) : sampleCipher.NeverFails bs := by
  intro b hb
  exact ⟨⟨_, rfl, by simp [hb]⟩, ⟨_, rfl, by simp [hb]⟩⟩

theorem sampleCipher_inverse (b o : List Nat) (h : sampleCipher.encrypt b = some o) :
    sampleCipher.decrypt o = some b := by
  simp only [sampleCipher, Option.some.injEq] at h ⊢
  subst h
  simp [List.map_reverse, Function.comp_def]

theorem encryptImpl_accepted (c : BlockCipher) (bs : Nat) (work plain cipher : List Nat)
    (cipher_length : Option Nat) (hbs : 1 ≤ bs) (hnf : c.NeverFails bs)
    (hwork : bs ≤ work.length) (hlen : bs < plain.length)
    (hcap : plain.length ≤ cipher.length) :
    ∃ w, encryptImpl { algo := some c, block_size := bs, work := work } plain cipher
        cipher_length =
      Except.ok { ret := true,
                  out := reference (blockFun c.encrypt) bs (ecbBlocks bs plain.length) plain
                    ++ cipher.drop plain.length,
                  out_length := cipher_length.map (fun _ => plain.length), work := w } ∧
      w.length = work.length := by
  have hcond : ¬ (work.length < bs ∨ plain.length ≤ bs ∨ cipher.length < plain.length) := by
    omega
  simp only [encryptImpl, hcond, if_false]
  exact process_accepted c.encrypt (blockFun c.encrypt) bs (blockFun_encrypt c bs hnf) hbs
    plain cipher work _ hlen hcap hwork

theorem decryptImpl_accepted (c : BlockCipher) (bs : Nat) (work cipher plain : List Nat)
    (plain_length : Option Nat) (hbs : 1 ≤ bs) (hnf : c.NeverFails bs)
    (hwork : bs ≤ work.length) (hlen : bs < cipher.length)
    (hcap : cipher.length ≤ plain.length) :
    ∃ w, decryptImpl { algo := some c, block_size := bs, work := work } cipher plain
        plain_length =
      Except.ok { ret := true,
                  out := reference (blockFun c.decrypt) bs (ecbBlocks bs cipher.length) cipher
                    ++ plain.drop cipher.length,
                  out_length := plain_length.map (fun _ => cipher.length), work := w } ∧
      w.length = work.length := by
  have hcond : ¬ (work.length < bs ∨ cipher.length ≤ bs ∨ plain.length < cipher.length) := by
    omega
  simp only [decryptImpl, hcond, if_false]
  exact process_accepted c.decrypt (blockFun c.decrypt) bs (blockFun_decrypt c bs hnf) hbs
    cipher plain work _ hlen hcap hwork

theorem encryptImpl_rejected (cts : CTS3) (plain cipher : List Nat) (cipher_length : Option Nat)
    (h : plain.length ≤ cts.block_size) :
    encryptImpl cts plain cipher cipher_length =
      Except.ok { ret := false, out := cipher, out_length := cipher_length, work := cts.work } := by
  unfold encryptImpl
  cases cts.algo with
  | none => rfl
  | some a =>
    have hcond : cts.work.length < cts.block_size ∨ plain.length ≤ cts.block_size ∨
        cipher.length < plain.length := Or.inr (Or.inl h)
    simp only [hcond, if_true]
    rfl

theorem decryptImpl_rejected (cts : CTS3) (cipher plain : List Nat) (plain_length : Option Nat)
    (h : cipher.length ≤ cts.block_size) :
    decryptImpl cts cipher plain plain_length =
      Except.ok { ret := false, out := plain, out_length := plain_length, work := cts.work } := by
  unfold decryptImpl
  cases cts.algo with
  | none => rfl
  | some a =>
    have hcond : cts.work.length < cts.block_size ∨ cipher.length ≤ cts.block_size ∨
        plain.length < cipher.length := Or.inr (Or.inl h)
    simp only [hcond, if_true]
    rfl

theorem drop_take_append (a b : List Nat) (off n : Nat) (h : off + n ≤ a.length) :
    ((a ++ b).drop off).take n = (a.drop off).take n := by
  rw [List.drop_append_of_le_length (by omega),
    List.take_append_of_le_length (by rw [List.length_drop]; omega)]

theorem reference_block (f : List Nat → List Nat) (bs : Nat)
    (hf : ∀ b : List Nat, b.length = bs → (f b).length = bs) (k : Nat) :
    ∀ (q : List Nat) (i : Nat), i < k → k * bs + bs < q.length →
      ((reference f bs k q).drop (i * bs)).take bs = f ((q.drop (i * bs)).take bs) := by
  induction k with
  | zero => intro _ _ h; omega
  | succ k ih =>
    intro q i hi hq
    have e : (k + 1) * bs = k * bs + bs := Nat.succ_mul k bs
    have hb1 : (q.take bs).length = bs := by rw [List.length_take]; omega
    have hxl := hf _ hb1
    have hd : (q.drop bs).length = q.length - bs := List.length_drop _ _
    simp only [reference]
    cases i with
    | zero =>
      simp only [Nat.zero_mul, List.drop_zero]
      exact List.take_left' hxl
    | succ j =>
      have e2 : (j + 1) * bs = (f (q.take bs)).length + j * bs := by
        rw [hxl, Nat.succ_mul]; omega
      have e3 : (j + 1) * bs = bs + j * bs := by rw [Nat.succ_mul]; omega
      rw [e2, List.drop_append, ih (q.drop bs) j (by omega) (by omega), List.drop_drop, hxl]

theorem reference_tail (f : List Nat → List Nat) (bs : Nat)
    (hf : ∀ b : List Nat, b.length = bs → (f b).length = bs) (k : Nat) :
    ∀ q : List Nat, k * bs + bs < q.length →
      (reference f bs k q).drop (k * bs) = stealBlocks f bs (q.drop (k * bs)) := by
  induction k with
  | zero => intro q _; simp [reference]
  | succ k ih =>
    intro q hq
    have e : (k + 1) * bs = k * bs + bs := Nat.succ_mul k bs
    have hb1 : (q.take bs).length = bs := by rw [List.length_take]; omega
    have hxl := hf _ hb1
    have hd : (q.drop bs).length = q.length - bs := List.length_drop _ _
    have e2 : (k + 1) * bs = (f (q.take bs)).length + k * bs := by
      rw [hxl, Nat.succ_mul]; omega
    simp only [reference]
    rw [e2, List.drop_append, ih (q.drop bs) (by omega), List.drop_drop, hxl]

theorem ecbBlocks_of_shape (bs n r : Nat) (hn : 2 ≤ n) (hr1 : 1 ≤ r) (hr2 : r ≤ bs) :
    ecbBlocks bs ((n - 1) * bs + r) = n - 2 := by
  unfold ecbBlocks
  have e : (n - 1) * bs = (n - 2) * bs + bs := by
    have : n - 1 = (n - 2) + 1 := by omega
    rw [this, Nat.succ_mul]
  have e2 : (n - 1) * bs + r - bs - 1 = (r - 1) + bs * (n - 2) := by
    rw [e, Nat.mul_comm]; omega
  rw [e2, Nat.add_mul_div_left _ _ (by omega), Nat.div_eq_of_lt (by omega)]
  omega

/-! ### Claims on CTS3 -/

/-- C2. CTS3 decryption undoes CTS3 encryption. For every block size `bs ≥ 1`, every
underlying cipher that never fails and whose single-block decryption inverts its
single-block encryption, and every plaintext of length `L > bs` encrypted into a
distinct output buffer of capacity at least `L`: `encryptImpl` returns `true` and
reports the length `L`; `decryptImpl`, applied to the `L` bytes of ciphertext,
returns `true`, reports the length `L` and gives back exactly the plaintext, whether
or not `L` is a multiple of `bs`. -/
theorem cts3_decrypt_encrypt (c : BlockCipher) (bs : Nat)
    (work plain cipher plain2 : List Nat) (cipher_length plain_length : Option Nat)
    (hbs : 1 ≤ bs) (hnf : c.NeverFails bs)
    (hinv : ∀ b o : List Nat, b.length = bs → c.encrypt b = some o → c.decrypt o = some b)
    (hwork : bs ≤ work.length) (hlen : bs < plain.length)
    (hcap : plain.length ≤ cipher.length) (hcap2 : plain.length ≤ plain2.length) :
    ∃ r, encryptImpl { algo := some c, block_size := bs, work := work } plain cipher
          cipher_length = Except.ok r ∧
      r.ret = true ∧ r.out_length = cipher_length.map (fun _ => plain.length) ∧
      (r.out.take plain.length).length = plain.length ∧
      ∃ r2, decryptImpl { algo := some c, block_size := bs, work := r.work }
            (r.out.take plain.length) plain2 plain_length = Except.ok r2 ∧
        r2.ret = true ∧ r2.out_length = plain_length.map (fun _ => plain.length) ∧
        r2.out.take plain.length = plain := by
  obtain ⟨w, hw, hwl⟩ := encryptImpl_accepted c bs work plain cipher cipher_length hbs hnf
    hwork hlen hcap
  obtain ⟨hb1, hb2⟩ := ecbBlocks_bounds bs plain.length hbs hlen
  have hfl : ∀ b : List Nat, b.length = bs → (blockFun c.encrypt b).length = bs :=
    fun b hb => (blockFun_encrypt c bs hnf b hb).2
  have hrl := reference_length (blockFun c.encrypt) bs hfl _ plain hb1 hb2
  have hgf : ∀ b : List Nat, b.length = bs → blockFun c.decrypt (blockFun c.encrypt b) = b := by
    intro b hb
    have h1 := hinv b _ hb (blockFun_encrypt c bs hnf b hb).1
    show (c.decrypt (blockFun c.encrypt b)).getD [] = b
    rw [h1]
    rfl
  have htake : (reference (blockFun c.encrypt) bs (ecbBlocks bs plain.length) plain
      ++ cipher.drop plain.length).take plain.length =
      reference (blockFun c.encrypt) bs (ecbBlocks bs plain.length) plain :=
    List.take_left' hrl
  refine ⟨_, hw, rfl, rfl, ?_, ?_⟩
  · simp only [htake, hrl]
  · simp only [htake]
    obtain ⟨w2, hw2, _⟩ := decryptImpl_accepted c bs w
      (reference (blockFun c.encrypt) bs (ecbBlocks bs plain.length) plain) plain2 plain_length
      hbs hnf (by omega) (by omega) (by omega)
    rw [hrl] at hw2
    refine ⟨_, hw2, rfl, rfl, ?_⟩
    simp only [reference_inverse (blockFun c.encrypt) (blockFun c.decrypt) bs hfl hgf _ plain
      hb1 hb2]
    exact List.take_left' rfl

/-- C2, witness: blocks of 3 bytes and a plaintext of 8 bytes (two blocks and a
residue of 2 bytes), encrypted into a buffer of 10 bytes. -/
theorem cts3_decrypt_encrypt_witness :
    ∃ r, encryptImpl { algo := some sampleCipher, block_size := 3, work := [0, 0, 0] }
          [10, 20, 30, 40, 50, 60, 70, 80] (List.replicate 10 0) (some 0) = Except.ok r ∧
      r.ret = true ∧ r.out_length = (some 0).map (fun _ => 8) ∧
      (r.out.take 8).length = 8 ∧
      ∃ r2, decryptImpl { algo := some sampleCipher, block_size := 3, work := r.work }
            (r.out.take 8) (List.replicate 8 0) none = Except.ok r2 ∧
        r2.ret = true ∧ r2.out_length = (none : Option Nat).map (fun _ => 8) ∧
        r2.out.take 8 = [10, 20, 30, 40, 50, 60, 70, 80] :=
  cts3_decrypt_encrypt sampleCipher 3 [0, 0, 0] [10, 20, 30, 40, 50, 60, 70, 80]
    (List.replicate 10 0) (List.replicate 8 0) (some 0) none (by decide)
    (sampleCipher_neverFails 3) (fun b o _ h => sampleCipher_inverse b o h) (by decide)
    (by decide) (by decide) (by decide)

/-- C8. `encryptImpl` computes ECB ciphertext stealing. For a block size `bs ≥ 1`, a
block encryption `E` that never fails and a plaintext `P` of length
`(n-1) * bs + r` with `n ≥ 2` and `1 ≤ r ≤ bs`, the call returns `true` and the
output `C` satisfies: for every `i < n-2`, block `i` of `C` is `E` (block `i` of
`P`); with `X = E` (block `n-2` of `P`), the `r` bytes of `C` at offset
`(n-1) * bs` are the first `r` bytes of `X`; and block `n-2` of `C` is `E T`, where
`T` is the last `r` bytes of `P` followed by the last `bs - r` bytes of `X`. -/
theorem cts3_encrypt_stealing (c : BlockCipher) (bs n r : Nat)
    (work plain cipher : List Nat) (cipher_length : Option Nat)
    (hbs : 1 ≤ bs) (hnf : c.NeverFails bs) (hn : 2 ≤ n) (hr1 : 1 ≤ r) (hr2 : r ≤ bs)
    (hshape : plain.length = (n - 1) * bs + r)
    (hwork : bs ≤ work.length) (hcap : plain.length ≤ cipher.length) :
    ∃ res X, encryptImpl { algo := some c, block_size := bs, work := work } plain cipher
          cipher_length = Except.ok res ∧
      res.ret = true ∧
      (∀ i, i < n - 2 →
        c.encrypt ((plain.drop (i * bs)).take bs) = some ((res.out.drop (i * bs)).take bs)) ∧
      c.encrypt ((plain.drop ((n - 2) * bs)).take bs) = some X ∧
      X.length = bs ∧
      (res.out.drop ((n - 1) * bs)).take r = X.take r ∧
      (plain.drop ((n - 1) * bs)).length = r ∧
      c.encrypt (plain.drop ((n - 1) * bs) ++ X.drop r) =
        some ((res.out.drop ((n - 2) * bs)).take bs) := by
  have e1 : (n - 1) * bs = (n - 2) * bs + bs := by
    have : n - 1 = (n - 2) + 1 := by omega
    rw [this, Nat.succ_mul]
  have hlen : bs < plain.length := by rw [hshape, e1]; omega
  obtain ⟨w, hw, _⟩ := encryptImpl_accepted c bs work plain cipher cipher_length hbs hnf
    hwork hlen hcap
  have hk : ecbBlocks bs plain.length = n - 2 := by
    rw [hshape]; exact ecbBlocks_of_shape bs n r hn hr1 hr2
  rw [hk] at hw
  have hop := blockFun_encrypt c bs hnf
  have hfl : ∀ b : List Nat, b.length = bs → (blockFun c.encrypt b).length = bs :=
    fun b hb => (hop b hb).2
  have hq : (n - 2) * bs + bs < plain.length := by rw [hshape, e1]; omega
  have hq2 : plain.length ≤ (n - 2) * bs + 2 * bs := by rw [hshape, e1]; omega
  have hrl := reference_length (blockFun c.encrypt) bs hfl (n - 2) plain hq hq2
  have hblk : ∀ i, i ≤ n - 2 → ((plain.drop (i * bs)).take bs).length = bs := by
    intro i hi
    have : i * bs ≤ (n - 2) * bs := Nat.mul_le_mul_right bs hi
    rw [List.length_take, List.length_drop]
    omega
  have hX := hop _ (hblk (n - 2) (Nat.le_refl _))
  have hres : (plain.drop ((n - 1) * bs)).length = r := by
    rw [List.length_drop, hshape]; omega
  have hT : (plain.drop ((n - 1) * bs) ++
      (blockFun c.encrypt ((plain.drop ((n - 2) * bs)).take bs)).drop r).length = bs := by
    simp only [List.length_append, List.length_drop, hX.2]; omega
  have htail := reference_tail (blockFun c.encrypt) bs hfl (n - 2) plain hq
  have hsteal : stealBlocks (blockFun c.encrypt) bs (plain.drop ((n - 2) * bs)) =
      blockFun c.encrypt (plain.drop ((n - 1) * bs) ++
        (blockFun c.encrypt ((plain.drop ((n - 2) * bs)).take bs)).drop r) ++
      (blockFun c.encrypt ((plain.drop ((n - 2) * bs)).take bs)).take r := by
    have hl : (plain.drop ((n - 2) * bs)).length - bs = r := by
      rw [List.length_drop, hshape]; omega
    simp only [stealBlocks, hl, List.drop_drop, e1]
  refine ⟨_, blockFun c.encrypt ((plain.drop ((n - 2) * bs)).take bs), hw, rfl, ?_, hX.1, hX.2,
    ?_, hres, ?_⟩
  · intro i hi
    have : i * bs + bs ≤ (n - 2) * bs := by
      have := Nat.mul_le_mul_right bs (show i + 1 ≤ n - 2 by omega)
      rw [Nat.succ_mul] at this
      exact this
    simp only []
    rw [drop_take_append _ _ _ _ (by omega),
      reference_block (blockFun c.encrypt) bs hfl (n - 2) plain i hi hq]
    exact (hop _ (hblk i (by omega))).1
  · simp only []
    have hstl : ((reference (blockFun c.encrypt) bs (n - 2) plain).drop ((n - 1) * bs)) =
        (blockFun c.encrypt ((plain.drop ((n - 2) * bs)).take bs)).take r := by
      rw [e1, ← List.drop_drop, htail, hsteal]
      exact List.drop_left' (hop _ hT).2
    rw [drop_take_append _ _ _ _ (by omega), hstl, List.take_take, Nat.min_self]
  · simp only []
    rw [drop_take_append _ _ _ _ (by omega), htail, hsteal]
    rw [List.take_left' (hop _ hT).2]
    exact (hop _ hT).1

/-- C8, witness: blocks of 3 bytes, `n = 3` and a residue of `r = 2` bytes. -/
theorem cts3_encrypt_stealing_witness :
    ∃ res X, encryptImpl { algo := some sampleCipher, block_size := 3, work := [0, 0, 0] }
          [10, 20, 30, 40, 50, 60, 70, 80] (List.replicate 10 0) (some 0) = Except.ok res ∧
      res.ret = true ∧
      (∀ i, i < 3 - 2 →
        sampleCipher.encrypt ((([10, 20, 30, 40, 50, 60, 70, 80] : List Nat).drop (i * 3)).take 3)
          = some ((res.out.drop (i * 3)).take 3)) ∧
      sampleCipher.encrypt ((([10, 20, 30, 40, 50, 60, 70, 80] : List Nat).drop ((3 - 2) * 3)).take 3)
        = some X ∧
      X.length = 3 ∧
      (res.out.drop ((3 - 1) * 3)).take 2 = X.take 2 ∧
      (([10, 20, 30, 40, 50, 60, 70, 80] : List Nat).drop ((3 - 1) * 3)).length = 2 ∧
      sampleCipher.encrypt (([10, 20, 30, 40, 50, 60, 70, 80] : List Nat).drop ((3 - 1) * 3)
          ++ X.drop 2) = some ((res.out.drop ((3 - 2) * 3)).take 3) :=
  cts3_encrypt_stealing sampleCipher 3 3 2 [0, 0, 0] [10, 20, 30, 40, 50, 60, 70, 80]
    (List.replicate 10 0) (some 0) (by decide) (sampleCipher_neverFails 3) (by decide)
    (by decide) (by decide) (by decide) (by decide) (by decide)

/-- C9. The message-size limit of CTS3. With an underlying cipher that is set and never
fails (blocks of `block_size ≥ 1` bytes), a work buffer of at least `block_size`
bytes and an output capacity of at least the input length, `encryptImpl` returns, and
it returns `true` exactly when the input length is at least
`minMessageSize() = block_size + 1`; the same holds for `decryptImpl`. Every input of
at most `block_size` bytes is rejected with `false`. -/
theorem cts3_message_size (c : BlockCipher) (bs : Nat) (work input output : List Nat)
    (length : Option Nat) (hbs : 1 ≤ bs) (hnf : c.NeverFails bs)
    (hwork : bs ≤ work.length) (hcap : input.length ≤ output.length) :
    minMessageSize { algo := some c, block_size := bs, work := work } = bs + 1 ∧
      (∃ r, encryptImpl { algo := some c, block_size := bs, work := work } input output
            length = Except.ok r ∧
        (r.ret = true ↔
          minMessageSize { algo := some c, block_size := bs, work := work } ≤ input.length) ∧
        (input.length ≤ bs → r.ret = false)) ∧
      (∃ r, decryptImpl { algo := some c, block_size := bs, work := work } input output
            length = Except.ok r ∧
        (r.ret = true ↔
          minMessageSize { algo := some c, block_size := bs, work := work } ≤ input.length) ∧
        (input.length ≤ bs → r.ret = false)) := by
  refine ⟨rfl, ?_, ?_⟩
  · by_cases hlen : bs < input.length
    · obtain ⟨w, hw, _⟩ := encryptImpl_accepted c bs work input output length hbs hnf hwork
        hlen hcap
      refine ⟨_, hw, ?_, ?_⟩
      · simp only [minMessageSize, true_iff]; omega
      · intro h; omega
    · refine ⟨_, encryptImpl_rejected _ input output length (by simpa using hlen), ?_, ?_⟩
      · simp only [minMessageSize, Bool.false_eq_true, false_iff]; omega
      · intro _; rfl
  · by_cases hlen : bs < input.length
    · obtain ⟨w, hw, _⟩ := decryptImpl_accepted c bs work input output length hbs hnf hwork
        hlen hcap
      refine ⟨_, hw, ?_, ?_⟩
      · simp only [minMessageSize, true_iff]; omega
      · intro h; omega
    · refine ⟨_, decryptImpl_rejected _ input output length (by simpa using hlen), ?_, ?_⟩
      · simp only [minMessageSize, Bool.false_eq_true, false_iff]; omega
      · intro _; rfl

/-- C9, witness: blocks of 3 bytes and an input of exactly 3 bytes, which is
rejected. -/
theorem cts3_message_size_witness :
    minMessageSize { algo := some sampleCipher, block_size := 3, work := [0, 0, 0] } = 3 + 1 ∧
      (∃ r, encryptImpl { algo := some sampleCipher, block_size := 3, work := [0, 0, 0] }
            [1, 2, 3] [0, 0, 0] (some 0) = Except.ok r ∧
        (r.ret = true ↔
          minMessageSize { algo := some sampleCipher, block_size := 3, work := [0, 0, 0] } ≤
            ([1, 2, 3] : List Nat).length) ∧
        (([1, 2, 3] : List Nat).length ≤ 3 → r.ret = false)) ∧
      (∃ r, decryptImpl { algo := some sampleCipher, block_size := 3, work := [0, 0, 0] }
            [1, 2, 3] [0, 0, 0] (some 0) = Except.ok r ∧
        (r.ret = true ↔
          minMessageSize { algo := some sampleCipher, block_size := 3, work := [0, 0, 0] } ≤
            ([1, 2, 3] : List Nat).length) ∧
        (([1, 2, 3] : List Nat).length ≤ 3 → r.ret = false)) :=
  cts3_message_size sampleCipher 3 [0, 0, 0] [1, 2, 3] [0, 0, 0] (some 0) (by decide)
    (sampleCipher_neverFails 3) (by decide) (by decide)

/-- C10. CTS3 processes a residue without padding. `residueAllowed()` is `true`; for
every accepted plaintext of length `L` (any `L > block_size`, multiple of the block
size or not) `encryptImpl` returns `true`, reports `cipher_length = L` and writes
exactly the bytes at offsets `0` to `L - 1` of the output buffer: the buffer keeps
its size, its bytes from offset `L` on are unchanged, and its first `L` bytes do not
depend on what the buffer held before. `decryptImpl` likewise reports a
`plain_length` equal to the ciphertext length. -/
theorem cts3_residue (c : BlockCipher) (bs : Nat) (work input output output2 : List Nat)
    (v : Nat) (hbs : 1 ≤ bs) (hnf : c.NeverFails bs) (hwork : bs ≤ work.length)
    (hlen : bs < input.length) (hcap : input.length ≤ output.length)
    (hcap2 : input.length ≤ output2.length) :
    residueAllowed { algo := some c, block_size := bs, work := work } = true ∧
      (∃ r r2, encryptImpl { algo := some c, block_size := bs, work := work } input output
            (some v) = Except.ok r ∧
        encryptImpl { algo := some c, block_size := bs, work := work } input output2
            (some v) = Except.ok r2 ∧
        r.ret = true ∧ r.out_length = some input.length ∧ r.out.length = output.length ∧
        r.out.drop input.length = output.drop input.length ∧
        r.out.take input.length = r2.out.take input.length) ∧
      (∃ r r2, decryptImpl { algo := some c, block_size := bs, work := work } input output
            (some v) = Except.ok r ∧
        decryptImpl { algo := some c, block_size := bs, work := work } input output2
            (some v) = Except.ok r2 ∧
        r.ret = true ∧ r.out_length = some input.length ∧ r.out.length = output.length ∧
        r.out.drop input.length = output.drop input.length ∧
        r.out.take input.length = r2.out.take input.length) := by
  obtain ⟨hb1, hb2⟩ := ecbBlocks_bounds bs input.length hbs hlen
  refine ⟨rfl, ?_, ?_⟩
  · have hfl : ∀ b : List Nat, b.length = bs → (blockFun c.encrypt b).length = bs :=
      fun b hb => (blockFun_encrypt c bs hnf b hb).2
    have hrl := reference_length (blockFun c.encrypt) bs hfl _ input hb1 hb2
    obtain ⟨w, hw, _⟩ := encryptImpl_accepted c bs work input output (some v) hbs hnf hwork
      hlen hcap
    obtain ⟨w2, hw2, _⟩ := encryptImpl_accepted c bs work input output2 (some v) hbs hnf hwork
      hlen hcap2
    refine ⟨_, _, hw, hw2, rfl, rfl, ?_, ?_, ?_⟩
    · simp only [List.length_append, hrl, List.length_drop]; omega
    · exact List.drop_left' hrl
    · simp only [List.take_left' hrl]
  · have hfl : ∀ b : List Nat, b.length = bs → (blockFun c.decrypt b).length = bs :=
      fun b hb => (blockFun_decrypt c bs hnf b hb).2
    have hrl := reference_length (blockFun c.decrypt) bs hfl _ input hb1 hb2
    obtain ⟨w, hw, _⟩ := decryptImpl_accepted c bs work input output (some v) hbs hnf hwork
      hlen hcap
    obtain ⟨w2, hw2, _⟩ := decryptImpl_accepted c bs work input output2 (some v) hbs hnf hwork
      hlen hcap2
    refine ⟨_, _, hw, hw2, rfl, rfl, ?_, ?_, ?_⟩
    · simp only [List.length_append, hrl, List.length_drop]; omega
    · exact List.drop_left' hrl
    · simp only [List.take_left' hrl]

/-- C10, witness: blocks of 3 bytes and an input of 8 bytes, which is not a multiple of
the block size, with two output buffers of different content. -/
theorem cts3_residue_witness :
    residueAllowed { algo := some sampleCipher, block_size := 3, work := [0, 0, 0] } = true ∧
      (∃ r r2, encryptImpl { algo := some sampleCipher, block_size := 3, work := [0, 0, 0] }
            [10, 20, 30, 40, 50, 60, 70, 80] (List.replicate 10 0) (some 0) = Except.ok r ∧
        encryptImpl { algo := some sampleCipher, block_size := 3, work := [0, 0, 0] }
            [10, 20, 30, 40, 50, 60, 70, 80] (List.replicate 9 7) (some 0) = Except.ok r2 ∧
        r.ret = true ∧
        r.out_length = some ([10, 20, 30, 40, 50, 60, 70, 80] : List Nat).length ∧
        r.out.length = (List.replicate 10 0).length ∧
        r.out.drop ([10, 20, 30, 40, 50, 60, 70, 80] : List Nat).length =
          (List.replicate 10 0).drop ([10, 20, 30, 40, 50, 60, 70, 80] : List Nat).length ∧
        r.out.take ([10, 20, 30, 40, 50, 60, 70, 80] : List Nat).length =
          r2.out.take ([10, 20, 30, 40, 50, 60, 70, 80] : List Nat).length) :=
  have h := cts3_residue sampleCipher 3 [0, 0, 0] [10, 20, 30, 40, 50, 60, 70, 80]
    (List.replicate 10 0) (List.replicate 9 7) 0 (by decide) (sampleCipher_neverFails 3)
    (by decide) (by decide) (by decide) (by decide)
  ⟨h.1, h.2.1⟩

end CTS3

/-! ## Further claims on FmxBufferSizeDescriptor -/

/-- C13. Encoded size. For every descriptor with `n` list entries whose encoding fits
the capacity of the buffer, `serializePayload` writes, without write error, exactly
`4 + 4 n` bytes: the channel byte and the three big-endian bytes of the buffer size
of the default entry, then the same four bytes for each entry in list order. One
default entry plus two entries give exactly 12 bytes. -/
theorem encoded_size (d : FmxBufferSizeDescriptor) (capacity : Nat)
    (hfit : 4 + 4 * d.FlexMuxBufferDescriptor.length ≤ capacity) :
    (d.serializePayload (PSIBuffer.forWrite capacity)).writeError = false ∧
      (d.serializePayload (PSIBuffer.forWrite capacity)).data.length =
        4 + 4 * d.FlexMuxBufferDescriptor.length ∧
      (d.serializePayload (PSIBuffer.forWrite capacity)).data =
        [d.DefaultFlexMuxBufferDescriptor.flexMuxChnnel % 256,
          (d.DefaultFlexMuxBufferDescriptor.FB_BufferSize / 65536) % 256,
          (d.DefaultFlexMuxBufferDescriptor.FB_BufferSize / 256) % 256,
          d.DefaultFlexMuxBufferDescriptor.FB_BufferSize % 256] ++
        (d.FlexMuxBufferDescriptor.map (fun e =>
          [e.flexMuxChnnel % 256, (e.FB_BufferSize / 65536) % 256,
            (e.FB_BufferSize / 256) % 256, e.FB_BufferSize % 256])).flatten ∧
      (d.FlexMuxBufferDescriptor.length = 2 →
        (d.serializePayload (PSIBuffer.forWrite capacity)).data.length = 12) := by
  obtain ⟨hdata, herr⟩ := serializePayload_data d capacity hfit
  have hlen : (d.serializePayload (PSIBuffer.forWrite capacity)).data.length =
      4 + 4 * d.FlexMuxBufferDescriptor.length := by
    rw [hdata, payloadBytes_length]; rfl
  refine ⟨herr, hlen, ?_, ?_⟩
  · rw [hdata]; rfl
  · intro h2
    rw [hlen, h2]

/-- C13, witness: one default entry plus two entries, 12 bytes. -/
theorem encoded_size_witness :
    4 + 4 * (⟨⟨1, 2⟩, [⟨3, 4⟩, ⟨5, 6⟩]⟩ : FmxBufferSizeDescriptor).FlexMuxBufferDescriptor.length
        ≤ 255 ∧
      ((⟨⟨1, 2⟩, [⟨3, 4⟩, ⟨5, 6⟩]⟩ : FmxBufferSizeDescriptor).serializePayload
        (PSIBuffer.forWrite 255)).data.length = 12 :=
  ⟨by decide,
    (encoded_size ⟨⟨1, 2⟩, [⟨3, 4⟩, ⟨5, 6⟩]⟩ 255 (by decide)).2.2.2 rfl⟩

/-- C15. `clearContent` resets to the default state: whatever the prior state, the
default entry becomes (channel 0, buffer size 0) and the entry list becomes empty,
which is the state that the default constructor builds. Hence `clearContent` is
idempotent, and a decode that follows it does not depend on the prior state. -/
theorem clearContent_resets (d d2 : FmxBufferSizeDescriptor) (buf : PSIBuffer) :
    d.clearContent.DefaultFlexMuxBufferDescriptor.flexMuxChnnel = 0 ∧
      d.clearContent.DefaultFlexMuxBufferDescriptor.FB_BufferSize = 0 ∧
      d.clearContent.FlexMuxBufferDescriptor = [] ∧
      d.clearContent = new ∧
      d.clearContent.clearContent = d.clearContent ∧
      deserializePayload buf d.clearContent = deserializePayload buf d2.clearContent :=
  ⟨rfl, rfl, rfl, rfl, rfl, rfl⟩

/-- C19. `deserializePayload` is fully guarded. On every payload of `L` bytes the decode
terminates with a result; the truncation flag of the cursor is never set, that is, no
`getUInt8` or `getUInt24` is attempted with fewer bytes left than it reads; and the
final read position is exactly `4 * (L / 4)`, which is at most `L`. -/
theorem deserializePayload_guarded (payload : List Nat) (d : FmxBufferSizeDescriptor) :
    ∃ buf res, deserializePayload (PSIBuffer.forRead payload) d = some (buf, res) ∧
      buf.readError = false ∧ buf.rpos = 4 * (payload.length / 4) ∧
      buf.rpos ≤ payload.length ∧ buf.data = payload := by
  rw [deserializePayload_eq]
  exact ⟨_, _, rfl, rfl, rfl, Nat.mul_div_le _ 4, rfl⟩

theorem getIntAttribute_ok (e : xml.Element) (cur : Nat) (name : String) (lo hi : Int) :
    (e.getIntAttribute cur name true 0 lo hi).1 = true ↔ hasIntAttributeIn e name lo hi := by
  unfold xml.Element.getIntAttribute hasIntAttributeIn
  cases hl : e.attributes.lookup name with
  | none => simp
  | some v =>
    by_cases hr : lo ≤ v ∧ v ≤ hi
    · simp only [hr, and_self, if_true, Option.some.injEq, true_iff]
      exact ⟨v, rfl, hr.1, hr.2⟩
    · simp only [hr, if_false, Bool.false_eq_true, Option.some.injEq, false_iff]
      rintro ⟨w, rfl, h1, h2⟩
      exact hr ⟨h1, h2⟩

theorem getEntryAttributes_ok (e : xml.Element) (cur : FlexMuxBufferDescriptor_type) :
    (getEntryAttributes e cur).1 = true ↔ EntryAttributesInRange e := by
  unfold getEntryAttributes EntryAttributesInRange
  by_cases h1 : (e.getIntAttribute cur.flexMuxChnnel "flexMuxChannel" true 0 0 0xFF).1 = true
  · simp only [h1, if_true]
    rw [getIntAttribute_ok] at h1
    rw [getIntAttribute_ok]
    exact ⟨fun h => ⟨h1, h⟩, fun h => h.2⟩
  · simp only [h1, if_false, Bool.false_eq_true, false_iff]
    rw [getIntAttribute_ok] at h1
    exact fun h => h1 h.1

theorem analyzeLoop_ok (l : List xml.Element) (ok : Bool) (d : FmxBufferSizeDescriptor) :
    (analyzeLoop l ok d).1 = true ↔ ok = true ∧ ∀ c ∈ l, EntryAttributesInRange c := by
  induction l generalizing ok d with
  | nil => simp [analyzeLoop]
  | cons e rest ih =>
    cases ok with
    | false => simp [analyzeLoop]
    | true =>
      simp only [analyzeLoop, if_true, Bool.true_and, ih, getEntryAttributes_ok, true_and,
        List.mem_cons, forall_eq_or_imp]

/-- C14. `analyzeXML` rejects missing or out-of-range attributes. For every element with
exactly one child named `DefaultFlexMuxBufferDescriptor`, the call returns without
fault, and it returns `true` if and only if that child and every child named
`FlexMuxBufferDescriptor` carry both a `flexMuxChannel` attribute in `0..0xFF` and an
`FB_BufferSize` attribute in `0..0xFFFFFF`; when one of these attributes is missing
or out of range it returns `false`. -/
theorem analyzeXML_attributes (d : FmxBufferSizeDescriptor) (element : xml.Element)
    (hone : (element.children.filter
      (fun c => c.name == "DefaultFlexMuxBufferDescriptor")).length = 1) :
    ∃ ok res, d.analyzeXML element = Except.ok (ok, res) ∧
      (ok = true ↔
        (∀ c ∈ element.children.filter (fun c => c.name == "DefaultFlexMuxBufferDescriptor"),
          EntryAttributesInRange c) ∧
        (∀ c ∈ element.children.filter (fun c => c.name == "FlexMuxBufferDescriptor"),
          EntryAttributesInRange c)) := by
  obtain ⟨first, hfirst⟩ := List.length_eq_one.mp hone
  have hA : d.analyzeXML element = Except.ok
      (analyzeLoop (element.children.filter (fun c => c.name == "FlexMuxBufferDescriptor"))
        (getEntryAttributes first d.DefaultFlexMuxBufferDescriptor).1
        { DefaultFlexMuxBufferDescriptor :=
            (getEntryAttributes first d.DefaultFlexMuxBufferDescriptor).2,
          FlexMuxBufferDescriptor := d.FlexMuxBufferDescriptor }) := by
    simp only [analyzeXML, xml.Element.getChildren, hfirst, List.getElem?_cons_zero,
      List.length_singleton, Nat.le_refl, decide_True, Bool.and_self, Bool.true_and,
      Nat.zero_le, Bool.and_true]
  refine ⟨_, _, hA, ?_⟩
  simp only [analyzeLoop_ok, hfirst, getEntryAttributes_ok, List.mem_singleton, forall_eq]

/-- C14, witness: one default child with both attributes in range and one
`FlexMuxBufferDescriptor` child without `FB_BufferSize`. -/
theorem analyzeXML_attributes_witness :
    ∃ ok res, (clearContent new).analyzeXML
        (xml.Element.mk "FmxBufferSize_descriptor" []
          [xml.Element.mk "DefaultFlexMuxBufferDescriptor"
              [("flexMuxChannel", 1), ("FB_BufferSize", 2)] [],
            xml.Element.mk "FlexMuxBufferDescriptor" [("flexMuxChannel", 3)] []]) =
          Except.ok (ok, res) ∧
      (ok = true ↔
        (∀ c ∈ (xml.Element.mk "FmxBufferSize_descriptor" []
            [xml.Element.mk "DefaultFlexMuxBufferDescriptor"
                [("flexMuxChannel", 1), ("FB_BufferSize", 2)] [],
              xml.Element.mk "FlexMuxBufferDescriptor" [("flexMuxChannel", 3)] []]).children.filter
            (fun c => c.name == "DefaultFlexMuxBufferDescriptor"),
          EntryAttributesInRange c) ∧
        (∀ c ∈ (xml.Element.mk "FmxBufferSize_descriptor" []
            [xml.Element.mk "DefaultFlexMuxBufferDescriptor"
                [("flexMuxChannel", 1), ("FB_BufferSize", 2)] [],
              xml.Element.mk "FlexMuxBufferDescriptor" [("flexMuxChannel", 3)] []]).children.filter
            (fun c => c.name == "FlexMuxBufferDescriptor"),
          EntryAttributesInRange c)) :=
  analyzeXML_attributes (clearContent new) _ (by decide)

/-! ## FMCDescriptor -/

/-- C16. `FMCDescriptor::MAX_ENTRIES` is the maximum number of entries that fit in a
payload of 255 bytes: every entry takes 3 bytes (16-bit `ES_ID`, 8-bit
`FlexMuxChannel`), so that a list of entries fits exactly when it has at most
`MAX_ENTRIES = 85` entries; 85 entries take 255 bytes and 86 entries do not fit. -/
theorem fmc_max_entries (entries : List FMCDescriptor.Entry) :
    (∀ e : FMCDescriptor.Entry, e.bytes.length = 3) ∧
      (FMCDescriptor.entriesBytes entries).length = 3 * entries.length ∧
      ((FMCDescriptor.entriesBytes entries).length ≤ FMCDescriptor.MAX_DESCRIPTOR_PAYLOAD ↔
        entries.length ≤ FMCDescriptor.MAX_ENTRIES) ∧
      3 * FMCDescriptor.MAX_ENTRIES ≤ FMCDescriptor.MAX_DESCRIPTOR_PAYLOAD ∧
      ¬ (3 * (FMCDescriptor.MAX_ENTRIES + 1) ≤ FMCDescriptor.MAX_DESCRIPTOR_PAYLOAD) := by
  have hlen : ∀ l : List FMCDescriptor.Entry,
      (FMCDescriptor.entriesBytes l).length = 3 * l.length := by
    intro l
    induction l with
    | nil => rfl
    | cons e l ih =>
      simp only [FMCDescriptor.entriesBytes, List.map_cons, List.flatten_cons,
        List.length_append, List.length_cons] at ih ⊢
      rw [ih]
      simp only [FMCDescriptor.Entry.bytes, List.length_cons, List.length_nil]
      omega
  refine ⟨fun _ => rfl, hlen entries, ?_, by decide, by decide⟩
  rw [hlen]
  simp only [FMCDescriptor.MAX_DESCRIPTOR_PAYLOAD, FMCDescriptor.MAX_ENTRIES]
  omega

/-! ## Repository of descriptors -/

/-- C11. Multi-registration under two private-data-specifier scopes. With the
registrations of `src/`, resolving the tag `DID_PREF_NAME_ID` under the active
private-data-specifier `PDS_TPS` yields the same implementation (same factory, same
display function, same XML name) as resolving it under `PDS_EACEM`: the
implementation of `EacemPreferredNameIdentifierDescriptor`, and in neither case the
Generic Fallback. -/
theorem resolve_eacem_both_scopes (k : Constants) (standard : Nat) (bytes : List Nat) :
    resolve (registry k) k.DID_PREF_NAME_ID standard (some k.PDS_TPS) bytes =
        resolve (registry k) k.DID_PREF_NAME_ID standard (some k.PDS_EACEM) bytes ∧
      resolve (registry k) k.DID_PREF_NAME_ID standard (some k.PDS_TPS) bytes =
        Resolved.implementation "ts::EacemPreferredNameIdentifierDescriptor"
          "ts::EacemPreferredNameIdentifierDescriptor::DisplayDescriptor"
          "eacem_preferred_name_identifier_descriptor" ∧
      (∀ edid raw, resolve (registry k) k.DID_PREF_NAME_ID standard (some k.PDS_TPS) bytes ≠
        Resolved.fallback edid raw) ∧
      (∀ edid raw, resolve (registry k) k.DID_PREF_NAME_ID standard (some k.PDS_EACEM) bytes ≠
        Resolved.fallback edid raw) := by
  have h1 : resolve (registry k) k.DID_PREF_NAME_ID standard (some k.PDS_EACEM) bytes =
      Resolved.implementation "ts::EacemPreferredNameIdentifierDescriptor"
        "ts::EacemPreferredNameIdentifierDescriptor::DisplayDescriptor"
        "eacem_preferred_name_identifier_descriptor" := by
    simp [resolve, registry, TS_REGISTER_DESCRIPTOR, RegisteredEntry.resolved]
  have h2 : resolve (registry k) k.DID_PREF_NAME_ID standard (some k.PDS_TPS) bytes =
      Resolved.implementation "ts::EacemPreferredNameIdentifierDescriptor"
        "ts::EacemPreferredNameIdentifierDescriptor::DisplayDescriptor"
        "eacem_preferred_name_identifier_descriptor" := by
    by_cases h : k.PDS_EACEM = k.PDS_TPS
    · rw [← h]; exact h1
    · simp [resolve, registry, TS_REGISTER_DESCRIPTOR, RegisteredEntry.resolved, EDID.Private, h]
  refine ⟨by rw [h1, h2], h2, ?_, ?_⟩
  · intro edid raw; rw [h2]; exact fun h => Resolved.noConfusion h
  · intro edid raw; rw [h1]; exact fun h => Resolved.noConfusion h

/-- C12. A registration scoped by a private-data-specifier is distinct from the global
mapping of the same tag. With the registrations of `src/` (the tag of
`FmxBufferSizeDescriptor` being another tag than `DID_PREF_NAME_ID`), resolving the
tag `DID_PREF_NAME_ID` without private-data-specifier, or under a specifier other
than `PDS_EACEM` and `PDS_TPS`, yields the Generic Fallback and not
`EacemPreferredNameIdentifierDescriptor`; and for every tag and specifier the
resolution produces a structure, either a registered implementation or the Generic
Fallback with the exact bytes. -/
theorem resolve_scoped_distinct (k : Constants) (standard pds : Nat) (bytes : List Nat)
    (htag : k.DID_PREF_NAME_ID ≠ k.DID_FMX_BUFFER_SIZE)
    (h1 : pds ≠ k.PDS_EACEM) (h2 : pds ≠ k.PDS_TPS) :
    resolve (registry k) k.DID_PREF_NAME_ID standard none bytes =
        Resolved.fallback (EDID.Standard k.DID_PREF_NAME_ID) bytes ∧
      resolve (registry k) k.DID_PREF_NAME_ID standard (some pds) bytes =
        Resolved.fallback (EDID.Private k.DID_PREF_NAME_ID pds) bytes ∧
      (∀ (tag : Nat) (p : Option Nat),
        (∃ e ∈ registry k, resolve (registry k) tag standard p bytes = e.resolved) ∨
        (∃ edid, resolve (registry k) tag standard p bytes = Resolved.fallback edid bytes)) := by
  have hE : ¬ k.PDS_EACEM = pds := fun h => h1 h.symm
  have hT : ¬ k.PDS_TPS = pds := fun h => h2 h.symm
  have hD : ¬ k.DID_FMX_BUFFER_SIZE = k.DID_PREF_NAME_ID := fun h => htag h.symm
  refine ⟨?_, ?_, ?_⟩
  · simp [resolve, resolveStandard, registry, TS_REGISTER_DESCRIPTOR, EDID.Private,
      EDID.Standard, hD]
  · simp [resolve, resolveStandard, registry, TS_REGISTER_DESCRIPTOR, EDID.Private,
      EDID.Standard, hD, hE, hT]
  · intro tag p
    have hstd : ∀ raw, (∃ e ∈ registry k, resolveStandard (registry k) tag raw bytes = e.resolved) ∨
        (∃ edid, resolveStandard (registry k) tag raw bytes = Resolved.fallback edid bytes) := by
      intro raw
      unfold resolveStandard
      cases hf : (registry k).find? (fun e => decide (e.edid = EDID.Standard tag)) with
      | none => exact Or.inr ⟨raw, rfl⟩
      | some e => exact Or.inl ⟨e, List.mem_of_find?_eq_some hf, rfl⟩
    cases p with
    | none => exact hstd _
    | some q =>
      cases hf : (registry k).find? (fun e => decide (e.edid = EDID.Private tag q)) with
      | none =>
        have hr : resolve (registry k) tag standard (some q) bytes =
            resolveStandard (registry k) tag (EDID.Private tag q) bytes := by
          simp only [resolve, hf]
        rw [hr]
        exact hstd _
      | some e =>
        have hr : resolve (registry k) tag standard (some q) bytes = e.resolved := by
          simp only [resolve, hf]
        exact Or.inl ⟨e, List.mem_of_find?_eq_some hf, hr⟩

/-- C12, witness: tags `0x84` and `0x22`, specifiers `0x28` and `0x10`, and the other
specifier `0x5F`. -/
theorem resolve_scoped_distinct_witness :
    resolve (registry ⟨0x84, 0x28, 0x10, 0x22⟩) 0x84 0 none [1, 2, 3] =
        Resolved.fallback (EDID.Standard 0x84) [1, 2, 3] ∧
      resolve (registry ⟨0x84, 0x28, 0x10, 0x22⟩) 0x84 0 (some 0x5F) [1, 2, 3] =
        Resolved.fallback (EDID.Private 0x84 0x5F) [1, 2, 3] :=
  have h := resolve_scoped_distinct ⟨0x84, 0x28, 0x10, 0x22⟩ 0 0x5F [1, 2, 3]
    (by decide) (by decide) (by decide)
  ⟨h.1, h.2.1⟩

/-! ## CTS3: bounds of the final two blocks -/

namespace CTS3

theorem finalBlocks_bounds (op : List Nat → Option (List Nat)) (bs : Nat)
    (hkeep : ∀ b o : List Nat, b.length = bs → op b = some o → o.length = bs)
    (sp q tp mid tpost work : List Nat) (ol : Option Nat)
    (hq : bs < q.length) (hq2 : q.length ≤ 2 * bs) (hmid : mid.length = q.length)
    (hwork : bs ≤ work.length) :
    ∃ r, finalBlocks op bs (sp ++ q) sp.length tp.length q.length (tp ++ mid ++ tpost) ol work =
        Except.ok r ∧
      r.out_length = ol ∧ r.work.length = work.length ∧
      ∃ mid2, r.out = tp ++ mid2 ++ tpost ∧ mid2.length = q.length := by
  have hb1 : (q.take bs).length = bs := by rw [List.length_take]; omega
  have hr : (q.drop bs).length = q.length - bs := List.length_drop _ _
  unfold finalBlocks
  rw [if_pos hq]
  simp only [bind, Except.bind, pure, Except.pure]
  rw [readBytes_eq (sp ++ q) sp (q.take bs) (q.drop bs) _ _
    (by rw [List.append_assoc, List.take_append_drop]) rfl hb1.symm]
  cases hx : op (q.take bs) with
  | none =>
    simp only [hx]
    exact ⟨_, rfl, rfl, rfl, mid, rfl, hmid⟩
  | some x =>
    have hxl : x.length = bs := hkeep _ _ hb1 hx
    have hb2 : (q.drop bs ++ x.drop (q.length - bs)).length = bs := by
      simp only [List.length_append, List.length_drop, hxl]; omega
    simp only [hx]
    rw [writeBytes_eq work [] (work.take bs) (work.drop bs) x 0
      (by rw [List.nil_append, List.take_append_drop]) rfl
      (by rw [hxl, List.length_take]; omega)]
    simp only [List.nil_append]
    rw [readBytes_eq (x ++ work.drop bs) [] (x.take (q.length - bs))
      (x.drop (q.length - bs) ++ work.drop bs) 0 _
      (by rw [List.nil_append, ← List.append_assoc, List.take_append_drop]) rfl
      (by rw [List.length_take, hxl]; omega)]
    simp only []
    rw [writeBytes_eq (tp ++ mid ++ tpost) (tp ++ mid.take bs) (mid.drop bs) tpost
      (x.take (q.length - bs)) _
      (by rw [List.append_assoc tp (mid.take bs), List.take_append_drop])
      (by rw [List.length_append, List.length_take]; omega)
      (by rw [List.length_take, List.length_drop, hxl]; omega)]
    simp only []
    rw [readBytes_eq (sp ++ q) (sp ++ q.take bs) (q.drop bs) [] _ _
      (by rw [List.append_nil, List.append_assoc, List.take_append_drop])
      (by rw [List.length_append, hb1]) hr.symm]
    simp only []
    rw [writeBytes_eq (x ++ work.drop bs) [] (x.take (q.length - bs))
      (x.drop (q.length - bs) ++ work.drop bs) (q.drop bs) 0
      (by rw [List.nil_append, ← List.append_assoc, List.take_append_drop]) rfl
      (by rw [List.length_take, hr, hxl]; omega)]
    simp only [List.nil_append]
    rw [readBytes_eq (q.drop bs ++ (x.drop (q.length - bs) ++ work.drop bs)) []
      (q.drop bs ++ x.drop (q.length - bs)) (work.drop bs) 0 bs
      (by rw [List.nil_append, List.append_assoc]) rfl hb2.symm]
    have hwl : (q.drop bs ++ (x.drop (q.length - bs) ++ work.drop bs)).length = work.length := by
      simp only [List.length_append, List.length_drop, hxl]; omega
    cases hy : op (q.drop bs ++ x.drop (q.length - bs)) with
    | none =>
      simp only [hy]
      refine ⟨_, rfl, rfl, hwl, mid.take bs ++ x.take (q.length - bs), ?_, ?_⟩
      · simp only [List.append_assoc]
      · simp only [List.length_append, List.length_take, hxl]; omega
    | some y =>
      have hyl : y.length = bs := hkeep _ _ hb2 hy
      simp only [hy]
      rw [writeBytes_eq (tp ++ mid.take bs ++ x.take (q.length - bs) ++ tpost) tp
        (mid.take bs) (x.take (q.length - bs) ++ tpost) _ _
        (by simp only [List.append_assoc]) rfl (by rw [hyl, List.length_take]; omega)]
      refine ⟨_, rfl, rfl, hwl, y ++ x.take (q.length - bs), ?_, ?_⟩
      · simp only [List.append_assoc]
      · simp only [List.length_append, List.length_take, hxl, hyl]; omega

end CTS3

namespace CTS3

theorem process_bounds (op : List Nat → Option (List Nat)) (bs : Nat)
    (hkeep : ∀ b o : List Nat, b.length = bs → op b = some o → o.length = bs)
    (hbs : 1 ≤ bs) (fuel : Nat) :
    ∀ (sp q tp mid tpost work : List Nat) (ol : Option Nat),
      bs < q.length → mid.length = q.length → bs ≤ work.length →
      ecbBlocks bs q.length < fuel →
      ∃ r, process op bs (sp ++ q) fuel sp.length tp.length q.length (tp ++ mid ++ tpost)
          ol work = Except.ok r ∧
        r.out_length = ol ∧ r.work.length = work.length ∧
        (∃ mid2, r.out = tp ++ mid2 ++ tpost ∧ mid2.length = q.length) ∧
        (r.ret = false ∨
          ∃ out2, process op bs (sp ++ q) fuel sp.length tp.length q.length
              (tp ++ mid ++ tpost) ol work =
            finalBlocks op bs (sp ++ q) (sp.length + ecbBlocks bs q.length * bs)
              (tp.length + ecbBlocks bs q.length * bs)
              (q.length - ecbBlocks bs q.length * bs) out2 ol work) := by
  induction fuel with
  | zero => intro _ _ _ _ _ _ _ _ _ _ h; omega
  | succ fuel ih =>
    intro sp q tp mid tpost work ol hq hmid hwork hfuel
    by_cases hlen : q.length > 2 * bs
    · have hb1 : (q.take bs).length = bs := by rw [List.length_take]; omega
      have hstep := ecbBlocks_step bs q.length hbs hlen
      have hq2 : (q.drop bs).length = q.length - bs := List.length_drop _ _
      have hunf : process op bs (sp ++ q) (fuel + 1) sp.length tp.length q.length
          (tp ++ mid ++ tpost) ol work =
          match op (q.take bs) with
          | none => Except.ok { ret := false, out := tp ++ mid ++ tpost, out_length := ol,
                                work := work }
          | some c =>
            (writeBytes (tp ++ mid ++ tpost) tp.length c).bind (fun out =>
              process op bs (sp ++ q) fuel (sp.length + bs) (tp.length + bs)
                (q.length - bs) out ol work) := by
        rw [process, if_pos hlen]
        simp only [bind, Except.bind, pure, Except.pure]
        rw [readBytes_eq (sp ++ q) sp (q.take bs) (q.drop bs) _ _
          (by rw [List.append_assoc, List.take_append_drop]) rfl hb1.symm]
      rw [hunf]
      cases hx : op (q.take bs) with
      | none =>
        exact ⟨_, rfl, rfl, rfl, ⟨mid, rfl, hmid⟩, Or.inl rfl⟩
      | some x =>
        have hxl : x.length = bs := hkeep _ _ hb1 hx
        simp only []
        rw [writeBytes_eq (tp ++ mid ++ tpost) tp (mid.take bs) (mid.drop bs ++ tpost) x _
          (by
            conv_lhs => rw [← List.take_append_drop bs mid]
            simp only [List.append_assoc])
          rfl (by rw [hxl, List.length_take]; omega)]
        simp only [Except.bind]
        obtain ⟨r, hr, hol, hwl, ⟨mid2, hmid2, hmid2l⟩, hlink⟩ :=
          ih (sp ++ q.take bs) (q.drop bs) (tp ++ x) (mid.drop bs) tpost work ol
            (by rw [hq2]; omega) (by rw [List.length_drop, hq2, hmid]) hwork
            (by rw [hq2]; omega)
        have e1 : (sp ++ q.take bs).length = sp.length + bs := by
          rw [List.length_append, hb1]
        have e2 : (tp ++ x).length = tp.length + bs := by rw [List.length_append, hxl]
        have e3 : sp ++ q.take bs ++ q.drop bs = sp ++ q := by
          rw [List.append_assoc, List.take_append_drop]
        have e4 : tp ++ x ++ mid.drop bs ++ tpost = tp ++ x ++ (mid.drop bs ++ tpost) := by
          simp only [List.append_assoc]
        have e5 : ecbBlocks bs q.length * bs = ecbBlocks bs (q.length - bs) * bs + bs := by
          rw [hstep, Nat.succ_mul]
        have hb := ecbBlocks_bounds bs (q.length - bs) hbs (by omega)
        rw [e1, e2, e3, e4, hq2] at hr hlink
        refine ⟨r, hr, hol, hwl, ⟨x ++ mid2, ?_, ?_⟩, ?_⟩
        · rw [hmid2]; simp only [List.append_assoc]
        · rw [List.length_append, hxl, hmid2l, hq2]; omega
        · rcases hlink with h | ⟨out2, h⟩
          · exact Or.inl h
          · refine Or.inr ⟨out2, ?_⟩
            rw [h]
            congr 1 <;> omega
    · have h0 := ecbBlocks_last bs q.length (by omega) hq
      obtain ⟨r, hr, hol, hwl, hm⟩ := finalBlocks_bounds op bs hkeep sp q tp mid tpost work ol
        hq (by omega) hmid hwork
      have hunf : process op bs (sp ++ q) (fuel + 1) sp.length tp.length q.length
          (tp ++ mid ++ tpost) ol work =
          finalBlocks op bs (sp ++ q) sp.length tp.length q.length (tp ++ mid ++ tpost)
            ol work := by
        rw [process, if_neg hlen]
      refine ⟨r, by rw [hunf, hr], hol, hwl, hm, Or.inr ⟨tp ++ mid ++ tpost, ?_⟩⟩
      rw [hunf, h0]
      simp only [Nat.zero_mul, Nat.add_zero, Nat.sub_zero]

end CTS3

namespace CTS3

theorem sampleCipher_keepsBlockSize (bs : Nat) : sampleCipher.KeepsBlockSize bs := by
  intro b o hb
  constructor <;> intro h <;> simp only [sampleCipher, Option.some.injEq] at h <;>
    subst h <;> simp [hb]

theorem process_accepted_bounds (op : List Nat → Option (List Nat)) (bs : Nat)
    (hkeep : ∀ b o : List Nat, b.length = bs → op b = some o → o.length = bs)
    (hbs : 1 ≤ bs) (src dst work : List Nat) (ol : Option Nat)
    (hsrc : bs < src.length) (hdst : src.length ≤ dst.length) (hwork : bs ≤ work.length) :
    ∃ r, process op bs src src.length 0 0 src.length dst ol work = Except.ok r ∧
      r.out_length = ol ∧ r.out.length = dst.length ∧
      r.out.drop src.length = dst.drop src.length ∧ r.work.length = work.length ∧
      (r.ret = false ∨
        ∃ out2, process op bs src src.length 0 0 src.length dst ol work =
          finalBlocks op bs src (ecbBlocks bs src.length * bs) (ecbBlocks bs src.length * bs)
            (src.length - ecbBlocks bs src.length * bs) out2 ol work) := by
  have hfuel : ecbBlocks bs src.length < src.length := by
    unfold ecbBlocks
    exact Nat.lt_of_le_of_lt (Nat.div_le_self _ _) (by omega)
  have h := process_bounds op bs hkeep hbs src.length [] src [] (dst.take src.length)
    (dst.drop src.length) work ol hsrc (by rw [List.length_take]; omega) hwork hfuel
  simp only [List.nil_append, List.length_nil, List.take_append_drop, Nat.zero_add] at h
  obtain ⟨r, hr, hol, hwl, ⟨mid2, hmid2, hmid2l⟩, hlink⟩ := h
  refine ⟨r, hr, hol, ?_, ?_, hwl, hlink⟩
  · rw [hmid2, List.length_append, hmid2l, List.length_drop]; omega
  · rw [hmid2]; exact List.drop_left' hmid2l

/-- C20. Bounds of the final two blocks of CTS3 and validity of the assertion. For every
block size `bs ≥ 1` and every input of length `L > bs` that passes the argument
check, with an underlying cipher that may fail: the remaining length
`m = L - k * bs` after the `k` iterations of the ECB loop satisfies
`bs < m ≤ 2 * bs`, so that `residue_size = m - bs` lies in `1..bs`. `encryptImpl`
and `decryptImpl` both return without fault: the loop terminates, the assertion
holds, and no block operation and no `memcpy` leaves the work buffer, the input or
the output buffer. The output buffer keeps its size and its bytes from offset `L`
on, and unless the call returned `false` out of the ECB loop it ran the final two
blocks at the input offset `k * bs` with the remaining length `m`. -/
theorem cts3_final_block_bounds (c : BlockCipher) (bs : Nat) (work input output : List Nat)
    (length : Option Nat) (hbs : 1 ≤ bs) (hkeep : c.KeepsBlockSize bs)
    (hwork : bs ≤ work.length) (hlen : bs < input.length)
    (hcap : input.length ≤ output.length) :
    (bs < input.length - ecbBlocks bs input.length * bs ∧
      input.length - ecbBlocks bs input.length * bs ≤ 2 * bs ∧
      1 ≤ input.length - ecbBlocks bs input.length * bs - bs ∧
      input.length - ecbBlocks bs input.length * bs - bs ≤ bs ∧
      ecbBlocks bs input.length * bs +
        (input.length - ecbBlocks bs input.length * bs) = input.length) ∧
      (∃ r, encryptImpl { algo := some c, block_size := bs, work := work } input output
            length = Except.ok r ∧
        r.out.length = output.length ∧
        r.out.drop input.length = output.drop input.length ∧
        r.work.length = work.length ∧
        (r.ret = false ∨
          ∃ out2, encryptImpl { algo := some c, block_size := bs, work := work } input output
              length =
            finalBlocks c.encrypt bs input (ecbBlocks bs input.length * bs)
              (ecbBlocks bs input.length * bs)
              (input.length - ecbBlocks bs input.length * bs) out2
              (length.map (fun _ => input.length)) work)) ∧
      (∃ r, decryptImpl { algo := some c, block_size := bs, work := work } input output
            length = Except.ok r ∧
        r.out.length = output.length ∧
        r.out.drop input.length = output.drop input.length ∧
        r.work.length = work.length ∧
        (r.ret = false ∨
          ∃ out2, decryptImpl { algo := some c, block_size := bs, work := work } input output
              length =
            finalBlocks c.decrypt bs input (ecbBlocks bs input.length * bs)
              (ecbBlocks bs input.length * bs)
              (input.length - ecbBlocks bs input.length * bs) out2
              (length.map (fun _ => input.length)) work)) := by
  obtain ⟨hb1, hb2⟩ := ecbBlocks_bounds bs input.length hbs hlen
  have hcond : ¬ (work.length < bs ∨ input.length ≤ bs ∨ output.length < input.length) := by
    omega
  refine ⟨⟨by omega, by omega, by omega, by omega, by omega⟩, ?_, ?_⟩
  · obtain ⟨r, hr, _, h1, h2, h3, h4⟩ := process_accepted_bounds c.encrypt bs
      (fun b o hb h => (hkeep b o hb).1 h) hbs input output work
      (length.map (fun _ => input.length)) hlen hcap hwork
    have he : encryptImpl { algo := some c, block_size := bs, work := work } input output
        length = process c.encrypt bs input input.length 0 0 input.length output
          (length.map (fun _ => input.length)) work := by
      simp only [encryptImpl, hcond, if_false]
    rw [he]
    exact ⟨r, hr, h1, h2, h3, h4⟩
  · obtain ⟨r, hr, _, h1, h2, h3, h4⟩ := process_accepted_bounds c.decrypt bs
      (fun b o hb h => (hkeep b o hb).2 h) hbs input output work
      (length.map (fun _ => input.length)) hlen hcap hwork
    have he : decryptImpl { algo := some c, block_size := bs, work := work } input output
        length = process c.decrypt bs input input.length 0 0 input.length output
          (length.map (fun _ => input.length)) work := by
      simp only [decryptImpl, hcond, if_false]
    rw [he]
    exact ⟨r, hr, h1, h2, h3, h4⟩

/-- C20, witness: blocks of 3 bytes and an input of 8 bytes; two iterations would leave
2 bytes, so the loop runs once and leaves 5 bytes, a residue of 2 bytes. -/
theorem cts3_final_block_bounds_witness :
    3 < 8 - ecbBlocks 3 8 * 3 ∧ 8 - ecbBlocks 3 8 * 3 ≤ 2 * 3 ∧
      ∃ r, encryptImpl { algo := some sampleCipher, block_size := 3, work := [0, 0, 0] }
            [10, 20, 30, 40, 50, 60, 70, 80] (List.replicate 10 0) (some 0) = Except.ok r ∧
        r.out.length = (List.replicate 10 0).length ∧
        r.out.drop ([10, 20, 30, 40, 50, 60, 70, 80] : List Nat).length =
          (List.replicate 10 0).drop ([10, 20, 30, 40, 50, 60, 70, 80] : List Nat).length ∧
        r.work.length = ([0, 0, 0] : List Nat).length :=
  have h := cts3_final_block_bounds sampleCipher 3 [0, 0, 0] [10, 20, 30, 40, 50, 60, 70, 80]
    (List.replicate 10 0) (some 0) (by decide) (sampleCipher_keepsBlockSize 3) (by decide)
    (by decide) (by decide)
  ⟨h.1.1, h.1.2.1, h.2.1.imp (fun _ hr => ⟨hr.1, hr.2.1, hr.2.2.1, hr.2.2.2.1⟩)⟩

end CTS3

/-! ## TerrestrialDeliverySystemDescriptor -/

namespace TerrestrialDeliverySystemDescriptor

theorem terrestrial_serializePayload_eq (d : TerrestrialDeliverySystemDescriptor) (capacity : Nat)
    (hfit : 11 ≤ capacity) :
    d.serializePayload (PSIBuffer.forWrite capacity) =
      { PSIBuffer.forWrite capacity with
        data := [(d.centre_frequency / 10 / 16777216) % 256,
          (d.centre_frequency / 10 / 65536) % 256, (d.centre_frequency / 10 / 256) % 256,
          (d.centre_frequency / 10) % 256,
          (PSIBuffer.packBits [(d.bandwidth, 3), (d.high_priority.toNat, 1),
            (d.no_time_slicing.toNat, 1), (d.no_mpe_fec.toNat, 1), (0, 2)]) % 256,
          (PSIBuffer.packBits [(d.constellation, 2), (d.hierarchy, 3),
            (d.code_rate_hp, 3)]) % 256,
          (PSIBuffer.packBits [(d.code_rate_lp, 3), (d.guard_interval, 2),
            (d.transmission_mode, 2), (d.other_frequency.toNat, 1)]) % 256,
          0, 0, 0, 0] } := by
  have h4 : 4 ≤ capacity := by omega
  have h5 : 5 ≤ capacity := by omega
  have h6 : 6 ≤ capacity := by omega
  have h7 : 7 ≤ capacity := by omega
  simp [serializePayload, PSIBuffer.putUInt32, PSIBuffer.putUInt8, PSIBuffer.forWrite, h4, h5,
    h6, h7, hfit]

theorem deserializePayload_bytes (a0 a1 a2 a3 a4 a5 a6 a7 a8 a9 a10 : Nat) :
    deserializePayload (PSIBuffer.forRead [a0, a1, a2, a3, a4, a5, a6, a7, a8, a9, a10]) =
      ({ data := [a0, a1, a2, a3, a4, a5, a6, a7, a8, a9, a10], capacity := 11, rpos := 11,
         readError := false, writeError := false },
       { centre_frequency := (a0 * 16777216 + a1 * 65536 + a2 * 256 + a3) * 10,
         bandwidth := PSIBuffer.bitField a4 5 3,
         high_priority := PSIBuffer.bitField a4 4 1 != 0,
         no_time_slicing := PSIBuffer.bitField a4 3 1 != 0,
         no_mpe_fec := PSIBuffer.bitField a4 2 1 != 0,
         constellation := PSIBuffer.bitField a5 6 2,
         hierarchy := PSIBuffer.bitField a5 3 3,
         code_rate_hp := PSIBuffer.bitField a5 0 3,
         code_rate_lp := PSIBuffer.bitField a6 5 3,
         guard_interval := PSIBuffer.bitField a6 3 2,
         transmission_mode := PSIBuffer.bitField a6 1 2,
         other_frequency := PSIBuffer.bitField a6 0 1 != 0 }) := by
  rfl

theorem packBits_first (bw hp nts nmf : Nat) (h1 : bw ≤ 7) (h2 : hp ≤ 1) (h3 : nts ≤ 1)
    (h4 : nmf ≤ 1) :
    PSIBuffer.bitField
        (PSIBuffer.packBits [(bw, 3), (hp, 1), (nts, 1), (nmf, 1), (0, 2)] % 256) 5 3 = bw ∧
      PSIBuffer.bitField
        (PSIBuffer.packBits [(bw, 3), (hp, 1), (nts, 1), (nmf, 1), (0, 2)] % 256) 4 1 = hp ∧
      PSIBuffer.bitField
        (PSIBuffer.packBits [(bw, 3), (hp, 1), (nts, 1), (nmf, 1), (0, 2)] % 256) 3 1 = nts ∧
      PSIBuffer.bitField
        (PSIBuffer.packBits [(bw, 3), (hp, 1), (nts, 1), (nmf, 1), (0, 2)] % 256) 2 1 = nmf := by
  simp only [PSIBuffer.packBits, PSIBuffer.bitField, List.foldl_cons, List.foldl_nil,
    Nat.reducePow, Nat.zero_mul, Nat.zero_add, Nat.zero_mod, Nat.add_zero]
  refine ⟨?_, ?_, ?_, ?_⟩ <;> omega

theorem packBits_second (co hi chp : Nat) (h1 : co ≤ 3) (h2 : hi ≤ 7) (h3 : chp ≤ 7) :
    PSIBuffer.bitField (PSIBuffer.packBits [(co, 2), (hi, 3), (chp, 3)] % 256) 6 2 = co ∧
      PSIBuffer.bitField (PSIBuffer.packBits [(co, 2), (hi, 3), (chp, 3)] % 256) 3 3 = hi ∧
      PSIBuffer.bitField (PSIBuffer.packBits [(co, 2), (hi, 3), (chp, 3)] % 256) 0 3 = chp := by
  simp only [PSIBuffer.packBits, PSIBuffer.bitField, List.foldl_cons, List.foldl_nil,
    Nat.reducePow, Nat.zero_mul, Nat.zero_add, Nat.zero_mod, Nat.add_zero]
  refine ⟨?_, ?_, ?_⟩ <;> omega

theorem packBits_third (clp gi tm ofr : Nat) (h1 : clp ≤ 7) (h2 : gi ≤ 3) (h3 : tm ≤ 3)
    (h4 : ofr ≤ 1) :
    PSIBuffer.bitField
        (PSIBuffer.packBits [(clp, 3), (gi, 2), (tm, 2), (ofr, 1)] % 256) 5 3 = clp ∧
      PSIBuffer.bitField
        (PSIBuffer.packBits [(clp, 3), (gi, 2), (tm, 2), (ofr, 1)] % 256) 3 2 = gi ∧
      PSIBuffer.bitField
        (PSIBuffer.packBits [(clp, 3), (gi, 2), (tm, 2), (ofr, 1)] % 256) 1 2 = tm ∧
      PSIBuffer.bitField
        (PSIBuffer.packBits [(clp, 3), (gi, 2), (tm, 2), (ofr, 1)] % 256) 0 1 = ofr := by
  simp only [PSIBuffer.packBits, PSIBuffer.bitField, List.foldl_cons, List.foldl_nil,
    Nat.reducePow, Nat.zero_mul, Nat.zero_add, Nat.zero_mod, Nat.add_zero]
  refine ⟨?_, ?_, ?_, ?_⟩ <;> omega

theorem toNat_bne_zero (b : Bool) : (b.toNat != 0) = b := by
  cases b <;> rfl

theorem toNat_le_one (b : Bool) : b.toNat ≤ 1 := by
  cases b <;> decide

theorem frequency_bytes (f : Nat) (h1 : f % 10 = 0) (h2 : f / 10 ≤ 0xFFFFFFFF) :
    ((f / 10 / 16777216) % 256 * 16777216 + (f / 10 / 65536) % 256 * 65536
      + (f / 10 / 256) % 256 * 256 + (f / 10) % 256) * 10 = f := by
  omega

/-- C17. Bit-packed round trip of TerrestrialDeliverySystemDescriptor. For every
descriptor with legal field values, encoding gives a payload of 11 bytes without
write error, and decoding this payload reproduces every field exactly, the fields
that share a byte with other fields and the frequency, coded in units of 10 Hz,
included. This holds in particular with every field at its maximum legal value:
bandwidth 7, constellation 3, hierarchy 7, both code rates 7, guard interval 3,
transmission mode 3, all flags true and the largest frequency that the descriptor
codes. -/
theorem terrestrial_roundtrip (d : TerrestrialDeliverySystemDescriptor) (capacity : Nat)
    (hlegal : d.Legal) (hfit : 11 ≤ capacity) :
    (d.serializePayload (PSIBuffer.forWrite capacity)).writeError = false ∧
      (d.serializePayload (PSIBuffer.forWrite capacity)).data.length = 11 ∧
      (deserializePayload (PSIBuffer.forRead
        (d.serializePayload (PSIBuffer.forWrite capacity)).data)).2 = d ∧
      (deserializePayload (PSIBuffer.forRead
        (d.serializePayload (PSIBuffer.forWrite capacity)).data)).1.readError = false ∧
      (deserializePayload (PSIBuffer.forRead
        (d.serializePayload (PSIBuffer.forWrite capacity)).data)).1.rpos = 11 := by
  rw [terrestrial_serializePayload_eq d capacity hfit]
  obtain ⟨hf1, hf2, h1, h2, h3, h4, h5, h6, h7⟩ := hlegal
  rw [deserializePayload_bytes]
  refine ⟨rfl, rfl, ?_, rfl, rfl⟩
  show TerrestrialDeliverySystemDescriptor.mk _ _ _ _ _ _ _ _ _ _ _ _ = d
  obtain ⟨p1, p2, p3, p4⟩ := packBits_first d.bandwidth d.high_priority.toNat
    d.no_time_slicing.toNat d.no_mpe_fec.toNat h1 (toNat_le_one _) (toNat_le_one _)
    (toNat_le_one _)
  obtain ⟨q1, q2, q3⟩ := packBits_second d.constellation d.hierarchy d.code_rate_hp h2 h3 h4
  obtain ⟨r1, r2, r3, r4⟩ := packBits_third d.code_rate_lp d.guard_interval d.transmission_mode
    d.other_frequency.toNat h5 h6 h7 (toNat_le_one _)
  rw [p1, p2, p3, p4, q1, q2, q3, r1, r2, r3, r4, frequency_bytes _ hf1 hf2]
  simp only [toNat_bne_zero]

/-- C17, witness: every field at its maximum legal value. -/
theorem terrestrial_roundtrip_witness :
    maximal.Legal ∧
      (maximal.serializePayload (PSIBuffer.forWrite 255)).data.length = 11 ∧
      (deserializePayload (PSIBuffer.forRead
        (maximal.serializePayload (PSIBuffer.forWrite 255)).data)).2 = maximal :=
  have h := terrestrial_roundtrip maximal 255 (by decide) (by decide)
  ⟨by decide, h.2.1, h.2.2.1⟩

end TerrestrialDeliverySystemDescriptor

/-! ## CellFrequencyLinkDescriptor -/

namespace CellFrequencyLinkDescriptor

theorem subcellsBytes_length (hz : Nat) (subs : List Subcell) :
    (subcellsBytes hz subs).length = 5 * subs.length := by
  induction subs with
  | nil => rfl
  | cons s subs ih =>
    simp only [subcellsBytes, List.map_cons, List.flatten_cons, List.length_append,
      List.length_cons] at ih ⊢
    rw [ih]
    simp only [Subcell.bytes, uint32Bytes, List.length_cons, List.length_nil]
    omega

theorem subcellsBytes_cons (hz : Nat) (s : Subcell) (subs : List Subcell) :
    subcellsBytes hz (s :: subs) = Subcell.bytes hz s ++ subcellsBytes hz subs := rfl

theorem put_subcell (hz : Nat) (s : Subcell) (buf : PSIBuffer)
    (h : buf.data.length + 5 ≤ buf.capacity) :
    (buf.putUInt8 s.cell_id_extension).putUInt32 (s.transposer_frequency / hz) =
      { buf with data := buf.data ++ Subcell.bytes hz s } := by
  have h1 : buf.data.length + 1 ≤ buf.capacity := by omega
  have h2 : buf.data.length + 1 + 4 ≤ buf.capacity := by omega
  simp [PSIBuffer.putUInt8, PSIBuffer.putUInt32, h1, h2, Subcell.bytes, uint32Bytes]

theorem serializeSubcells_eq (hz : Nat) (subs : List Subcell) (buf : PSIBuffer)
    (h : buf.data.length + 5 * subs.length ≤ buf.capacity) :
    serializeSubcells hz subs buf =
      { buf with data := buf.data ++ subcellsBytes hz subs } := by
  induction subs generalizing buf with
  | nil => simp [serializeSubcells, subcellsBytes]
  | cons s subs ih =>
    simp only [List.length_cons] at h
    have ih2 := ih { buf with data := buf.data ++ Subcell.bytes hz s } (by
      simp only [List.length_append, Subcell.bytes, uint32Bytes, List.length_cons,
        List.length_nil]
      omega)
    simp only [serializeSubcells, List.foldl_cons] at ih2 ⊢
    rw [put_subcell hz s buf (by omega), ih2, subcellsBytes_cons]
    simp

theorem put_cell (hz : Nat) (c : Cell) (buf : PSIBuffer)
    (h : buf.data.length + c.encodedSize ≤ buf.capacity) (hs : 5 * c.subcells.length ≤ 0xFF) :
    ((buf.putUInt16 c.cell_id).putUInt32 (c.frequency / hz)).putLengthPrefixed8
        (serializeSubcells hz c.subcells) =
      { data := buf.data ++ Cell.bytes hz c, capacity := buf.capacity, rpos := buf.rpos,
        readError := buf.readError, writeError := buf.writeError } := by
  unfold Cell.encodedSize at h
  have h2 : buf.data.length + 2 ≤ buf.capacity := by omega
  have h6 : buf.data.length + 2 + 4 ≤ buf.capacity := by omega
  have h7 : buf.data.length + 2 + 4 + 1 ≤ buf.capacity := by omega
  have e1 : (buf.putUInt16 c.cell_id).putUInt32 (c.frequency / hz) =
      { buf with data := buf.data ++ ([(c.cell_id / 256) % 256, c.cell_id % 256] ++
          uint32Bytes (c.frequency / hz)) } := by
    simp [PSIBuffer.putUInt16, PSIBuffer.putUInt32, h2, h6, uint32Bytes]
  rw [e1]
  generalize hpre : buf.data ++ ([(c.cell_id / 256) % 256, c.cell_id % 256] ++
      uint32Bytes (c.frequency / hz)) = pre
  have hprel : pre.length = buf.data.length + 6 := by
    rw [← hpre]
    simp only [List.length_append, uint32Bytes, List.length_cons, List.length_nil]
  unfold PSIBuffer.putLengthPrefixed8
  have e2 : ({ buf with data := pre } : PSIBuffer).putUInt8 0 =
      { buf with data := pre ++ [0] } := by
    have : pre.length + 1 ≤ buf.capacity := by omega
    simp [PSIBuffer.putUInt8, this]
  simp only [e2]
  rw [serializeSubcells_eq hz c.subcells _ (by
    simp only [List.length_append, List.length_cons, List.length_nil]; omega)]
  have hn : (pre ++ [0] ++ subcellsBytes hz c.subcells).length - (pre.length + 1) =
      5 * c.subcells.length := by
    simp only [List.length_append, List.length_cons, List.length_nil, subcellsBytes_length]
    omega
  have hset : (pre ++ [0] ++ subcellsBytes hz c.subcells).set pre.length
      ((5 * c.subcells.length) % 256) =
      pre ++ [(5 * c.subcells.length) % 256] ++ subcellsBytes hz c.subcells := by
    rw [List.append_assoc, List.append_assoc, List.set_append_right _ _ (Nat.le_refl _)]
    simp
  have hnot : ¬ (255 < 5 * c.subcells.length) := by omega
  simp only [hn, hset, hnot, decide_False, Bool.or_false]
  rw [← hpre]
  simp only [Cell.bytes, List.append_assoc]

end CellFrequencyLinkDescriptor

namespace CellFrequencyLinkDescriptor

theorem Cell.bytes_length (hz : Nat) (c : Cell) : (Cell.bytes hz c).length = c.encodedSize := by
  simp only [Cell.bytes, uint32Bytes, List.length_append, List.length_cons, List.length_nil,
    subcellsBytes_length, Cell.encodedSize]

theorem cell_payloadBytes_length (hz : Nat) (d : CellFrequencyLinkDescriptor) :
    (payloadBytes hz d).length = d.encodedSize := by
  obtain ⟨cells⟩ := d
  simp only [payloadBytes, encodedSize]
  induction cells with
  | nil => rfl
  | cons c cells ih =>
    simp only [List.map_cons, List.flatten_cons, List.length_append, List.sum_cons, ih,
      Cell.bytes_length]

theorem serializeCells_eq (hz : Nat) (cells : List Cell) (buf : PSIBuffer)
    (h : buf.data.length + (cells.map Cell.encodedSize).sum ≤ buf.capacity)
    (hs : ∀ c ∈ cells, 5 * c.subcells.length ≤ 0xFF) :
    cells.foldl
        (fun buf it =>
          ((buf.putUInt16 it.cell_id).putUInt32 (it.frequency / hz)).putLengthPrefixed8
            (serializeSubcells hz it.subcells)) buf =
      { data := buf.data ++ (cells.map (Cell.bytes hz)).flatten, capacity := buf.capacity,
        rpos := buf.rpos, readError := buf.readError, writeError := buf.writeError } := by
  induction cells generalizing buf with
  | nil => simp
  | cons c cells ih =>
    simp only [List.map_cons, List.sum_cons] at h
    rw [List.foldl_cons, put_cell hz c buf (by omega) (hs c (List.mem_cons_self _ _)),
      ih _ (by simp only [List.length_append, Cell.bytes_length]; omega)
        (fun x hx => hs x (List.mem_cons_of_mem _ hx))]
    simp only [List.map_cons, List.flatten_cons, List.append_assoc]

theorem getD_at (pre rest : List Nat) (i : Nat) :
    (pre ++ rest).getD (pre.length + i) 0 = rest.getD i 0 := by
  rw [List.getD_append_right _ _ _ _ (by omega)]
  congr 1
  omega

theorem read_subcell (buf : PSIBuffer) (pre rest : List Nat) (x a b c d : Nat)
    (hdata : buf.data = pre ++ x :: a :: b :: c :: d :: rest) (hpos : buf.rpos = pre.length) :
    buf.canReadBytes 5 = true ∧
      buf.getUInt8.1 = x ∧
      buf.getUInt8.2.getUInt32.1 = a * 16777216 + b * 65536 + c * 256 + d ∧
      buf.getUInt8.2.getUInt32.2 =
        { data := buf.data, capacity := buf.capacity, rpos := buf.rpos + 5,
          readError := buf.readError, writeError := buf.writeError } := by
  have hl : buf.data.length = pre.length + 5 + rest.length := by
    rw [hdata]; simp only [List.length_append, List.length_cons]; omega
  have h1 : buf.rpos + 1 ≤ buf.data.length := by omega
  have h5 : buf.rpos + 1 + 4 ≤ buf.data.length := by omega
  have g0 := getD_at pre (x :: a :: b :: c :: d :: rest) 0
  have g1 := getD_at pre (x :: a :: b :: c :: d :: rest) 1
  have g2 := getD_at pre (x :: a :: b :: c :: d :: rest) 2
  have g3 := getD_at pre (x :: a :: b :: c :: d :: rest) 3
  have g4 := getD_at pre (x :: a :: b :: c :: d :: rest) 4
  rw [← hdata, ← hpos] at g0 g1 g2 g3 g4
  simp only [Nat.add_zero] at g0
  refine ⟨?_, ?_, ?_, ?_⟩
  · simp only [PSIBuffer.canReadBytes, decide_eq_true_eq]; omega
  · simp only [PSIBuffer.getUInt8, h1, if_true, g0]; rfl
  · simp only [PSIBuffer.getUInt8, h1, if_true, PSIBuffer.getUInt32, h5, Nat.add_assoc,
      Nat.reduceAdd, g1, g2, g3, g4]
    rfl
  · simp only [PSIBuffer.getUInt8, h1, if_true, PSIBuffer.getUInt32, h5, Nat.add_assoc,
      Nat.reduceAdd]

theorem uint32_value (v : Nat) (h : v ≤ 0xFFFFFFFF) :
    (v / 16777216) % 256 * 16777216 + (v / 65536) % 256 * 65536 + (v / 256) % 256 * 256
      + v % 256 = v := by
  omega

theorem frequency_value (hz f : Nat) (h1 : f % hz = 0) (h2 : f / hz ≤ 0xFFFFFFFF) :
    ((f / hz / 16777216) % 256 * 16777216 + (f / hz / 65536) % 256 * 65536
      + (f / hz / 256) % 256 * 256 + (f / hz) % 256) * hz = f := by
  rw [uint32_value _ h2]
  exact Nat.div_mul_cancel (Nat.dvd_of_mod_eq_zero h1)

theorem subcellLoop_eq (hz : Nat) (subs : List Subcell) :
    ∀ (fuel : Nat) (buf : PSIBuffer) (pre : List Nat) (acc : List Subcell),
      subs.length < fuel → (∀ s ∈ subs, s.Valid hz) →
      buf.data = pre ++ subcellsBytes hz subs → buf.rpos = pre.length →
      subcellLoop hz fuel buf acc =
        some ({ data := buf.data, capacity := buf.capacity, rpos := buf.data.length,
                readError := buf.readError, writeError := buf.writeError }, acc ++ subs) := by
  induction subs with
  | nil =>
    intro fuel buf pre acc hfuel _ hdata hpos
    cases fuel with
    | zero => simp at hfuel
    | succ fuel =>
      have hl : buf.data.length = buf.rpos := by
        rw [hdata, hpos]; simp [subcellsBytes]
      have hc : buf.canReadBytes 5 = false := by
        simp only [PSIBuffer.canReadBytes, decide_eq_false_iff_not]; omega
      simp only [subcellLoop, hc, Bool.false_eq_true, if_false, List.append_nil, hl]
  | cons s subs ih =>
    intro fuel buf pre acc hfuel hvalid hdata hpos
    cases fuel with
    | zero => simp at hfuel
    | succ fuel =>
      obtain ⟨hv1, hv2, hv3⟩ := hvalid s (List.mem_cons_self _ _)
      have hdata2 : buf.data = pre ++ (s.cell_id_extension % 256) ::
          ((s.transposer_frequency / hz / 16777216) % 256) ::
          ((s.transposer_frequency / hz / 65536) % 256) ::
          ((s.transposer_frequency / hz / 256) % 256) ::
          ((s.transposer_frequency / hz) % 256) :: subcellsBytes hz subs := by
        rw [hdata, subcellsBytes_cons]; rfl
      obtain ⟨r1, r2, r3, r4⟩ := read_subcell buf pre _ _ _ _ _ _ hdata2 hpos
      have hx : s.cell_id_extension % 256 = s.cell_id_extension := by
        omega
      simp only [subcellLoop, r1, if_true, r2, r3, r4, frequency_value hz _ hv2 hv3, hx]
      rw [ih fuel _ (pre ++ Subcell.bytes hz s) _ (by simpa using hfuel)
        (fun x hx => hvalid x (List.mem_cons_of_mem _ hx))
        (by simp only [hdata, subcellsBytes_cons, List.append_assoc])
        (by
          simp only [hpos, List.length_append, Subcell.bytes, uint32Bytes, List.length_cons,
            List.length_nil])]
      simp

end CellFrequencyLinkDescriptor

namespace CellFrequencyLinkDescriptor

theorem read_cell_header (buf : PSIBuffer) (pre rest : List Nat) (i1 i0 f3 f2 f1 f0 n : Nat)
    (hdata : buf.data = pre ++ i1 :: i0 :: f3 :: f2 :: f1 :: f0 :: n :: rest)
    (hpos : buf.rpos = pre.length) :
    buf.canReadBytes 7 = true ∧
      buf.getUInt16.1 = i1 * 256 + i0 ∧
      buf.getUInt16.2.getUInt32.1 = f3 * 16777216 + f2 * 65536 + f1 * 256 + f0 ∧
      buf.getUInt16.2.getUInt32.2.getUInt8.1 = n ∧
      buf.getUInt16.2.getUInt32.2.getUInt8.2 =
        { data := buf.data, capacity := buf.capacity, rpos := buf.rpos + 7,
          readError := buf.readError, writeError := buf.writeError } := by
  have hl : buf.data.length = pre.length + 7 + rest.length := by
    rw [hdata]; simp only [List.length_append, List.length_cons]; omega
  have h2 : buf.rpos + 2 ≤ buf.data.length := by omega
  have h6 : buf.rpos + 2 + 4 ≤ buf.data.length := by omega
  have h7 : buf.rpos + 2 + 4 + 1 ≤ buf.data.length := by omega
  have g0 := getD_at pre (i1 :: i0 :: f3 :: f2 :: f1 :: f0 :: n :: rest) 0
  have g1 := getD_at pre (i1 :: i0 :: f3 :: f2 :: f1 :: f0 :: n :: rest) 1
  have g2 := getD_at pre (i1 :: i0 :: f3 :: f2 :: f1 :: f0 :: n :: rest) 2
  have g3 := getD_at pre (i1 :: i0 :: f3 :: f2 :: f1 :: f0 :: n :: rest) 3
  have g4 := getD_at pre (i1 :: i0 :: f3 :: f2 :: f1 :: f0 :: n :: rest) 4
  have g5 := getD_at pre (i1 :: i0 :: f3 :: f2 :: f1 :: f0 :: n :: rest) 5
  have g6 := getD_at pre (i1 :: i0 :: f3 :: f2 :: f1 :: f0 :: n :: rest) 6
  rw [← hdata, ← hpos] at g0 g1 g2 g3 g4 g5 g6
  simp only [Nat.add_zero] at g0
  refine ⟨?_, ?_, ?_, ?_, ?_⟩
  · simp only [PSIBuffer.canReadBytes, decide_eq_true_eq]; omega
  · simp only [PSIBuffer.getUInt16, h2, if_true, g0, g1]; rfl
  · simp only [PSIBuffer.getUInt16, h2, if_true, PSIBuffer.getUInt32, h6, Nat.add_assoc,
      Nat.reduceAdd, g2, g3, g4, g5]
    rfl
  · simp only [PSIBuffer.getUInt16, h2, if_true, PSIBuffer.getUInt32, h6, PSIBuffer.getUInt8,
      h7, Nat.add_assoc, Nat.reduceAdd, g6]
    rfl
  · simp only [PSIBuffer.getUInt16, h2, if_true, PSIBuffer.getUInt32, h6, PSIBuffer.getUInt8,
      h7, Nat.add_assoc, Nat.reduceAdd]

theorem cellLoop_eq (hz : Nat) (cells : List Cell) :
    ∀ (fuel : Nat) (buf : PSIBuffer) (pre : List Nat) (acc : List Cell),
      cells.length < fuel → (∀ c ∈ cells, c.Valid hz) →
      buf.data = pre ++ (cells.map (Cell.bytes hz)).flatten → buf.rpos = pre.length →
      buf.readError = false →
      cellLoop hz fuel buf acc =
        some ({ data := buf.data, capacity := buf.capacity, rpos := buf.data.length,
                readError := false, writeError := buf.writeError }, acc ++ cells) := by
  induction cells with
  | nil =>
    intro fuel buf pre acc hfuel _ hdata hpos herr
    cases fuel with
    | zero => simp at hfuel
    | succ fuel =>
      have hl : buf.data.length = buf.rpos := by
        rw [hdata, hpos]; simp
      have hc : buf.canReadBytes 7 = false := by
        simp only [PSIBuffer.canReadBytes, decide_eq_false_iff_not]; omega
      simp only [cellLoop, hc, Bool.false_eq_true, if_false, List.append_nil, hl,
        Option.some.injEq, Prod.mk.injEq, and_true]
      rw [← herr]
  | cons c cells ih =>
    intro fuel buf pre acc hfuel hvalid hdata hpos herr
    cases fuel with
    | zero => simp at hfuel
    | succ fuel =>
      obtain ⟨hv1, hv2, hv3, hv4, hv5⟩ := hvalid c (List.mem_cons_self _ _)
      generalize hrest : (cells.map (Cell.bytes hz)).flatten = restCells at hdata
      have hdata2 : buf.data = pre ++ ((c.cell_id / 256) % 256) :: (c.cell_id % 256) ::
          ((c.frequency / hz / 16777216) % 256) :: ((c.frequency / hz / 65536) % 256) ::
          ((c.frequency / hz / 256) % 256) :: ((c.frequency / hz) % 256) ::
          ((5 * c.subcells.length) % 256) :: (subcellsBytes hz c.subcells ++ restCells) := by
        rw [hdata]
        simp only [List.map_cons, List.flatten_cons, Cell.bytes, uint32Bytes, List.append_assoc,
          List.cons_append, List.nil_append, hrest]
      obtain ⟨r1, r2, r3, r4, r5⟩ := read_cell_header buf pre _ _ _ _ _ _ _ _ hdata2 hpos
      have hid : (c.cell_id / 256) % 256 * 256 + c.cell_id % 256 = c.cell_id := by omega
      have hn : (5 * c.subcells.length) % 256 = 5 * c.subcells.length := by omega
      have hsl := subcellsBytes_length hz c.subcells
      have hlen : buf.data.length =
          pre.length + 7 + 5 * c.subcells.length + restCells.length := by
        rw [hdata2]
        simp only [List.length_append, List.length_cons, hsl]
        omega
      have hcan : PSIBuffer.canReadBytes
          ⟨buf.data, buf.capacity, buf.rpos + 7, buf.readError, buf.writeError⟩
          (5 * c.subcells.length) = true := by
        simp only [PSIBuffer.canReadBytes, decide_eq_true_eq]; omega
      have hsub : (buf.data.drop (buf.rpos + 7)).take (5 * c.subcells.length) =
          subcellsBytes hz c.subcells := by
        have e : buf.data = (pre ++ [(c.cell_id / 256) % 256, c.cell_id % 256,
            (c.frequency / hz / 16777216) % 256, (c.frequency / hz / 65536) % 256,
            (c.frequency / hz / 256) % 256, (c.frequency / hz) % 256,
            (5 * c.subcells.length) % 256]) ++ (subcellsBytes hz c.subcells ++ restCells) := by
          rw [hdata2]; simp only [List.append_assoc, List.cons_append, List.nil_append]
        rw [e, List.drop_left' (by
          simp only [List.length_append, List.length_cons, List.length_nil, hpos]),
          List.take_left' hsl]
      have hloop := subcellLoop_eq hz c.subcells (5 * c.subcells.length + 1)
        (PSIBuffer.forRead (subcellsBytes hz c.subcells)) [] [] (by omega) hv5
        (by simp [PSIBuffer.forRead]) rfl
      simp only [cellLoop, r1, if_true, r2, r3, r4, r5, hn]
      simp only [hcan, if_true, hsub, hloop]
      simp only [hid, frequency_value hz _ hv2 hv3, herr, PSIBuffer.forRead, Bool.or_self,
        List.nil_append]
      rw [ih fuel _ (pre ++ Cell.bytes hz c) _ (by simpa using hfuel)
        (fun x hx => hvalid x (List.mem_cons_of_mem _ hx))
        (by
          simp only [hdata, hrest, List.map_cons, List.flatten_cons, List.append_assoc])
        (by
          simp only [hpos, List.length_append, Cell.bytes_length, Cell.encodedSize]
          omega)
        rfl]
      simp

end CellFrequencyLinkDescriptor

namespace CellFrequencyLinkDescriptor

theorem cells_le_encodedSize (cells : List Cell) :
    cells.length ≤ (cells.map Cell.encodedSize).sum := by
  induction cells with
  | nil => simp
  | cons c cells ih =>
    simp only [List.length_cons, List.map_cons, List.sum_cons, Cell.encodedSize]
    omega

/-- C18. Nested-list round trip of CellFrequencyLinkDescriptor. Every cell encodes as
2 (cell id) + 4 (frequency) + 1 (length of its subcells) bytes plus 5 bytes per
subcell (1 byte of cell id extension and 4 bytes of frequency). For every list of
cells that the descriptor can code and that fits the buffer, the encoding has the
sum of these sizes, and decoding it gives back the same ordered list of cells, each
with the same subcells and the same values. -/
theorem cell_frequency_roundtrip (hz : Nat) (d : CellFrequencyLinkDescriptor) (capacity : Nat)
    (hvalid : ∀ c ∈ d.cells, c.Valid hz) (hfit : d.encodedSize ≤ capacity) :
    (serializePayload hz d (PSIBuffer.forWrite capacity)).writeError = false ∧
      (serializePayload hz d (PSIBuffer.forWrite capacity)).data.length =
        (d.cells.map (fun c => 2 + 4 + 1 + 5 * c.subcells.length)).sum ∧
      ∃ buf, deserializePayload hz
          (PSIBuffer.forRead (serializePayload hz d (PSIBuffer.forWrite capacity)).data) =
            some (buf, d) ∧
        buf.readError = false ∧ buf.rpos = buf.data.length := by
  have hser : serializePayload hz d (PSIBuffer.forWrite capacity) =
      { data := payloadBytes hz d, capacity := capacity, rpos := 0, readError := false,
        writeError := false } := by
    unfold serializePayload
    rw [serializeCells_eq hz d.cells _ (by simpa [PSIBuffer.forWrite] using hfit)
      (fun c hc => (hvalid c hc).2.2.2.1)]
    simp [PSIBuffer.forWrite, payloadBytes]
  have hlen := cell_payloadBytes_length hz d
  rw [hser]
  refine ⟨rfl, hlen, ?_⟩
  have hloop := cellLoop_eq hz d.cells ((payloadBytes hz d).length + 1)
    (PSIBuffer.forRead (payloadBytes hz d)) [] []
    (by
      have := cells_le_encodedSize d.cells
      rw [hlen]; unfold encodedSize; omega)
    hvalid (by simp [PSIBuffer.forRead, payloadBytes]) rfl rfl
  refine ⟨⟨payloadBytes hz d, (payloadBytes hz d).length, (payloadBytes hz d).length, false,
    false⟩, ?_, rfl, rfl⟩
  simp only [deserializePayload, PSIBuffer.remainingReadBytes, PSIBuffer.forRead, Nat.sub_zero]
  simp only [PSIBuffer.forRead] at hloop
  rw [hloop]
  rfl

/-- C18, witness: two cells, the first with one subcell and the second with none,
12 + 7 = 19 bytes, frequencies coded in units of 10 Hz. -/
theorem cell_frequency_roundtrip_witness :
    (∀ c ∈ sample.cells, c.Valid 10) ∧ sample.encodedSize = 12 + 7 ∧
      (serializePayload 10 sample (PSIBuffer.forWrite 255)).data.length = 19 ∧
      ∃ buf, deserializePayload 10
          (PSIBuffer.forRead (serializePayload 10 sample (PSIBuffer.forWrite 255)).data) =
            some (buf, sample) ∧
        buf.readError = false ∧ buf.rpos = buf.data.length :=
  have h := cell_frequency_roundtrip 10 sample 255 (by decide) (by decide)
  ⟨by decide, by decide, h.2.1, h.2.2⟩

end CellFrequencyLinkDescriptor

/-! ## Children emitted by buildXML -/

theorem entryElement_mk (nm : String) (e : FlexMuxBufferDescriptor_type) :
    entryElement nm e =
      xml.Element.mk nm
        [("flexMuxChannel", (e.flexMuxChnnel : Int)), ("FB_BufferSize", (e.FB_BufferSize : Int))]
        [] := by
  simp [entryElement, xml.Element.setIntAttribute, xml.Element.new, xml.Element.attributes,
    xml.Element.name, xml.Element.children]

/-- C21. `buildXML` emits ordered children. For every descriptor with `n` list entries
and every root element, `buildXML` leaves the name, the attributes and the existing
children of the root as they are and appends exactly `n + 1` child elements: first
one `DefaultFlexMuxBufferDescriptor` that carries the channel and the buffer size of
the default entry as the attributes `flexMuxChannel` and `FB_BufferSize`, then `n`
elements `FlexMuxBufferDescriptor` in list order, the `i`-th with the two values of
the `i`-th entry. -/
theorem buildXML_children (d : FmxBufferSizeDescriptor) (nm : String)
    (attrs : List (String × Int)) (cs : List xml.Element) :
    (d.buildXML (xml.Element.mk nm attrs cs)).name = nm ∧
      (d.buildXML (xml.Element.mk nm attrs cs)).attributes = attrs ∧
      (d.buildXML (xml.Element.mk nm attrs cs)).children =
        cs ++
          (xml.Element.mk "DefaultFlexMuxBufferDescriptor"
              [("flexMuxChannel", (d.DefaultFlexMuxBufferDescriptor.flexMuxChnnel : Int)),
                ("FB_BufferSize", (d.DefaultFlexMuxBufferDescriptor.FB_BufferSize : Int))] [] ::
            d.FlexMuxBufferDescriptor.map (fun e =>
              xml.Element.mk "FlexMuxBufferDescriptor"
                [("flexMuxChannel", (e.flexMuxChnnel : Int)),
                  ("FB_BufferSize", (e.FB_BufferSize : Int))] [])) ∧
      (d.buildXML (xml.Element.mk nm attrs cs)).children.length =
        cs.length + (d.FlexMuxBufferDescriptor.length + 1) := by
  have h : d.buildXML (xml.Element.mk nm attrs cs) =
      xml.Element.mk nm attrs
        (cs ++
          (xml.Element.mk "DefaultFlexMuxBufferDescriptor"
              [("flexMuxChannel", (d.DefaultFlexMuxBufferDescriptor.flexMuxChnnel : Int)),
                ("FB_BufferSize", (d.DefaultFlexMuxBufferDescriptor.FB_BufferSize : Int))] [] ::
            d.FlexMuxBufferDescriptor.map (fun e =>
              xml.Element.mk "FlexMuxBufferDescriptor"
                [("flexMuxChannel", (e.flexMuxChnnel : Int)),
                  ("FB_BufferSize", (e.FB_BufferSize : Int))] []))) := by
    unfold buildXML
    simp only []
    rw [addElement_mk, addElement_fold, entryElement_mk]
    have hm : List.map (entryElement "FlexMuxBufferDescriptor") d.FlexMuxBufferDescriptor =
        d.FlexMuxBufferDescriptor.map (fun e =>
          xml.Element.mk "FlexMuxBufferDescriptor"
            [("flexMuxChannel", (e.flexMuxChnnel : Int)),
              ("FB_BufferSize", (e.FB_BufferSize : Int))] []) :=
      List.map_congr_left (fun e _ => entryElement_mk _ e)
    rw [hm]
    simp only [List.append_assoc, List.singleton_append]
  rw [h]
  refine ⟨rfl, rfl, rfl, ?_⟩
  simp only [xml.Element.children, List.length_append, List.length_cons, List.length_map]

/-! ## Display of FmxBufferSizeDescriptor -/

theorem displayLoop_eq (margin : String) (fuel : Nat) :
    ∀ (buf : PSIBuffer) (i : Nat) (disp : List String),
      buf.remainingReadBytes / 4 < fuel → i + buf.remainingReadBytes / 4 ≤ 4294967296 →
      displayLoop margin fuel buf i disp =
        some ({ data := buf.data, capacity := buf.capacity,
                rpos := buf.rpos + 4 * (buf.remainingReadBytes / 4),
                readError := buf.readError, writeError := buf.writeError },
          disp ++ (List.range (buf.remainingReadBytes / 4)).map (fun k =>
            displayLine margin (toString (i + k))
              (entryAtOffset buf.data (buf.rpos + 4 * k)).flexMuxChnnel
              (entryAtOffset buf.data (buf.rpos + 4 * k)).FB_BufferSize)) := by
  induction fuel with
  | zero => intro _ _ _ h; omega
  | succ fuel ih =>
    intro buf i disp hfuel hidx
    unfold displayLoop
    by_cases hc : buf.rpos + 4 ≤ buf.data.length
    · have h1 : buf.rpos + 1 ≤ buf.data.length := by omega
      have h3 : buf.rpos + 1 + 3 ≤ buf.data.length := by omega
      have hrem : (buf.data.length - buf.rpos) / 4
          = (buf.data.length - (buf.rpos + 1 + 3)) / 4 + 1 := by
        omega
      simp only [remainingReadBytes] at hfuel hidx
      simp only [canReadBytes, hc, decide_True, if_true, getUInt8, h1, getUInt24, h3]
      rw [ih _ _ _ (by simp only [remainingReadBytes]; omega)
        (by
          simp only [remainingReadBytes]
          have := Nat.mod_le (i + 1) 4294967296
          omega)]
      simp only [remainingReadBytes]
      rw [hrem]
      simp only [List.range_succ_eq_map, List.map_cons, List.map_map, List.append_assoc,
        List.singleton_append, Option.some.injEq, Prod.mk.injEq, PSIBuffer.mk.injEq,
        true_and, and_true, List.append_cancel_left_eq, List.cons.injEq]
      refine ⟨by omega, ?_, ?_⟩
      · simp [entryAtOffset, Nat.add_assoc]
      · apply List.map_congr_left
        intro k hk
        have hk2 : k < (buf.data.length - (buf.rpos + 1 + 3)) / 4 := List.mem_range.mp hk
        have hi : (i + 1) % 4294967296 = i + 1 := Nat.mod_eq_of_lt (by omega)
        simp only [Function.comp, hi]
        have e1 : i + 1 + k = i + (k + 1) := by omega
        have e2 : buf.rpos + 1 + 3 + 4 * k = buf.rpos + 4 * (k + 1) := by omega
        rw [e1, e2]
    · have hrem : buf.remainingReadBytes / 4 = 0 := by
        unfold remainingReadBytes; omega
      simp [canReadBytes, hc, hrem]

theorem zipWith_range_map (f : Nat → FlexMuxBufferDescriptor_type → String)
    (g : Nat → FlexMuxBufferDescriptor_type) (n : Nat) :
    List.zipWith f (List.range n) ((List.range n).map g) =
      (List.range n).map (fun k => f k (g k)) := by
  rw [List.zipWith_map_right, List.zipWith_same]

theorem displayDescriptor_eq (payload : List Nat) (margin : String)
    (prior : FmxBufferSizeDescriptor) (disp : List String)
    (hcount : payload.length / 4 - 1 ≤ 4294967296) :
    ∃ buf dbuf d lines,
      DisplayDescriptor disp (PSIBuffer.forRead payload) margin = some (buf, disp ++ lines) ∧
      deserializePayload (PSIBuffer.forRead payload) prior.clearContent = some (dbuf, d) ∧
      buf.rpos = dbuf.rpos ∧ buf.rpos = 4 * (payload.length / 4) ∧
      buf.rpos ≤ payload.length ∧ buf.readError = false ∧ buf.data = payload ∧
      lines.length = payload.length / 4 ∧
      lines = (if payload.length < 4 then []
        else
          displayLine margin "default" d.DefaultFlexMuxBufferDescriptor.flexMuxChnnel
              d.DefaultFlexMuxBufferDescriptor.FB_BufferSize ::
            List.zipWith (fun k e => displayLine margin (toString k) e.flexMuxChnnel e.FB_BufferSize)
              (List.range d.FlexMuxBufferDescriptor.length) d.FlexMuxBufferDescriptor) := by
  rw [deserializePayload_eq]
  by_cases hc : 4 ≤ payload.length
  · have h1 : 1 ≤ payload.length := by omega
    have hlt : ¬ payload.length < 4 := by omega
    have e : (payload.length - 4) / 4 = payload.length / 4 - 1 := by omega
    have hd : DisplayDescriptor disp (PSIBuffer.forRead payload) margin =
        some ({ data := payload, capacity := payload.length, rpos := 4 * (payload.length / 4),
                readError := false, writeError := false },
          disp ++ (displayLine margin "default" (entryAt payload 0).flexMuxChnnel
              (entryAt payload 0).FB_BufferSize ::
            (List.range (payload.length / 4 - 1)).map (fun k =>
              displayLine margin (toString k) (entryAt payload (k + 1)).flexMuxChnnel
                (entryAt payload (k + 1)).FB_BufferSize))) := by
      unfold DisplayDescriptor
      simp only [canReadBytes, forRead, Nat.zero_add, hc, decide_True, if_true, getUInt8, h1,
        getUInt24, Nat.reduceAdd]
      rw [displayLoop_eq margin _ _ _ _ (by simp only [remainingReadBytes]; omega)
        (by simp only [remainingReadBytes]; omega)]
      simp only [remainingReadBytes, e, Option.some.injEq, Prod.mk.injEq, PSIBuffer.mk.injEq,
        true_and, and_true, List.append_assoc, List.singleton_append,
        List.append_cancel_left_eq, List.cons.injEq, Nat.zero_add]
      refine ⟨by omega, ?_, ?_⟩
      · simp [entryAt, entryAtOffset]
      · apply List.map_congr_left
        intro k _
        have e2 : 4 + 4 * k = 4 * (k + 1) := by omega
        simp only [entryAt, e2]
    refine ⟨_, _, _, _, hd, rfl, rfl, rfl, Nat.mul_div_le _ 4, rfl, rfl, ?_, ?_⟩
    · simp only [List.length_cons, List.length_map, List.length_range]; omega
    · simp only [hlt, if_false, clearContent, List.nil_append, List.length_map,
        List.length_range, zipWith_range_map]
  · have hlt : payload.length < 4 := by omega
    have h0 : payload.length / 4 = 0 := by omega
    have hd : DisplayDescriptor disp (PSIBuffer.forRead payload) margin =
        some ({ data := payload, capacity := payload.length, rpos := 4 * (payload.length / 4),
                readError := false, writeError := false }, disp ++ []) := by
      unfold DisplayDescriptor
      simp only [canReadBytes, forRead, Nat.zero_add, hc, decide_False, Bool.false_eq_true,
        if_false]
      rw [displayLoop_eq margin _ _ _ _ (by simp only [remainingReadBytes]; omega)
        (by simp only [remainingReadBytes]; omega)]
      simp [remainingReadBytes, h0]
    refine ⟨_, _, _, _, hd, rfl, rfl, rfl, Nat.mul_div_le _ 4, rfl, rfl, ?_, ?_⟩
    · simp [h0]
    · simp only [hlt, if_true]

theorem displayLine_default (margin : String) (channel size : Nat) :
    displayLine margin "default" channel size =
      margin ++ " FlexMuxBuffer(default) channel: " ++ toString channel ++ ", size: "
        ++ toString size := by
  have e : (" FlexMuxBuffer(default) channel: " : String) =
      " FlexMuxBuffer(" ++ "default" ++ ") channel: " := by decide
  unfold displayLine
  rw [e]
  simp only [String.append_assoc]

/-- C22. `DisplayDescriptor` agrees with `deserializePayload`. For every payload of `L`
bytes (with at most `2^32` list entries, so that the 32-bit counter does not wrap),
the display function returns, consumes exactly the bytes that the decoder consumes,
`4 * (L / 4)` of them, never reads past the payload, and adds `L / 4` lines to the
output. The first line is the margin followed by
` FlexMuxBuffer(default) channel: c, size: s`, with `c` and `s` the channel and the
size that the decoder stores in the default entry, in decimal. The line of the
decoded list entry of index `k = 0, 1, 2, ...` is the margin followed by
` FlexMuxBuffer(k) channel: c, size: s`, with `k` in decimal and `c` and `s` the
channel and the size of that entry, the lines being in the order of the list. -/
theorem display_agrees_with_decode (payload : List Nat) (margin : String)
    (prior : FmxBufferSizeDescriptor) (disp : List String)
    (hcount : payload.length / 4 - 1 ≤ 4294967296) :
    ∃ buf dbuf d lines,
      DisplayDescriptor disp (PSIBuffer.forRead payload) margin = some (buf, disp ++ lines) ∧
      deserializePayload (PSIBuffer.forRead payload) prior.clearContent = some (dbuf, d) ∧
      buf.rpos = dbuf.rpos ∧ buf.rpos = 4 * (payload.length / 4) ∧
      buf.rpos ≤ payload.length ∧ buf.readError = false ∧ buf.data = payload ∧
      lines.length = payload.length / 4 ∧
      lines = (if payload.length < 4 then []
        else
          (margin ++ " FlexMuxBuffer(default) channel: "
              ++ toString d.DefaultFlexMuxBufferDescriptor.flexMuxChnnel ++ ", size: "
              ++ toString d.DefaultFlexMuxBufferDescriptor.FB_BufferSize) ::
            List.zipWith
              (fun k e => margin ++ " FlexMuxBuffer(" ++ toString k ++ ") channel: "
                ++ toString e.flexMuxChnnel ++ ", size: " ++ toString e.FB_BufferSize)
              (List.range d.FlexMuxBufferDescriptor.length) d.FlexMuxBufferDescriptor) ∧
      (∀ k (hk : k < d.FlexMuxBufferDescriptor.length), lines[k + 1]? =
        some (margin ++ " FlexMuxBuffer(" ++ toString k ++ ") channel: "
          ++ toString (d.FlexMuxBufferDescriptor.get ⟨k, hk⟩).flexMuxChnnel ++ ", size: "
          ++ toString (d.FlexMuxBufferDescriptor.get ⟨k, hk⟩).FB_BufferSize)) := by
  obtain ⟨buf, dbuf, d, lines, h1, h2, h3, h4, h5, h6, h7, h8, h9⟩ :=
    displayDescriptor_eq payload margin prior disp hcount
  have h10 : lines = (if payload.length < 4 then []
        else
          (margin ++ " FlexMuxBuffer(default) channel: "
              ++ toString d.DefaultFlexMuxBufferDescriptor.flexMuxChnnel ++ ", size: "
              ++ toString d.DefaultFlexMuxBufferDescriptor.FB_BufferSize) ::
            List.zipWith
              (fun k e => margin ++ " FlexMuxBuffer(" ++ toString k ++ ") channel: "
                ++ toString e.flexMuxChnnel ++ ", size: " ++ toString e.FB_BufferSize)
              (List.range d.FlexMuxBufferDescriptor.length) d.FlexMuxBufferDescriptor) := by
    rw [h9, displayLine_default]
    rfl
  refine ⟨buf, dbuf, d, lines, h1, h2, h3, h4, h5, h6, h7, h8, h10, ?_⟩
  intro k hk
  have hlt : ¬ payload.length < 4 := by
    intro hc
    rw [deserializePayload_eq] at h2
    simp only [Option.some.injEq, Prod.mk.injEq, hc, if_true] at h2
    have hk2 := hk
    rw [← h2.2] at hk2
    exact absurd hk2 (Nat.not_lt_zero k)
  rw [h10]
  simp only [hlt, if_false, List.getElem?_cons_succ]
  rw [List.getElem?_eq_getElem (by simpa using hk)]
  simp

/-- C22, witness: a payload of 13 bytes, that is, the default entry (channel 1, size
2), two list entries (channel 3, size 4 and channel 200, size 262) and one trailing
byte, displayed with a margin of two blanks. -/
theorem display_agrees_with_decode_witness :
    ([1, 0, 0, 2, 3, 0, 0, 4, 200, 0, 1, 6, 9] : List Nat).length / 4 - 1 ≤ 4294967296 ∧
      ∃ buf,
        DisplayDescriptor [] (PSIBuffer.forRead [1, 0, 0, 2, 3, 0, 0, 4, 200, 0, 1, 6, 9])
            "  " =
          some (buf, ["   FlexMuxBuffer(default) channel: 1, size: 2",
                      "   FlexMuxBuffer(0) channel: 3, size: 4",
                      "   FlexMuxBuffer(1) channel: 200, size: 262"]) ∧
        buf.rpos = 12 ∧ buf.readError = false := by
  refine ⟨by decide, ?_⟩
  obtain ⟨buf, dbuf, d, lines, h1, h2, _, h4, _, h6, _, _, h9, _⟩ :=
    display_agrees_with_decode [1, 0, 0, 2, 3, 0, 0, 4, 200, 0, 1, 6, 9] "  " new []
      (by decide)
  have hd : deserializePayload (PSIBuffer.forRead [1, 0, 0, 2, 3, 0, 0, 4, 200, 0, 1, 6, 9])
      new.clearContent =
      some ({ data := [1, 0, 0, 2, 3, 0, 0, 4, 200, 0, 1, 6, 9], capacity := 13, rpos := 12,
              readError := false, writeError := false },
        { DefaultFlexMuxBufferDescriptor := { flexMuxChnnel := 1, FB_BufferSize := 2 },
          FlexMuxBufferDescriptor := [{ flexMuxChnnel := 3, FB_BufferSize := 4 },
                                      { flexMuxChnnel := 200, FB_BufferSize := 262 }] }) := by
    rfl
  rw [hd] at h2
  simp only [Option.some.injEq, Prod.mk.injEq] at h2
  obtain ⟨_, rfl⟩ := h2
  have hl : lines = ["   FlexMuxBuffer(default) channel: 1, size: 2",
                      "   FlexMuxBuffer(0) channel: 3, size: 4",
                      "   FlexMuxBuffer(1) channel: 200, size: 262"] := by
    rw [h9]
    decide
  rw [hl] at h1
  exact ⟨buf, h1, h4, h6⟩

/-! ## CTS3: encryption after decryption, and rejected arguments -/

namespace CTS3

/-- C23. CTS3 encryption undoes CTS3 decryption. For every block size `bs ≥ 1`, every
underlying cipher that never fails and whose single-block encryption inverts its
single-block decryption, and every byte string `C` of length `L > bs`: `decryptImpl`
returns `true` with a plaintext of `L` bytes, and `encryptImpl` of that plaintext
returns `true` with exactly `C`. When single-block decryption also inverts
single-block encryption, two plaintexts of length `L` with the same ciphertext are
equal, so that CTS3 encryption is a length-preserving bijection on the byte strings
of each length `L > bs`. -/
theorem cts3_encrypt_decrypt (c : BlockCipher) (bs : Nat)
    (work cipher plain cipher2 p1 p2 out1 out2 : List Nat)
    (plain_length cipher_length : Option Nat)
    (hbs : 1 ≤ bs) (hnf : c.NeverFails bs)
    (hinv : ∀ b o : List Nat, b.length = bs → c.decrypt b = some o → c.encrypt o = some b)
    (hwork : bs ≤ work.length) (hlen : bs < cipher.length)
    (hcap : cipher.length ≤ plain.length) (hcap2 : cipher.length ≤ cipher2.length) :
    (∃ r, decryptImpl { algo := some c, block_size := bs, work := work } cipher plain
          plain_length = Except.ok r ∧
      r.ret = true ∧ r.out_length = plain_length.map (fun _ => cipher.length) ∧
      (r.out.take cipher.length).length = cipher.length ∧
      ∃ r2, encryptImpl { algo := some c, block_size := bs, work := r.work }
            (r.out.take cipher.length) cipher2 cipher_length = Except.ok r2 ∧
        r2.ret = true ∧ r2.out_length = cipher_length.map (fun _ => cipher.length) ∧
        r2.out.take cipher.length = cipher) ∧
      ((∀ b o : List Nat, b.length = bs → c.encrypt b = some o → c.decrypt o = some b) →
        p1.length = cipher.length → p2.length = cipher.length →
        p1.length ≤ out1.length → p2.length ≤ out2.length →
        ∃ r1 r2,
          encryptImpl { algo := some c, block_size := bs, work := work } p1 out1
            cipher_length = Except.ok r1 ∧
          encryptImpl { algo := some c, block_size := bs, work := work } p2 out2
            cipher_length = Except.ok r2 ∧
          (r1.out.take cipher.length).length = cipher.length ∧
          (r1.out.take cipher.length = r2.out.take cipher.length → p1 = p2)) := by
  obtain ⟨hb1, hb2⟩ := ecbBlocks_bounds bs cipher.length hbs hlen
  have hfl : ∀ b : List Nat, b.length = bs → (blockFun c.decrypt b).length = bs :=
    fun b hb => (blockFun_decrypt c bs hnf b hb).2
  have hel : ∀ b : List Nat, b.length = bs → (blockFun c.encrypt b).length = bs :=
    fun b hb => (blockFun_encrypt c bs hnf b hb).2
  constructor
  · obtain ⟨w, hw, hwl⟩ := decryptImpl_accepted c bs work cipher plain plain_length hbs hnf
      hwork hlen hcap
    have hrl := reference_length (blockFun c.decrypt) bs hfl _ cipher hb1 hb2
    have hgf : ∀ b : List Nat, b.length = bs →
        blockFun c.encrypt (blockFun c.decrypt b) = b := by
      intro b hb
      have h1 := hinv b _ hb (blockFun_decrypt c bs hnf b hb).1
      show (c.encrypt (blockFun c.decrypt b)).getD [] = b
      rw [h1]
      rfl
    have htake : (reference (blockFun c.decrypt) bs (ecbBlocks bs cipher.length) cipher
        ++ plain.drop cipher.length).take cipher.length =
        reference (blockFun c.decrypt) bs (ecbBlocks bs cipher.length) cipher :=
      List.take_left' hrl
    refine ⟨_, hw, rfl, rfl, ?_, ?_⟩
    · simp only [htake, hrl]
    · simp only [htake]
      obtain ⟨w2, hw2, _⟩ := encryptImpl_accepted c bs w
        (reference (blockFun c.decrypt) bs (ecbBlocks bs cipher.length) cipher) cipher2
        cipher_length hbs hnf (by omega) (by omega) (by omega)
      rw [hrl] at hw2
      refine ⟨_, hw2, rfl, rfl, ?_⟩
      simp only [reference_inverse (blockFun c.decrypt) (blockFun c.encrypt) bs hfl hgf _
        cipher hb1 hb2]
      exact List.take_left' rfl
  · intro hinv2 hl1 hl2 hc1 hc2
    have hfg : ∀ b : List Nat, b.length = bs →
        blockFun c.decrypt (blockFun c.encrypt b) = b := by
      intro b hb
      have h1 := hinv2 b _ hb (blockFun_encrypt c bs hnf b hb).1
      show (c.decrypt (blockFun c.encrypt b)).getD [] = b
      rw [h1]
      rfl
    obtain ⟨w1, hw1, _⟩ := encryptImpl_accepted c bs work p1 out1 cipher_length hbs hnf
      hwork (by omega) hc1
    obtain ⟨w2, hw2, _⟩ := encryptImpl_accepted c bs work p2 out2 cipher_length hbs hnf
      hwork (by omega) hc2
    have hr1 := reference_length (blockFun c.encrypt) bs hel _ p1 (by rw [hl1]; exact hb1)
      (by rw [hl1]; exact hb2)
    have hr2 := reference_length (blockFun c.encrypt) bs hel _ p2 (by rw [hl2]; exact hb1)
      (by rw [hl2]; exact hb2)
    rw [hl1] at hw1 hr1
    rw [hl2] at hw2 hr2
    have ht1 : (reference (blockFun c.encrypt) bs (ecbBlocks bs cipher.length) p1
        ++ out1.drop cipher.length).take cipher.length =
        reference (blockFun c.encrypt) bs (ecbBlocks bs cipher.length) p1 :=
      List.take_left' hr1
    have ht2 : (reference (blockFun c.encrypt) bs (ecbBlocks bs cipher.length) p2
        ++ out2.drop cipher.length).take cipher.length =
        reference (blockFun c.encrypt) bs (ecbBlocks bs cipher.length) p2 :=
      List.take_left' hr2
    refine ⟨_, _, hw1, hw2, ?_, ?_⟩
    · simp only [ht1, hr1, hl1]
    · simp only [ht1, ht2]
      intro heq
      have i1 := reference_inverse (blockFun c.encrypt) (blockFun c.decrypt) bs hel hfg _ p1
        (by rw [hl1]; exact hb1) (by rw [hl1]; exact hb2)
      have i2 := reference_inverse (blockFun c.encrypt) (blockFun c.decrypt) bs hel hfg _ p2
        (by rw [hl2]; exact hb1) (by rw [hl2]; exact hb2)
      rw [← i1, ← i2, heq]

end CTS3

namespace CTS3

theorem cycleCipher_neverFails (bs : Nat) : cycleCipher.NeverFails bs := by
  intro b hb
  exact ⟨⟨_, rfl, by simp [hb]⟩, ⟨_, rfl, by simp [hb]⟩⟩

theorem cycleCipher_encrypt_decrypt (b o : List Nat) (h : cycleCipher.decrypt b = some o) :
    cycleCipher.encrypt o = some b := by
  simp only [cycleCipher, Option.some.injEq] at h ⊢
  subst h
  simp only [List.map_reverse, List.reverse_reverse, List.map_map]
  conv_rhs => rw [← List.map_id b]
  apply List.map_congr_left
  intro x _
  simp only [Function.comp_apply, id_eq]
  split_ifs <;> omega

theorem cycleCipher_decrypt_encrypt (b o : List Nat) (h : cycleCipher.encrypt b = some o) :
    cycleCipher.decrypt o = some b := by
  simp only [cycleCipher, Option.some.injEq] at h ⊢
  subst h
  simp only [List.map_reverse, List.reverse_reverse, List.map_map]
  conv_rhs => rw [← List.map_id b]
  apply List.map_congr_left
  intro x _
  simp only [Function.comp_apply, id_eq]
  split_ifs <;> omega

/-- C23, witness: blocks of 3 bytes and a ciphertext of 8 bytes (two blocks and a
residue of 2 bytes), decrypted into a buffer of 10 bytes; two distinct plaintexts of
8 bytes for the second part. -/
theorem cts3_encrypt_decrypt_witness :
    (∃ r, decryptImpl { algo := some cycleCipher, block_size := 3, work := [0, 0, 0] }
          [10, 20, 30, 40, 50, 60, 70, 80] (List.replicate 10 0) (some 0) = Except.ok r ∧
      r.ret = true ∧ r.out_length = (some 0).map (fun _ => 8) ∧
      (r.out.take 8).length = 8 ∧
      ∃ r2, encryptImpl { algo := some cycleCipher, block_size := 3, work := r.work }
            (r.out.take 8) (List.replicate 8 0) none = Except.ok r2 ∧
        r2.ret = true ∧ r2.out_length = (none : Option Nat).map (fun _ => 8) ∧
        r2.out.take 8 = [10, 20, 30, 40, 50, 60, 70, 80]) ∧
      ∃ r1 r2,
        encryptImpl { algo := some cycleCipher, block_size := 3, work := [0, 0, 0] }
          [1, 2, 3, 4, 5, 6, 7, 8] (List.replicate 8 0) none = Except.ok r1 ∧
        encryptImpl { algo := some cycleCipher, block_size := 3, work := [0, 0, 0] }
          [1, 2, 3, 4, 5, 6, 7, 9] (List.replicate 9 0) none = Except.ok r2 ∧
        (r1.out.take 8).length = 8 ∧
        (r1.out.take 8 = r2.out.take 8 →
          ([1, 2, 3, 4, 5, 6, 7, 8] : List Nat) = [1, 2, 3, 4, 5, 6, 7, 9]) :=
  match cts3_encrypt_decrypt cycleCipher 3 [0, 0, 0] [10, 20, 30, 40, 50, 60, 70, 80]
    (List.replicate 10 0) (List.replicate 8 0) [1, 2, 3, 4, 5, 6, 7, 8]
    [1, 2, 3, 4, 5, 6, 7, 9] (List.replicate 8 0) (List.replicate 9 0) (some 0) none
    (by decide) (cycleCipher_neverFails 3)
    (fun b o _ h => cycleCipher_encrypt_decrypt b o h) (by decide) (by decide) (by decide)
    (by decide) with
  | ⟨h1, h2⟩ =>
    ⟨h1, h2 (fun b o _ h => cycleCipher_decrypt_encrypt b o h) (by decide) (by decide)
      (by decide) (by decide)⟩

/-- C24. Argument rejection of CTS3 is atomic. Whenever no underlying cipher is set,
the work buffer is smaller than `block_size`, the input length is at most
`block_size`, or the output capacity is smaller than the input length, `encryptImpl`
and `decryptImpl` both return `false`, and neither the output buffer nor the reported
output length (`cipher_length`, `plain_length`) nor the work buffer has been
written. -/
theorem cts3_rejection_atomic (cts : CTS3) (input output : List Nat) (out_length : Option Nat)
    (h : cts.algo = none ∨ cts.work.length < cts.block_size ∨
      input.length ≤ cts.block_size ∨ output.length < input.length) :
    encryptImpl cts input output out_length =
        Except.ok { ret := false, out := output, out_length := out_length, work := cts.work } ∧
      decryptImpl cts input output out_length =
        Except.ok { ret := false, out := output, out_length := out_length, work := cts.work } := by
  unfold encryptImpl decryptImpl
  cases ha : cts.algo with
  | none => exact ⟨rfl, rfl⟩
  | some algo =>
    have h2 : cts.work.length < cts.block_size ∨ input.length ≤ cts.block_size ∨
        output.length < input.length := by
      rcases h with h | h
      · rw [ha] at h
        cases h
      · exact h
    simp only [if_pos h2]
    exact ⟨rfl, rfl⟩

/-- C24, witness: a cipher is set and the work buffer is large enough, the input of
3 bytes is not longer than the block, the output buffer holds four bytes and the
length variable holds 99. -/
theorem cts3_rejection_atomic_witness :
    ((some sampleCipher = none) ∨ ([0, 0, 0] : List Nat).length < 3 ∨
        ([1, 2, 3] : List Nat).length ≤ 3 ∨
        ([7, 7, 7, 7] : List Nat).length < ([1, 2, 3] : List Nat).length) ∧
      encryptImpl { algo := some sampleCipher, block_size := 3, work := [0, 0, 0] } [1, 2, 3]
          [7, 7, 7, 7] (some 99) =
        Except.ok { ret := false, out := [7, 7, 7, 7], out_length := some 99,
                    work := [0, 0, 0] } ∧
      decryptImpl { algo := some sampleCipher, block_size := 3, work := [0, 0, 0] } [1, 2, 3]
          [7, 7, 7, 7] (some 99) =
        Except.ok { ret := false, out := [7, 7, 7, 7], out_length := some 99,
                    work := [0, 0, 0] } :=
  ⟨Or.inr (Or.inr (Or.inl (by decide))),
    cts3_rejection_atomic { algo := some sampleCipher, block_size := 3, work := [0, 0, 0] }
      [1, 2, 3] [7, 7, 7, 7] (some 99) (Or.inr (Or.inr (Or.inl (by decide))))⟩

end CTS3

end ts
